import Mathlib

/-!
# MCG_GFX_Framework: the line rasteriser and the shapes built on it

A shallow embedding of `src/Main.cpp`.

* `int` is modelled by `Int` (no overflow). A `float` is modelled by the
  rational number it holds, and the conversion of a `float` to an `int` by
  truncation toward zero. Float literals have their binary32 values.
* The arithmetic of the program is binary32: every conversion of an `int` to
  a `float` and every float operation rounds its exact result to the nearest
  binary32 number, ties to even (`binary32_round`, `float_of_int`,
  `float_add`, `float_sub`, `float_mul`, `float_div`). The definitions named
  `float32.*` embed the functions of the program with this arithmetic, one
  rounding for each operation of the source. The library functions
  `std::cos`, `std::sin`, `glm::radians` and `std::pow` are parameters of the
  functions that call them.
* The definitions without the prefix (`draw_line`, `draw_triangle`,
  `draw_sierpiernski_triangle`, ...) embed the same functions with exact
  rational arithmetic in place of the rounded operations. They carry the
  properties that do not depend on the values of the floats (which loop runs,
  how many calls are made, in what order, whether a run returns), and they are
  the reference to which the binary32 pixels are compared: for coordinates
  that binary32 holds exactly the two agree on axis-aligned and diagonal
  lines, and for coordinates of magnitude at most 1024 the binary32 ordinate
  of a line is within `3 / 8192` of the exact one.
* The effect of a drawing routine is modelled by explicit state passing over a
  `Trace`: the ordered log of `MCG::DrawPixel` calls, together with two ghost
  logs (the float divisions that were evaluated, and the calls made to
  `draw_triangle`).
* The `for` loops of `draw_line` and `draw_curve` and the recursion of
  `draw_sierpiernski_triangle` are not bounded syntactically, so they are run
  with fuel and return `none` when the fuel runs out.
-/

namespace MCG

/-- The type `glm::ivec2`: a pair of `int`s. -/
structure ivec2 where
  x : Int
  y : Int
deriving DecidableEq, Repr

/-- The type `glm::ivec3`: a triple of `int`s (used for colours). -/
structure ivec3 where
  x : Int
  y : Int
  z : Int
deriving DecidableEq, Repr

/-- The type `glm::vec2`: a pair of `float`s. -/
structure vec2 where
  x : ℚ
  y : ℚ
deriving DecidableEq

/-- Conversion of a `float` to an `int`: truncation toward zero. -/
def float_to_int (q : ℚ) : Int :=
  if 0 ≤ q then ⌊q⌋ else ⌈q⌉

/-- Conversion of a `glm::vec2` to a `glm::ivec2`, component by component. -/
def vec2.to_ivec2 (v : vec2) : ivec2 :=
  ⟨float_to_int v.x, float_to_int v.y⟩

/-- The observable effect of the drawing routines. -/
structure Trace where
  /-- The calls of `MCG::DrawPixel`, oldest first. -/
  pixels : List (ivec2 × ivec3)
  /-- Ghost log: every float division evaluated, as (dividend, divisor). -/
  divisions : List (ℚ × ℚ)
  /-- Ghost log: the arguments of every call of `draw_triangle`. -/
  triangles : List (ivec2 × ivec2 × ivec2)
deriving DecidableEq

/-- Modelled from the spec: `MCG::DrawPixel` is declared in `MCG_GFX_Lib.h`,
which is not part of the sources; the spec says it commits one pixel, so it
is modelled as appending one entry to the log of pixel writes. -/
def DrawPixel (position : ivec2) (colour : ivec3) (s : Trace) : Trace :=
  { s with pixels := s.pixels ++ [(position, colour)] }

/-- A float division `a / b`, logged in the ghost log of divisions. -/
def log_division (a b : ℚ) (s : Trace) : Trace :=
  { s with divisions := s.divisions ++ [(a, b)] }

/-- The loop `for (int x = start.x; x != end.x;) { DrawPixel(..); x += sx; }`
of `draw_line` (lines 32-40), started at `x`. -/
def draw_line_loop_x (slope pitch : ℚ) (sx end_x : Int) (colour : ivec3) :
    Nat → Int → Trace → Option Trace
  | 0, x, s => if x ≠ end_x then none else some s
  | fuel + 1, x, s =>
    if x ≠ end_x then
      draw_line_loop_x slope pitch sx end_x colour fuel (x + sx)
        (DrawPixel ⟨x, float_to_int (slope * x + pitch)⟩ colour s)
    else some s

/-- The loop `for (int y = start.y; y != end.y;) { DrawPixel(..); y += sy; }`
of `draw_line` (lines 51-59), started at `y`. -/
def draw_line_loop_y (slope pitch : ℚ) (sy end_y : Int) (colour : ivec3) :
    Nat → Int → Trace → Option Trace
  | 0, y, s => if y ≠ end_y then none else some s
  | fuel + 1, y, s =>
    if y ≠ end_y then
      draw_line_loop_y slope pitch sy end_y colour fuel (y + sy)
        (DrawPixel ⟨float_to_int (slope * y + pitch), y⟩ colour s)
    else some s

/-- The function `draw_line` (lines 14-63). -/
def draw_line (fuel : Nat) (start end_ : ivec2) (colour : ivec3) (s : Trace) :
    Option Trace :=
  let dx : ℚ := ((end_.x - start.x : Int) : ℚ)
  let dy : ℚ := ((end_.y - start.y : Int) : ℚ)
  let sx : Int := if dx < 0 then -1 else 1
  let sy : Int := if dy < 0 then -1 else 1
  if |dx| > |dy| then
    let slope : ℚ := dy / dx
    let pitch : ℚ := (start.y : ℚ) - slope * (start.x : ℚ)
    (draw_line_loop_x slope pitch sx end_.x colour fuel start.x
      (log_division dy dx s)).map (DrawPixel end_ colour)
  else
    let slope : ℚ := dx / dy
    let pitch : ℚ := (start.x : ℚ) - slope * (start.y : ℚ)
    (draw_line_loop_y slope pitch sy end_.y colour fuel start.y
      (log_division dx dy s)).map (DrawPixel end_ colour)

/-- The function `draw_triangle` (lines 69-79); the call is recorded in the
ghost log of triangles. -/
def draw_triangle (fuel : Nat) (p1 p2 p3 : ivec2) (colour : ivec3) (s : Trace) :
    Option Trace :=
  (draw_line fuel p1 p2 colour
      { s with triangles := s.triangles ++ [(p1, p2, p3)] }).bind fun s1 =>
  (draw_line fuel p2 p3 colour s1).bind fun s2 =>
  draw_line fuel p3 p1 colour s2

/-- The function `draw_rectangle` (lines 115-121). -/
def draw_rectangle (fuel : Nat) (dimensions position : ivec2) (colour : ivec3)
    (s : Trace) : Option Trace :=
  (draw_line fuel position ⟨position.x + dimensions.x, position.y⟩ colour s).bind
    fun s1 =>
  (draw_line fuel ⟨position.x + dimensions.x, position.y⟩
    ⟨position.x + dimensions.x, position.y + dimensions.y⟩ colour s1).bind fun s2 =>
  (draw_line fuel ⟨position.x + dimensions.x, position.y + dimensions.y⟩
    ⟨position.x, position.y + dimensions.y⟩ colour s2).bind fun s3 =>
  draw_line fuel ⟨position.x, position.y + dimensions.y⟩ position colour s3

/-- The function `draw_sierpiernski_triangle` (lines 278-303). The midpoints
are computed with `int` division (truncating), stored in a `glm::vec2` and
converted back to `glm::ivec2` when passed on. -/
def draw_sierpiernski_triangle :
    Nat → ivec2 → ivec2 → ivec2 → Int → ivec3 → Trace → Option Trace
  | 0, _, _, _, _, _, _ => none
  | fuel + 1, x, y, z, generation, colour, s =>
    if generation = 1 then
      draw_triangle fuel x y z colour s
    else
      let p1 : vec2 := ⟨(Int.tdiv (x.x + y.x) 2 : Int), (Int.tdiv (x.y + y.y) 2 : Int)⟩
      let p2 : vec2 := ⟨(Int.tdiv (y.x + z.x) 2 : Int), (Int.tdiv (y.y + z.y) 2 : Int)⟩
      let p3 : vec2 := ⟨(Int.tdiv (z.x + x.x) 2 : Int), (Int.tdiv (z.y + x.y) 2 : Int)⟩
      (draw_sierpiernski_triangle fuel x p1.to_ivec2 p3.to_ivec2 (generation - 1)
        colour s).bind fun s1 =>
      (draw_sierpiernski_triangle fuel p1.to_ivec2 y p2.to_ivec2 (generation - 1)
        colour s1).bind fun s2 =>
      draw_sierpiernski_triangle fuel p3.to_ivec2 p2.to_ivec2 z (generation - 1)
        colour s2

/-! ## Auxiliary descriptions of what `draw_line` writes -/

/-- The number of loop iterations of `draw_line`. -/
def line_steps (start end_ : ivec2) : Nat :=
  max (end_.x - start.x).natAbs (end_.y - start.y).natAbs

/-- The sign computed by `dx < 0 ? -1 : 1`. -/
def step_sign (d : Int) : Int := if d < 0 then -1 else 1

/-- The pixel written by iteration `i` of the loop over `x`. -/
def line_point_x (start end_ : ivec2) (i : Nat) : ivec2 :=
  let slope : ℚ := ((end_.y - start.y : Int) : ℚ) / ((end_.x - start.x : Int) : ℚ)
  let pitch : ℚ := (start.y : ℚ) - slope * (start.x : ℚ)
  let x : Int := start.x + i * step_sign (end_.x - start.x)
  ⟨x, float_to_int (slope * x + pitch)⟩

/-- The pixel written by iteration `i` of the loop over `y`. -/
def line_point_y (start end_ : ivec2) (i : Nat) : ivec2 :=
  let slope : ℚ := ((end_.x - start.x : Int) : ℚ) / ((end_.y - start.y : Int) : ℚ)
  let pitch : ℚ := (start.x : ℚ) - slope * (start.y : ℚ)
  let y : Int := start.y + i * step_sign (end_.y - start.y)
  ⟨float_to_int (slope * y + pitch), y⟩

/-- The pixel written by iteration `i` of the loop that `draw_line` runs. -/
def line_point (start end_ : ivec2) (i : Nat) : ivec2 :=
  if |end_.x - start.x| > |end_.y - start.y| then line_point_x start end_ i
  else line_point_y start end_ i

/-- The float division evaluated by `draw_line`, as (dividend, divisor). -/
def line_division (start end_ : ivec2) : ℚ × ℚ :=
  if |end_.x - start.x| > |end_.y - start.y| then
    (((end_.y - start.y : Int) : ℚ), ((end_.x - start.x : Int) : ℚ))
  else (((end_.x - start.x : Int) : ℚ), ((end_.y - start.y : Int) : ℚ))

/-- The pixels written by `draw_line`, in order. -/
def line_points (start end_ : ivec2) : List ivec2 :=
  (List.range (line_steps start end_)).map (line_point start end_) ++ [end_]

/-- The exact ordinate `slope * c + pitch` computed in either loop, for the
line through `(c0, v0)` with direction `(dc, dv)`. -/
def line_value (c0 v0 dc dv : Int) (c : Int) : ℚ :=
  ((dv : ℚ) / (dc : ℚ)) * (c : ℚ) + ((v0 : ℚ) - ((dv : ℚ) / (dc : ℚ)) * (c0 : ℚ))

/-- Fuel that suffices for the three lines of a triangle. -/
def triangle_fuel (p1 p2 p3 : ivec2) : Nat :=
  max (line_steps p1 p2) (max (line_steps p2 p3) (line_steps p3 p1))

/-- The trace after `draw_line` has returned. -/
def line_result (start end_ : ivec2) (colour : ivec3) (s : Trace) : Trace :=
  ⟨s.pixels ++ (line_points start end_).map (fun p => (p, colour)),
    s.divisions ++ [line_division start end_], s.triangles⟩

/-- The trace after `draw_triangle` has returned. -/
def triangle_result (p1 p2 p3 : ivec2) (colour : ivec3) (s : Trace) : Trace :=
  line_result p3 p1 colour (line_result p2 p3 colour (line_result p1 p2 colour
    { s with triangles := s.triangles ++ [(p1, p2, p3)] }))

/-- The lattice points from `a` to `b`, for an axis-aligned segment. -/
def axis_points (a b : ivec2) : List ivec2 :=
  (List.range (line_steps a b + 1)).map
    (fun (i : Nat) => ⟨a.x + i * Int.sign (b.x - a.x), a.y + i * Int.sign (b.y - a.y)⟩)

/-- The trace after `draw_rectangle` has returned. -/
def rectangle_result (dimensions position : ivec2) (colour : ivec3) (s : Trace) : Trace :=
  line_result ⟨position.x, position.y + dimensions.y⟩ position colour
    (line_result ⟨position.x + dimensions.x, position.y + dimensions.y⟩
      ⟨position.x, position.y + dimensions.y⟩ colour
      (line_result ⟨position.x + dimensions.x, position.y⟩
        ⟨position.x + dimensions.x, position.y + dimensions.y⟩ colour
        (line_result position ⟨position.x + dimensions.x, position.y⟩ colour s)))

/-- The midpoint `((a.x + b.x) / 2, (a.y + b.y) / 2)` with `int` division. -/
def midpoint (a b : ivec2) : ivec2 :=
  ⟨Int.tdiv (a.x + b.x) 2, Int.tdiv (a.y + b.y) 2⟩

/-- The triangles passed to `draw_triangle` after `n` levels of subdivision,
in the order of the calls. -/
def sierpinski_leaves : Nat → ivec2 → ivec2 → ivec2 → List (ivec2 × ivec2 × ivec2)
  | 0, x, y, z => [(x, y, z)]
  | n + 1, x, y, z =>
    sierpinski_leaves n x (midpoint x y) (midpoint z x) ++
    (sierpinski_leaves n (midpoint x y) y (midpoint y z) ++
    sierpinski_leaves n (midpoint z x) (midpoint y z) z)

/-- Fuel that suffices for `n` levels of subdivision. -/
def sierpinski_fuel : Nat → ivec2 → ivec2 → ivec2 → Nat
  | 0, x, y, z => triangle_fuel x y z + 1
  | n + 1, x, y, z =>
    max (sierpinski_fuel n x (midpoint x y) (midpoint z x))
      (max (sierpinski_fuel n (midpoint x y) y (midpoint y z))
        (sierpinski_fuel n (midpoint z x) (midpoint y z) z)) + 1

/-- The trace after `draw_sierpiernski_triangle` has returned from `n` levels
of subdivision. -/
def sierpinski_result : Nat → ivec2 → ivec2 → ivec2 → ivec3 → Trace → Trace
  | 0, x, y, z, colour, s => triangle_result x y z colour s
  | n + 1, x, y, z, colour, s =>
    sierpinski_result n (midpoint z x) (midpoint y z) z colour
      (sierpinski_result n (midpoint x y) y (midpoint y z) colour
        (sierpinski_result n x (midpoint x y) (midpoint z x) colour s))

/-- The constant `VERTEX_NUM` of `draw_real_cube` (line 205). -/
def VERTEX_NUM : Nat := 8

/-- The constant `EDGES` of `draw_real_cube` (line 206). -/
def EDGES : Nat := 12

/-- The array `vertices` of `draw_real_cube` (lines 224-233). -/
def draw_real_cube_vertices (dimensions : ivec3) : List ivec3 :=
  [⟨0, 0, 0⟩,
   ⟨dimensions.x, 0, 0⟩,
   ⟨0, 0, dimensions.z⟩,
   ⟨dimensions.x, 0, dimensions.z⟩,
   ⟨0, dimensions.y, 0⟩,
   ⟨dimensions.x, dimensions.y, 0⟩,
   ⟨0, dimensions.y, dimensions.z⟩,
   ⟨dimensions.x, dimensions.y, dimensions.z⟩]

/-- The array `vertex_pairs` of `draw_real_cube` (lines 236-249). -/
def draw_real_cube_vertex_pairs : List (Nat × Nat) :=
  [(0, 1), (1, 3), (2, 3), (4, 0), (2, 0), (2, 6), (4, 6), (6, 7), (5, 7), (3, 7), (4, 5),
   (1, 5)]

/-- The number of coordinates in which two points differ. -/
def coordinates_differing (a b : ivec3) : Nat :=
  (if a.x ≠ b.x then 1 else 0) + (if a.y ≠ b.y then 1 else 0) + (if a.z ≠ b.z then 1 else 0)

/-- The value of the literal `0.025f` (binary32). -/
def float_0_025 : ℚ := 13421773 / 536870912

/-- The value of the literal `0.05f` (binary32). -/
def float_0_05 : ℚ := 13421773 / 268435456

/-- The update of the static variable `angle` by one call of
`draw_triangle_rotated` (lines 88-90). The float addition is the parameter
`fadd` (exact or rounded). -/
def draw_triangle_rotated_angle (fadd : ℚ → ℚ → ℚ) (angle : ℚ) : ℚ :=
  let angle1 := fadd angle float_0_025
  if angle1 ≥ 360 then 0 else angle1

/-- The update of the static variable `angle` by one call of `draw_real_cube`
(lines 252-254). The float addition is the parameter `fadd`. -/
def draw_real_cube_angle (fadd : ℚ → ℚ → ℚ) (angle : ℚ) : ℚ :=
  let angle1 := fadd angle float_0_05
  if angle1 ≥ 360 then 0 else angle1

/-- The function `draw_triangle_rotated` (lines 85-109). The static variable
`angle` is passed in and returned; `std::cos` and `std::sin` are the
parameters `cos` and `sin`. The product `p * rotation` of a row vector and the
matrix with columns `(cos, -sin)` and `(sin, cos)` is converted to
`glm::ivec2` by truncation. -/
def draw_triangle_rotated (fadd : ℚ → ℚ → ℚ) (cos sin : ℚ → ℚ) (fuel : Nat)
    (p1 p2 p3 : ivec2) (colour : ivec3) (angle : ℚ) (s : Trace) : Option (ℚ × Trace) :=
  let angle1 := draw_triangle_rotated_angle fadd angle
  let rotate (p : ivec2) : ivec2 :=
    vec2.to_ivec2 ⟨(p.x : ℚ) * cos angle1 + (p.y : ℚ) * (-sin angle1),
      (p.x : ℚ) * sin angle1 + (p.y : ℚ) * cos angle1⟩
  let rp1 := rotate p1
  let rp2 := rotate p2
  let rp3 := rotate p3
  ((draw_line fuel rp1 rp2 colour s).bind fun s1 =>
    (draw_line fuel rp2 rp3 colour s1).bind fun s2 =>
    draw_line fuel rp3 rp1 colour s2).map fun t => (angle1, t)

/-- The function `draw_real_cube` (lines 202-272). The static variable `angle`
is passed in and returned. The projection of a vertex to the screen
(`glm::translate`, `glm::frustum`, `glm::rotate` and `glm::project`, which are
not part of the sources) is the parameter `project`, applied to the angle, the
position and the vertex. -/
def draw_real_cube (fadd : ℚ → ℚ → ℚ) (project : ℚ → ivec3 → ivec3 → ivec2) (fuel : Nat)
    (dimensions position : ivec3) (colour : ivec3) (angle : ℚ) (s : Trace) :
    Option (ℚ × Trace) :=
  let vertices := draw_real_cube_vertices dimensions
  let vertex_pairs := draw_real_cube_vertex_pairs
  let angle1 := draw_real_cube_angle fadd angle
  let vertices_drawn := vertices.map (project angle1 position)
  (vertex_pairs.foldlM (fun t p =>
    draw_line fuel (vertices_drawn.getD p.1 ⟨0, 0⟩) (vertices_drawn.getD p.2 ⟨0, 0⟩) colour t)
    s).map fun t => (angle1, t)

/-- The recursive calls made by one call of `draw_sierpiernski_triangle`
(lines 295, 298, 301), each with its generation argument; none when the
generation is 1 (line 281). -/
def sierpinski_subcalls (x y z : ivec2) (generation : Int) :
    List (ivec2 × ivec2 × ivec2 × Int) :=
  if generation = 1 then []
  else
    let p1 : vec2 := ⟨(Int.tdiv (x.x + y.x) 2 : Int), (Int.tdiv (x.y + y.y) 2 : Int)⟩
    let p2 : vec2 := ⟨(Int.tdiv (y.x + z.x) 2 : Int), (Int.tdiv (y.y + z.y) 2 : Int)⟩
    let p3 : vec2 := ⟨(Int.tdiv (z.x + x.x) 2 : Int), (Int.tdiv (z.y + x.y) 2 : Int)⟩
    [(x, p1.to_ivec2, p3.to_ivec2, generation - 1),
     (p1.to_ivec2, y, p2.to_ivec2, generation - 1),
     (p3.to_ivec2, p2.to_ivec2, z, generation - 1)]

/-- The calls of `draw_sierpiernski_triangle` reachable from a call. -/
inductive sierpinski_reachable :
    ivec2 × ivec2 × ivec2 × Int → ivec2 × ivec2 × ivec2 × Int → Prop
  | refl (c : ivec2 × ivec2 × ivec2 × Int) : sierpinski_reachable c c
  | step {c d e : ivec2 × ivec2 × ivec2 × Int} :
      sierpinski_reachable c d → e ∈ sierpinski_subcalls d.1 d.2.1 d.2.2.1 d.2.2.2 →
      sierpinski_reachable c e

/-- The calls of `draw_line` that join `last` to the points of a list, each
call starting where the previous one ended. -/
def polyline_calls (last : ivec2) : List ivec2 → List (ivec2 × ivec2)
  | [] => []
  | p :: ps => (last, p) :: polyline_calls p ps

/-- Fuel that suffices for every call of a list of calls of `draw_line`. -/
def polyline_fuel : List (ivec2 × ivec2) → Nat
  | [] => 0
  | c :: cs => max (line_steps c.1 c.2) (polyline_fuel cs)

/-- The function `draw_fake_cube` (lines 157-166). -/
def draw_fake_cube (fuel : Nat) (dimensions : ivec3) (position : ivec2) (colour : ivec3)
    (s : Trace) : Option Trace :=
  (draw_rectangle fuel ⟨dimensions.x, dimensions.y⟩ position colour s).bind fun s1 =>
  (draw_rectangle fuel ⟨dimensions.x, dimensions.y⟩
    ⟨position.x + dimensions.z, position.y + dimensions.z⟩ colour s1).bind fun s2 =>
  (draw_line fuel position ⟨position.x + dimensions.z, position.y + dimensions.z⟩
    colour s2).bind fun s3 =>
  (draw_line fuel ⟨position.x + dimensions.x, position.y⟩
    ⟨position.x + dimensions.x + dimensions.z, position.y + dimensions.z⟩ colour s3).bind
    fun s4 =>
  (draw_line fuel ⟨position.x + dimensions.x, position.y + dimensions.y⟩
    ⟨position.x + dimensions.x + dimensions.z, position.y + dimensions.y + dimensions.z⟩
    colour s4).bind fun s5 =>
  draw_line fuel ⟨position.x, position.y + dimensions.y⟩
    ⟨position.x + dimensions.z, position.y + dimensions.y + dimensions.z⟩ colour s5

/-- The points `c + i * (sign d, sign d)` for `i = 0, ..., |d|`. -/
def diagonal_points (c : ivec2) (d : Int) : List ivec2 :=
  (List.range (d.natAbs + 1)).map
    (fun (i : Nat) => ⟨c.x + i * Int.sign d, c.y + i * Int.sign d⟩)

/-- The trace after `draw_fake_cube` has returned. -/
def fake_cube_result (dimensions : ivec3) (position : ivec2) (colour : ivec3) (s : Trace) :
    Trace :=
  line_result ⟨position.x, position.y + dimensions.y⟩
    ⟨position.x + dimensions.z, position.y + dimensions.y + dimensions.z⟩ colour
  (line_result ⟨position.x + dimensions.x, position.y + dimensions.y⟩
    ⟨position.x + dimensions.x + dimensions.z, position.y + dimensions.y + dimensions.z⟩ colour
  (line_result ⟨position.x + dimensions.x, position.y⟩
    ⟨position.x + dimensions.x + dimensions.z, position.y + dimensions.z⟩ colour
  (line_result position ⟨position.x + dimensions.z, position.y + dimensions.z⟩ colour
  (rectangle_result ⟨dimensions.x, dimensions.y⟩
    ⟨position.x + dimensions.z, position.y + dimensions.z⟩ colour
  (rectangle_result ⟨dimensions.x, dimensions.y⟩ position colour s)))))

/-- The value of the literal `0.01f` (binary32): `10737418 / 2 ^ 30`, slightly
less than `1 / 100`. -/
def float_0_01 : ℚ := 5368709 / 536870912

/-- The nearest multiple of `2 ^ shift` to `n`, the even one on a tie. -/
def round_to_even (n shift : Nat) : Nat :=
  let q := n / 2 ^ shift
  let r := n % 2 ^ shift
  if 2 * r < 2 ^ shift then q * 2 ^ shift
  else if 2 ^ shift < 2 * r then (q + 1) * 2 ^ shift
  else if q % 2 = 0 then q * 2 ^ shift
  else (q + 1) * 2 ^ shift

/-- The least `shift` with `n < 2 ^ (24 + shift)` (searched with fuel). -/
def significand_shift : Nat → Nat → Nat
  | 0, _ => 0
  | fuel + 1, n => if n < 2 ^ 24 then 0 else significand_shift fuel (n / 2) + 1

/-- Rounding of a rational number to the nearest binary32 number, ties to
even. The magnitude is taken in units of `2 ^ (-151)`: it is
`2 * ⌊|q| * 2 ^ 150⌋`, plus one (a sticky bit) when `|q| * 2 ^ 150` is not an
integer. It is then rounded to 24 significant bits, and to a multiple of four
units at least, since binary32 numbers are multiples of `2 ^ (-149)`.
Overflow to infinity (a result of magnitude `2 ^ 128` or more) is not
modelled. -/
def binary32_round (q : ℚ) : ℚ :=
  let n := ⌊|q| * 2 ^ 150⌋.toNat
  let m := 2 * n + (if (n : ℚ) = |q| * 2 ^ 150 then 0 else 1)
  let r := round_to_even m (max 2 (significand_shift 256 m))
  (if q < 0 then -(r : ℚ) else (r : ℚ)) / 2 ^ 151

/-- Conversion of an `int` to a `float`. -/
def float_of_int (n : Int) : ℚ := binary32_round (n : ℚ)

/-- Addition of two `float`s. -/
def float_add (a b : ℚ) : ℚ := binary32_round (a + b)

/-- Subtraction of two `float`s. -/
def float_sub (a b : ℚ) : ℚ := binary32_round (a - b)

/-- Multiplication of two `float`s. -/
def float_mul (a b : ℚ) : ℚ := binary32_round (a * b)

/-- Division of two `float`s. A division by zero gives `0` here; in the code
it gives an infinity or a NaN. -/
def float_div (a b : ℚ) : ℚ := binary32_round (a / b)

/-- The loop `for (int x = start.x; x != end.x;) { DrawPixel(..); x += sx; }`
of `draw_line` (lines 32-40) in binary32 arithmetic: `x` is converted to
`float`, the product and the sum are rounded, and the sum is truncated. -/
def float32.draw_line_loop_x (slope pitch : ℚ) (sx end_x : Int) (colour : ivec3) :
    Nat → Int → Trace → Option Trace
  | 0, x, s => if x ≠ end_x then none else some s
  | fuel + 1, x, s =>
    if x ≠ end_x then
      float32.draw_line_loop_x slope pitch sx end_x colour fuel (x + sx)
        (DrawPixel ⟨x, float_to_int (float_add (float_mul slope (float_of_int x)) pitch)⟩
          colour s)
    else some s

/-- The loop `for (int y = start.y; y != end.y;) { DrawPixel(..); y += sy; }`
of `draw_line` (lines 51-59) in binary32 arithmetic. -/
def float32.draw_line_loop_y (slope pitch : ℚ) (sy end_y : Int) (colour : ivec3) :
    Nat → Int → Trace → Option Trace
  | 0, y, s => if y ≠ end_y then none else some s
  | fuel + 1, y, s =>
    if y ≠ end_y then
      float32.draw_line_loop_y slope pitch sy end_y colour fuel (y + sy)
        (DrawPixel ⟨float_to_int (float_add (float_mul slope (float_of_int y)) pitch), y⟩
          colour s)
    else some s

/-- The function `draw_line` (lines 14-63) in binary32 arithmetic: the
differences are converted to `float`, and the quotient `slope`, the product
and the difference in `pitch` are each rounded. -/
def float32.draw_line (fuel : Nat) (start end_ : ivec2) (colour : ivec3) (s : Trace) :
    Option Trace :=
  let dx : ℚ := float_of_int (end_.x - start.x)
  let dy : ℚ := float_of_int (end_.y - start.y)
  let sx : Int := if dx < 0 then -1 else 1
  let sy : Int := if dy < 0 then -1 else 1
  if |dx| > |dy| then
    let slope : ℚ := float_div dy dx
    let pitch : ℚ := float_sub (float_of_int start.y) (float_mul slope (float_of_int start.x))
    (float32.draw_line_loop_x slope pitch sx end_.x colour fuel start.x
      (log_division dy dx s)).map (DrawPixel end_ colour)
  else
    let slope : ℚ := float_div dx dy
    let pitch : ℚ := float_sub (float_of_int start.x) (float_mul slope (float_of_int start.y))
    (float32.draw_line_loop_y slope pitch sy end_.y colour fuel start.y
      (log_division dx dy s)).map (DrawPixel end_ colour)

/-- The test `std::abs(dx) > std::abs(dy)` of `draw_line`, on the `float`
differences. -/
@[reducible]
def float32.x_dominant (start end_ : ivec2) : Prop :=
  |float_of_int (end_.x - start.x)| > |float_of_int (end_.y - start.y)|

/-- The number of loop iterations of `draw_line` in binary32 arithmetic. -/
def float32.line_steps (start end_ : ivec2) : Nat :=
  if float32.x_dominant start end_ then (end_.x - start.x).natAbs
  else (end_.y - start.y).natAbs

/-- The `float` ordinate `slope * c + pitch` computed in either loop of
`draw_line`, for the line through `(c0, v0)` with direction `(dc, dv)`. -/
def float32.line_value (c0 v0 dc dv : Int) (c : Int) : ℚ :=
  float_add (float_mul (float_div (float_of_int dv) (float_of_int dc)) (float_of_int c))
    (float_sub (float_of_int v0)
      (float_mul (float_div (float_of_int dv) (float_of_int dc)) (float_of_int c0)))

/-- The pixel written by iteration `i` of the loop that `draw_line` runs in
binary32 arithmetic. -/
def float32.line_point (start end_ : ivec2) (i : Nat) : ivec2 :=
  if float32.x_dominant start end_ then
    ⟨start.x + i * step_sign (end_.x - start.x),
      float_to_int (float32.line_value start.x start.y (end_.x - start.x)
        (end_.y - start.y) (start.x + i * step_sign (end_.x - start.x)))⟩
  else
    ⟨float_to_int (float32.line_value start.y start.x (end_.y - start.y)
        (end_.x - start.x) (start.y + i * step_sign (end_.y - start.y))),
      start.y + i * step_sign (end_.y - start.y)⟩

/-- The pixels written by `draw_line` in binary32 arithmetic, in order. -/
def float32.line_points (start end_ : ivec2) : List ivec2 :=
  (List.range (float32.line_steps start end_)).map (float32.line_point start end_) ++ [end_]

/-- The float division evaluated by `draw_line`, as (dividend, divisor). -/
def float32.line_division (start end_ : ivec2) : ℚ × ℚ :=
  if float32.x_dominant start end_ then
    (float_of_int (end_.y - start.y), float_of_int (end_.x - start.x))
  else (float_of_int (end_.x - start.x), float_of_int (end_.y - start.y))

/-- The trace after `draw_line` has returned, in binary32 arithmetic. -/
def float32.line_result (start end_ : ivec2) (colour : ivec3) (s : Trace) : Trace :=
  ⟨s.pixels ++ (float32.line_points start end_).map (fun p => (p, colour)),
    s.divisions ++ [float32.line_division start end_], s.triangles⟩

/-- The function `draw_rectangle` (lines 115-121), on `draw_line` in binary32
arithmetic. -/
def float32.draw_rectangle (fuel : Nat) (dimensions position : ivec2) (colour : ivec3)
    (s : Trace) : Option Trace :=
  (float32.draw_line fuel position ⟨position.x + dimensions.x, position.y⟩ colour s).bind
    fun s1 =>
  (float32.draw_line fuel ⟨position.x + dimensions.x, position.y⟩
    ⟨position.x + dimensions.x, position.y + dimensions.y⟩ colour s1).bind fun s2 =>
  (float32.draw_line fuel ⟨position.x + dimensions.x, position.y + dimensions.y⟩
    ⟨position.x, position.y + dimensions.y⟩ colour s2).bind fun s3 =>
  float32.draw_line fuel ⟨position.x, position.y + dimensions.y⟩ position colour s3

/-- The trace after `draw_rectangle` has returned, in binary32 arithmetic. -/
def float32.rectangle_result (dimensions position : ivec2) (colour : ivec3) (s : Trace) :
    Trace :=
  float32.line_result ⟨position.x, position.y + dimensions.y⟩ position colour
    (float32.line_result ⟨position.x + dimensions.x, position.y + dimensions.y⟩
      ⟨position.x, position.y + dimensions.y⟩ colour
      (float32.line_result ⟨position.x + dimensions.x, position.y⟩
        ⟨position.x + dimensions.x, position.y + dimensions.y⟩ colour
        (float32.line_result position ⟨position.x + dimensions.x, position.y⟩ colour s)))

/-- The function `draw_fake_cube` (lines 157-166), on `draw_line` in binary32
arithmetic. -/
def float32.draw_fake_cube (fuel : Nat) (dimensions : ivec3) (position : ivec2)
    (colour : ivec3) (s : Trace) : Option Trace :=
  (float32.draw_rectangle fuel ⟨dimensions.x, dimensions.y⟩ position colour s).bind fun s1 =>
  (float32.draw_rectangle fuel ⟨dimensions.x, dimensions.y⟩
    ⟨position.x + dimensions.z, position.y + dimensions.z⟩ colour s1).bind fun s2 =>
  (float32.draw_line fuel position ⟨position.x + dimensions.z, position.y + dimensions.z⟩
    colour s2).bind fun s3 =>
  (float32.draw_line fuel ⟨position.x + dimensions.x, position.y⟩
    ⟨position.x + dimensions.x + dimensions.z, position.y + dimensions.z⟩ colour s3).bind
    fun s4 =>
  (float32.draw_line fuel ⟨position.x + dimensions.x, position.y + dimensions.y⟩
    ⟨position.x + dimensions.x + dimensions.z, position.y + dimensions.y + dimensions.z⟩
    colour s4).bind fun s5 =>
  float32.draw_line fuel ⟨position.x, position.y + dimensions.y⟩
    ⟨position.x + dimensions.z, position.y + dimensions.y + dimensions.z⟩ colour s5

/-- The trace after `draw_fake_cube` has returned, in binary32 arithmetic. -/
def float32.fake_cube_result (dimensions : ivec3) (position : ivec2) (colour : ivec3)
    (s : Trace) : Trace :=
  float32.line_result ⟨position.x, position.y + dimensions.y⟩
    ⟨position.x + dimensions.z, position.y + dimensions.y + dimensions.z⟩ colour
  (float32.line_result ⟨position.x + dimensions.x, position.y + dimensions.y⟩
    ⟨position.x + dimensions.x + dimensions.z, position.y + dimensions.y + dimensions.z⟩ colour
  (float32.line_result ⟨position.x + dimensions.x, position.y⟩
    ⟨position.x + dimensions.x + dimensions.z, position.y + dimensions.z⟩ colour
  (float32.line_result position ⟨position.x + dimensions.z, position.y + dimensions.z⟩ colour
  (float32.rectangle_result ⟨dimensions.x, dimensions.y⟩
    ⟨position.x + dimensions.z, position.y + dimensions.z⟩ colour
  (float32.rectangle_result ⟨dimensions.x, dimensions.y⟩ position colour s)))))

/-- The function `draw_triangle` (lines 69-79), on `draw_line` in binary32
arithmetic; the call is recorded in the ghost log of triangles. -/
def float32.draw_triangle (fuel : Nat) (p1 p2 p3 : ivec2) (colour : ivec3) (s : Trace) :
    Option Trace :=
  (float32.draw_line fuel p1 p2 colour
      { s with triangles := s.triangles ++ [(p1, p2, p3)] }).bind fun s1 =>
  (float32.draw_line fuel p2 p3 colour s1).bind fun s2 =>
  float32.draw_line fuel p3 p1 colour s2

/-- The function `draw_sierpiernski_triangle` (lines 278-303) in binary32
arithmetic. The midpoints are computed with `int` division (truncating),
stored in a `glm::vec2`, whose components are `float`s, so that each is
rounded to binary32, and converted back to `glm::ivec2` when passed on. -/
def float32.draw_sierpiernski_triangle :
    Nat → ivec2 → ivec2 → ivec2 → Int → ivec3 → Trace → Option Trace
  | 0, _, _, _, _, _, _ => none
  | fuel + 1, x, y, z, generation, colour, s =>
    if generation = 1 then
      float32.draw_triangle fuel x y z colour s
    else
      let p1 : vec2 :=
        ⟨float_of_int (Int.tdiv (x.x + y.x) 2), float_of_int (Int.tdiv (x.y + y.y) 2)⟩
      let p2 : vec2 :=
        ⟨float_of_int (Int.tdiv (y.x + z.x) 2), float_of_int (Int.tdiv (y.y + z.y) 2)⟩
      let p3 : vec2 :=
        ⟨float_of_int (Int.tdiv (z.x + x.x) 2), float_of_int (Int.tdiv (z.y + x.y) 2)⟩
      (float32.draw_sierpiernski_triangle fuel x p1.to_ivec2 p3.to_ivec2 (generation - 1)
        colour s).bind fun s1 =>
      (float32.draw_sierpiernski_triangle fuel p1.to_ivec2 y p2.to_ivec2 (generation - 1)
        colour s1).bind fun s2 =>
      float32.draw_sierpiernski_triangle fuel p3.to_ivec2 p2.to_ivec2 z (generation - 1)
        colour s2

/-- The recursive calls made by one call of `draw_sierpiernski_triangle`
(lines 295, 298, 301) in binary32 arithmetic, each with its generation
argument; none when the generation is 1 (line 281). -/
def float32.sierpinski_subcalls (x y z : ivec2) (generation : Int) :
    List (ivec2 × ivec2 × ivec2 × Int) :=
  if generation = 1 then []
  else
    let p1 : vec2 :=
      ⟨float_of_int (Int.tdiv (x.x + y.x) 2), float_of_int (Int.tdiv (x.y + y.y) 2)⟩
    let p2 : vec2 :=
      ⟨float_of_int (Int.tdiv (y.x + z.x) 2), float_of_int (Int.tdiv (y.y + z.y) 2)⟩
    let p3 : vec2 :=
      ⟨float_of_int (Int.tdiv (z.x + x.x) 2), float_of_int (Int.tdiv (z.y + x.y) 2)⟩
    [(x, p1.to_ivec2, p3.to_ivec2, generation - 1),
     (p1.to_ivec2, y, p2.to_ivec2, generation - 1),
     (p3.to_ivec2, p2.to_ivec2, z, generation - 1)]

/-- The calls of `draw_sierpiernski_triangle` reachable from a call, in
binary32 arithmetic. -/
inductive float32.sierpinski_reachable :
    ivec2 × ivec2 × ivec2 × Int → ivec2 × ivec2 × ivec2 × Int → Prop
  | refl (c : ivec2 × ivec2 × ivec2 × Int) : float32.sierpinski_reachable c c
  | step {c d e : ivec2 × ivec2 × ivec2 × Int} :
      float32.sierpinski_reachable c d →
      e ∈ float32.sierpinski_subcalls d.1 d.2.1 d.2.2.1 d.2.2.2 →
      float32.sierpinski_reachable c e

/-- The trace after `draw_triangle` has returned, in binary32 arithmetic. -/
def float32.triangle_result (p1 p2 p3 : ivec2) (colour : ivec3) (s : Trace) : Trace :=
  float32.line_result p3 p1 colour (float32.line_result p2 p3 colour
    (float32.line_result p1 p2 colour { s with triangles := s.triangles ++ [(p1, p2, p3)] }))

/-- The trace after `draw_sierpiernski_triangle` has returned from `n` levels
of subdivision, in binary32 arithmetic, when no midpoint is changed by its
rounding to binary32. -/
def float32.sierpinski_result : Nat → ivec2 → ivec2 → ivec2 → ivec3 → Trace → Trace
  | 0, x, y, z, colour, s => float32.triangle_result x y z colour s
  | n + 1, x, y, z, colour, s =>
    float32.sierpinski_result n (midpoint z x) (midpoint y z) z colour
      (float32.sierpinski_result n (midpoint x y) y (midpoint y z) colour
        (float32.sierpinski_result n x (midpoint x y) (midpoint z x) colour s))

/-- Both coordinates of the point have magnitude at most `2 ^ 24`, so that
they are binary32 numbers. -/
def binary32_point (p : ivec2) : Prop := |p.x| ≤ 2 ^ 24 ∧ |p.y| ≤ 2 ^ 24

/-- The `float` slope computed by `draw_line` for the direction `(dc, dv)`. -/
def float32.slope (dc dv : Int) : ℚ := float_div (float_of_int dv) (float_of_int dc)

/-- The `float` pitch computed by `draw_line` for the line through `(c0, v0)`
with direction `(dc, dv)`. -/
def float32.pitch (c0 v0 dc dv : Int) : ℚ :=
  float_sub (float_of_int v0) (float_mul (float32.slope dc dv) (float_of_int c0))

/-- Both coordinates of the point have magnitude at most 1024. -/
def small_point (p : ivec2) : Prop := |p.x| ≤ 1024 ∧ |p.y| ≤ 1024

/-- The function `curve_lerp` (lines 168-171) in binary32 arithmetic: every
difference, product and sum is rounded. The library function `std::pow`,
called on two `float` arguments, is the parameter `powf`. -/
def float32.curve_lerp (powf : ℚ → ℚ → ℚ) (a b c t : ℚ) : ℚ :=
  float_add
    (float_add (float_mul (powf (float_sub 1 t) 2) a)
      (float_mul (float_mul (float_mul c 2) t) (float_sub 1 t)))
    (float_mul (powf t 2) b)

/-- The point that `draw_curve` samples at the parameter `t`: the `int`
coordinates are converted to `float` for the call of `curve_lerp`, and its
result is converted back to `int`. -/
def float32.curve_point (powf : ℚ → ℚ → ℚ) (start end_ control : ivec2) (t : ℚ) : ivec2 :=
  ⟨float_to_int (float32.curve_lerp powf (float_of_int start.x) (float_of_int end_.x)
      (float_of_int control.x) t),
    float_to_int (float32.curve_lerp powf (float_of_int start.y) (float_of_int end_.y)
      (float_of_int control.y) t)⟩

/-- The loop `for (float t = 0.0f; t < 1.0f; t += 0.01f)` of `draw_curve`
(lines 182-194) in binary32 arithmetic, started at `t` with the last point
`last`. The first argument is the fuel given to every call of `draw_line`, the
`Nat` argument is the fuel of the loop itself. -/
def float32.draw_curve_loop (powf : ℚ → ℚ → ℚ) (fuel : Nat) (start end_ control : ivec2)
    (colour : ivec3) : Nat → ℚ → ivec2 → Trace → Option Trace
  | 0, t, _, s => if t < 1 then none else some s
  | n + 1, t, last, s =>
    if t < 1 then
      let next : ivec2 :=
        ⟨float_to_int (float32.curve_lerp powf (float_of_int start.x) (float_of_int end_.x)
            (float_of_int control.x) t),
          float_to_int (float32.curve_lerp powf (float_of_int start.y) (float_of_int end_.y)
            (float_of_int control.y) t)⟩
      (float32.draw_line fuel last next colour s).bind fun s1 =>
        float32.draw_curve_loop powf fuel start end_ control colour n
          (float_add t float_0_01) next s1
    else some s

/-- The function `draw_curve` (lines 176-195) in binary32 arithmetic. -/
def float32.draw_curve (powf : ℚ → ℚ → ℚ) (fuel : Nat) (start end_ control : ivec2)
    (colour : ivec3) (s : Trace) : Option Trace :=
  float32.draw_curve_loop powf fuel start end_ control colour fuel 0 start s

/-- The first `n` values taken by the loop variable `t` of `draw_curve`,
starting from `t`. -/
def float32.curve_parameters : Nat → ℚ → List ℚ
  | 0, _ => []
  | n + 1, t => t :: float32.curve_parameters n (float_add t float_0_01)

/-- The value of the loop variable `t` of `draw_curve` after `n` iterations. -/
def float32.curve_parameter_after : Nat → ℚ → ℚ
  | 0, t => t
  | n + 1, t => float32.curve_parameter_after n (float_add t float_0_01)

/-- The trace after a list of calls of `draw_line` has returned, in binary32
arithmetic. -/
def float32.polyline_result (colour : ivec3) : List (ivec2 × ivec2) → Trace → Trace
  | [], s => s
  | c :: cs, s => float32.polyline_result colour cs (float32.line_result c.1 c.2 colour s)

/-- A `std::pow` for the exponent `2.0f`, the only exponent that `curve_lerp`
passes: the correctly rounded square of the base. The properties of
`draw_curve` are stated for every `powf`; this one is used in the examples. -/
def rounded_square (x _y : ℚ) : ℚ := binary32_round (x * x)

/-- The magnitude of `a ≥ 0` in units of `2 ^ (-151)`, with a sticky bit, as
`binary32_round` computes it. -/
def binary32_magnitude (a : ℚ) : Nat :=
  2 * ⌊a * 2 ^ 150⌋.toNat + (if ((⌊a * 2 ^ 150⌋.toNat : Nat) : ℚ) = a * 2 ^ 150 then 0 else 1)

/-- The rounding of a magnitude in units of `2 ^ (-151)` to 24 significant
bits, as `binary32_round` computes it. -/
def binary32_significand (m : Nat) : Nat :=
  round_to_even m (max 2 (significand_shift 256 m))

/-- The point that `draw_circle` computes for `angle` degrees (lines 139-140)
in binary32 arithmetic: `float(angle)` is passed to `glm::radians` and the
result to `std::cos` and `std::sin`, which return a `float`; the product with
`float(radius)` and the sum with the `float` of the centre are rounded, and
the sum is truncated by the assignment to the `int` coordinate. The library
functions are the parameters `cosf`, `sinf` and `radians`. -/
def float32.circle_sample (cosf sinf radians : ℚ → ℚ) (centre : ivec2) (radius : Int)
    (angle : Int) : ivec2 :=
  ⟨float_to_int (float_add (float_of_int centre.x)
      (float_mul (cosf (radians (float_of_int angle))) (float_of_int radius))),
    float_to_int (float_add (float_of_int centre.y)
      (float_mul (sinf (radians (float_of_int angle))) (float_of_int radius)))⟩

/-- The function `draw_circle` (lines 126-155) in binary32 arithmetic. The
first point (lines 132-133) is computed in `double`, with
`std::cos(0.0) = 1` and `std::sin(0.0) = 0`; the sums and products of `int`
values there are exact. The variable `point` is reset to the centre in every
iteration, so only `last` and the trace are carried through the loop over
`angle = 0, ..., 360`. -/
def float32.draw_circle (cosf sinf radians : ℚ → ℚ) (fuel : Nat) (centre : ivec2)
    (radius : Int) (colour : ivec3) (s : Trace) : Option Trace :=
  let last : ivec2 :=
    ⟨float_to_int ((centre.x : ℚ) + 1 * (radius : ℚ)),
      float_to_int ((centre.y : ℚ) + 0 * (radius : ℚ))⟩
  ((List.range 361).foldlM (fun (st : ivec2 × Trace) (angle : Nat) =>
    let next : ivec2 :=
      ⟨float_to_int (float_add (float_of_int centre.x)
          (float_mul (cosf (radians (float_of_int (angle : Int)))) (float_of_int radius))),
        float_to_int (float_add (float_of_int centre.y)
          (float_mul (sinf (radians (float_of_int (angle : Int)))) (float_of_int radius)))⟩
    (float32.draw_line fuel st.1 next colour st.2).map fun t => (next, t)) (last, s)).map
    fun st => st.2

/-- The points that `draw_circle` samples, in order. -/
def float32.circle_samples (cosf sinf radians : ℚ → ℚ) (centre : ivec2) (radius : Int) :
    List ivec2 :=
  (List.range 361).map fun (angle : Nat) =>
    float32.circle_sample cosf sinf radians centre radius (angle : Int)

/-- The calls of `draw_line` made by `draw_circle`: they join the first point
`centre + (radius, 0)` to the samples. -/
def float32.circle_calls (cosf sinf radians : ℚ → ℚ) (centre : ivec2) (radius : Int) :
    List (ivec2 × ivec2) :=
  polyline_calls ⟨centre.x + radius, centre.y⟩
    (float32.circle_samples cosf sinf radians centre radius)

/-- The function `glm::radians` on a `float`: the binary32 product with the
binary32 constant nearest to `π / 180`, which is `9370165 / 2 ^ 29`. -/
def glm_radians (degrees : ℚ) : ℚ := float_mul degrees (9370165 / 536870912)

/-- One coordinate of a sample of `draw_circle`: the truncation of the rounded
sum of the `float` of the centre and the rounded product of the value `v` of
the cosine or sine with the `float` of the radius. -/
def float32.circle_coordinate (centre radius : Int) (v : ℚ) : Int :=
  float_to_int (float_add (float_of_int centre) (float_mul v (float_of_int radius)))

/-- A sine for the examples: 0 at 0, and elsewhere the value
`6151831 / 2 ^ 45`, about `1.7484555e-7`, that the C library returns for
`glm::radians(360.0f)`. -/
def sinf_near_zero (a : ℚ) : ℚ := if a = 0 then 0 else 6151831 / 35184372088832

/-! ## Truncation -/

theorem float_to_int_intCast (n : Int) : float_to_int (n : ℚ) = n := by
  unfold float_to_int
  split <;> simp

theorem floor_le_float_to_int (q : ℚ) : ⌊q⌋ ≤ float_to_int q := by
  unfold float_to_int
  split
  · exact le_refl _
  · exact Int.floor_le_ceil q

theorem float_to_int_le_ceil (q : ℚ) : float_to_int q ≤ ⌈q⌉ := by
  unfold float_to_int
  split
  · exact Int.floor_le_ceil q
  · exact le_refl _

theorem float_to_int_mono {q r : ℚ} (h : q ≤ r) : float_to_int q ≤ float_to_int r := by
  unfold float_to_int
  split_ifs with hq hr hr
  · exact Int.floor_mono h
  · exact absurd (le_trans hq h) hr
  · have h1 : ⌈q⌉ ≤ 0 := Int.ceil_le.mpr (by push_cast; linarith)
    have h2 : (0 : Int) ≤ ⌊r⌋ := Int.floor_nonneg.mpr hr
    linarith
  · exact Int.ceil_mono h

theorem float_to_int_add_one_le (q : ℚ) : float_to_int (q + 1) ≤ float_to_int q + 1 := by
  by_cases hq : 0 ≤ q
  · have h1 : (0 : ℚ) ≤ q + 1 := by linarith
    simp [float_to_int, hq, h1]
  · have h1 := float_to_int_le_ceil (q + 1)
    have h2 : float_to_int q = ⌈q⌉ := by simp [float_to_int, hq]
    rw [Int.ceil_add_one] at h1
    linarith

theorem float_to_int_close {q r : ℚ} (h1 : q ≤ r + 1) (h2 : r ≤ q + 1) :
    |float_to_int r - float_to_int q| ≤ 1 := by
  have a1 := le_trans (float_to_int_mono h1) (float_to_int_add_one_le r)
  have a2 := le_trans (float_to_int_mono h2) (float_to_int_add_one_le q)
  rw [abs_le]
  constructor <;> linarith

/-! ## The loops of `draw_line` -/

theorem step_sign_ne_zero (d : Int) : step_sign d ≠ 0 := by
  unfold step_sign
  split <;> decide

theorem natAbs_mul_step_sign (d : Int) : (d.natAbs : Int) * step_sign d = d := by
  unfold step_sign
  split <;> omega

theorem draw_line_loop_x_eq (slope pitch : ℚ) (sx : Int) (colour : ivec3) (hs : sx ≠ 0)
    (n k : Nat) : ∀ (x : Int) (s : Trace),
    draw_line_loop_x slope pitch sx (x + n * sx) colour (n + k) x s =
      some { s with pixels := s.pixels ++ (List.range n).map fun (i : Nat) =>
        ((⟨x + i * sx, float_to_int (slope * ((x + i * sx : Int) : ℚ) + pitch)⟩ : ivec2),
          colour) } := by
  induction n with
  | zero =>
    intro x s
    cases k <;> simp [draw_line_loop_x]
  | succ n ih =>
    intro x s
    have hne : x ≠ x + ((n + 1 : Nat) : Int) * sx := by
      intro h
      have h0 : ((n + 1 : Nat) : Int) * sx = 0 := by linarith
      rcases mul_eq_zero.mp h0 with h1 | h1
      · omega
      · exact hs h1
    have hx : x + ((n + 1 : Nat) : Int) * sx = (x + sx) + (n : Int) * sx := by
      push_cast; ring
    rw [show n + 1 + k = (n + k) + 1 by omega]
    simp only [draw_line_loop_x, if_pos hne]
    rw [hx, ih]
    simp only [DrawPixel, List.range_succ_eq_map, List.map_cons, List.map_map,
      List.append_assoc, List.singleton_append]
    congr 3
    simp only [List.cons.injEq, Prod.mk.injEq, ivec2.mk.injEq, List.map_inj_left,
      Function.comp, Nat.cast_zero, zero_mul, add_zero, true_and, and_true, Nat.cast_succ,
      Int.cast_add, Int.cast_mul, Int.cast_natCast, Int.cast_one]
    intro a _
    constructor
    · ring
    · congr 2
      ring

theorem draw_line_loop_y_eq (slope pitch : ℚ) (sy : Int) (colour : ivec3) (hs : sy ≠ 0)
    (n k : Nat) : ∀ (y : Int) (s : Trace),
    draw_line_loop_y slope pitch sy (y + n * sy) colour (n + k) y s =
      some { s with pixels := s.pixels ++ (List.range n).map fun (i : Nat) =>
        ((⟨float_to_int (slope * ((y + i * sy : Int) : ℚ) + pitch), y + i * sy⟩ : ivec2),
          colour) } := by
  induction n with
  | zero =>
    intro y s
    cases k <;> simp [draw_line_loop_y]
  | succ n ih =>
    intro y s
    have hne : y ≠ y + ((n + 1 : Nat) : Int) * sy := by
      intro h
      have h0 : ((n + 1 : Nat) : Int) * sy = 0 := by linarith
      rcases mul_eq_zero.mp h0 with h1 | h1
      · omega
      · exact hs h1
    have hy : y + ((n + 1 : Nat) : Int) * sy = (y + sy) + (n : Int) * sy := by
      push_cast; ring
    rw [show n + 1 + k = (n + k) + 1 by omega]
    simp only [draw_line_loop_y, if_pos hne]
    rw [hy, ih]
    simp only [DrawPixel, List.range_succ_eq_map, List.map_cons, List.map_map,
      List.append_assoc, List.singleton_append]
    congr 3
    simp only [List.cons.injEq, Prod.mk.injEq, ivec2.mk.injEq, List.map_inj_left,
      Function.comp, Nat.cast_zero, zero_mul, add_zero, true_and, and_true, Nat.cast_succ,
      Int.cast_add, Int.cast_mul, Int.cast_natCast, Int.cast_one]
    intro a _
    constructor
    · congr 2
      ring
    · ring

theorem cast_abs_gt_iff (a b : Int) : |(a : ℚ)| > |(b : ℚ)| ↔ |a| > |b| := by
  rw [gt_iff_lt, gt_iff_lt, ← Int.cast_abs, ← Int.cast_abs, Int.cast_lt]

theorem cast_sign_eq (d : Int) : (if (d : ℚ) < 0 then (-1 : Int) else 1) = step_sign d := by
  unfold step_sign
  simp only [Int.cast_lt_zero]

theorem line_steps_x {start end_ : ivec2} (h : |end_.x - start.x| > |end_.y - start.y|) :
    line_steps start end_ = (end_.x - start.x).natAbs := by
  unfold line_steps
  rw [Int.abs_eq_natAbs, Int.abs_eq_natAbs] at h
  omega

theorem line_steps_y {start end_ : ivec2} (h : ¬ |end_.x - start.x| > |end_.y - start.y|) :
    line_steps start end_ = (end_.y - start.y).natAbs := by
  unfold line_steps
  rw [Int.abs_eq_natAbs, Int.abs_eq_natAbs] at h
  omega

/-- Closed form of `draw_line`: with at least `line_steps` units of fuel it
returns, having written `line_points` and evaluated `line_division`. -/
theorem draw_line_eq (start end_ : ivec2) (colour : ivec3) (s : Trace) (k : Nat) :
    draw_line (line_steps start end_ + k) start end_ colour s =
      some ⟨s.pixels ++ (line_points start end_).map (fun p => (p, colour)),
        s.divisions ++ [line_division start end_], s.triangles⟩ := by
  unfold draw_line
  simp only [cast_abs_gt_iff, cast_sign_eq]
  by_cases h : |end_.x - start.x| > |end_.y - start.y|
  · rw [if_pos h, line_steps_x h]
    have hend : end_.x = start.x + ((end_.x - start.x).natAbs : Int) *
        step_sign (end_.x - start.x) := by
      rw [natAbs_mul_step_sign]; ring
    conv_lhs => arg 2; arg 4; rw [hend]
    rw [draw_line_loop_x_eq _ _ _ _ (step_sign_ne_zero _)]
    simp [DrawPixel, log_division, line_points, line_point, line_division, h,
      line_steps_x h, line_point_x, Function.comp_def]
  · rw [if_neg h, line_steps_y h]
    have hend : end_.y = start.y + ((end_.y - start.y).natAbs : Int) *
        step_sign (end_.y - start.y) := by
      rw [natAbs_mul_step_sign]; ring
    conv_lhs => arg 2; arg 4; rw [hend]
    rw [draw_line_loop_y_eq _ _ _ _ (step_sign_ne_zero _)]
    simp [DrawPixel, log_division, line_points, line_point, line_division, h,
      line_steps_y h, line_point_y, Function.comp_def]

/-! ## Geometry of the pixels written by `draw_line` -/

theorem line_value_start (c0 v0 dc dv : Int) : line_value c0 v0 dc dv c0 = v0 := by
  unfold line_value
  ring

theorem line_value_end (c0 v0 dc dv : Int) (h : dc ≠ 0) :
    line_value c0 v0 dc dv (c0 + dc) = ((v0 + dv : Int) : ℚ) := by
  unfold line_value
  have h0 : (dc : ℚ) ≠ 0 := by exact_mod_cast h
  push_cast
  field_simp
  ring

theorem line_value_step (c0 v0 dc dv : Int) (c : Int) (h : |dv| ≤ |dc|) :
    |line_value c0 v0 dc dv (c + step_sign dc) - line_value c0 v0 dc dv c| ≤ 1 := by
  unfold line_value
  have e : ((dv : ℚ) / (dc : ℚ)) * ((c + step_sign dc : Int) : ℚ)
      + ((v0 : ℚ) - ((dv : ℚ) / (dc : ℚ)) * (c0 : ℚ))
      - (((dv : ℚ) / (dc : ℚ)) * (c : ℚ) + ((v0 : ℚ) - ((dv : ℚ) / (dc : ℚ)) * (c0 : ℚ)))
      = ((dv : ℚ) / (dc : ℚ)) * ((step_sign dc : Int) : ℚ) := by
    push_cast; ring
  rw [e, abs_mul, abs_div]
  have hs : |((step_sign dc : Int) : ℚ)| = 1 := by
    unfold step_sign
    split <;> simp
  rw [hs, mul_one]
  have hq : |(dv : ℚ)| ≤ |(dc : ℚ)| := by
    rw [← Int.cast_abs, ← Int.cast_abs]
    exact_mod_cast h
  exact div_le_one_of_le₀ hq (abs_nonneg _)

theorem line_point_x_eq (start end_ : ivec2) (i : Nat) :
    line_point_x start end_ i =
      ⟨start.x + i * step_sign (end_.x - start.x),
        float_to_int (line_value start.x start.y (end_.x - start.x) (end_.y - start.y)
          (start.x + i * step_sign (end_.x - start.x)))⟩ := rfl

theorem line_point_y_eq (start end_ : ivec2) (i : Nat) :
    line_point_y start end_ i =
      ⟨float_to_int (line_value start.y start.x (end_.y - start.y) (end_.x - start.x)
          (start.y + i * step_sign (end_.y - start.y))),
        start.y + i * step_sign (end_.y - start.y)⟩ := rfl

theorem line_point_zero (start end_ : ivec2) : line_point start end_ 0 = start := by
  unfold line_point
  split
  · rw [line_point_x_eq]
    simp [line_value_start, float_to_int_intCast]
  · rw [line_point_y_eq]
    simp [line_value_start, float_to_int_intCast]

theorem line_point_last (start end_ : ivec2) :
    line_point start end_ (line_steps start end_) = end_ := by
  unfold line_point
  split
  next h =>
    have hne : end_.x - start.x ≠ 0 := by
      intro h0
      rw [h0] at h
      simp at h
      exact absurd h (not_lt.mpr (abs_nonneg _))
    rw [line_point_x_eq, line_steps_x h, natAbs_mul_step_sign, line_value_end _ _ _ _ hne,
      float_to_int_intCast]
    cases end_
    simp
  next h =>
    by_cases hne : end_.y - start.y = 0
    · have hx : end_.x - start.x = 0 := by
        rw [hne] at h
        simpa using h
      rw [line_point_y_eq, line_steps_y h, hne]
      simp only [Int.natAbs_zero, Nat.cast_zero, zero_mul, add_zero, line_value_start,
        float_to_int_intCast]
      cases end_
      cases start
      simp only [ivec2.mk.injEq] at *
      omega
    · rw [line_point_y_eq, line_steps_y h, natAbs_mul_step_sign, line_value_end _ _ _ _ hne,
        float_to_int_intCast]
      cases end_
      simp

/-- The pixels written by `draw_line` are the points `line_point i` for
`i = 0, ..., line_steps`. -/
theorem line_points_eq_map (start end_ : ivec2) :
    line_points start end_ =
      (List.range (line_steps start end_ + 1)).map (line_point start end_) := by
  unfold line_points
  rw [List.range_succ, List.map_append, List.map_singleton, line_point_last]

/-- Two consecutive points of the line differ by at most one in each axis. -/
theorem line_point_adjacent (start end_ : ivec2) (i : Nat) :
    |(line_point start end_ (i + 1)).x - (line_point start end_ i).x| ≤ 1 ∧
    |(line_point start end_ (i + 1)).y - (line_point start end_ i).y| ≤ 1 := by
  have hsgn : ∀ d : Int, |step_sign d| ≤ 1 := by
    intro d
    unfold step_sign
    split <;> decide
  unfold line_point
  split
  next h =>
    rw [line_point_x_eq, line_point_x_eq]
    have hstep : start.x + ((i + 1 : Nat) : Int) * step_sign (end_.x - start.x)
        = (start.x + (i : Int) * step_sign (end_.x - start.x))
          + step_sign (end_.x - start.x) := by
      push_cast; ring
    rw [hstep]
    refine ⟨?_, ?_⟩
    · simpa using hsgn _
    · have hv := line_value_step start.x start.y (end_.x - start.x) (end_.y - start.y)
        (start.x + (i : Int) * step_sign (end_.x - start.x)) (le_of_lt h)
      rw [abs_le] at hv
      exact float_to_int_close (by linarith [hv.1]) (by linarith [hv.2])
  next h =>
    rw [line_point_y_eq, line_point_y_eq]
    have hstep : start.y + ((i + 1 : Nat) : Int) * step_sign (end_.y - start.y)
        = (start.y + (i : Int) * step_sign (end_.y - start.y))
          + step_sign (end_.y - start.y) := by
      push_cast; ring
    rw [hstep]
    refine ⟨?_, ?_⟩
    · have hv := line_value_step start.y start.x (end_.y - start.y) (end_.x - start.x)
        (start.y + (i : Int) * step_sign (end_.y - start.y)) (not_lt.mp h)
      rw [abs_le] at hv
      exact float_to_int_close (by linarith [hv.1]) (by linarith [hv.2])
    · simpa using hsgn _

theorem draw_line_of_le (start end_ : ivec2) (colour : ivec3) (s : Trace) (fuel : Nat)
    (h : line_steps start end_ ≤ fuel) :
    draw_line fuel start end_ colour s =
      some ⟨s.pixels ++ (line_points start end_).map (fun p => (p, colour)),
        s.divisions ++ [line_division start end_], s.triangles⟩ := by
  obtain ⟨k, rfl⟩ := Nat.exists_eq_add_of_le h
  exact draw_line_eq start end_ colour s k

theorem line_points_chain (start end_ : ivec2) :
    (line_points start end_).Chain' (fun p q => |q.x - p.x| ≤ 1 ∧ |q.y - p.y| ≤ 1) := by
  rw [line_points_eq_map, List.chain'_map, List.chain'_range_succ]
  intro m _
  exact line_point_adjacent start end_ m

theorem line_points_head (start end_ : ivec2) :
    (line_points start end_).head? = some start := by
  rw [line_points_eq_map, List.range_succ_eq_map]
  simp [line_point_zero]

theorem line_points_getLast (start end_ : ivec2) :
    (line_points start end_).getLast? = some end_ := by
  unfold line_points
  simp

/-! ## The claims about `draw_line` -/

theorem line_value_reverse (c0 v0 dc dv : Int) (c : Int) (h : dc ≠ 0) :
    line_value (c0 + dc) (v0 + dv) (-dc) (-dv) c = line_value c0 v0 dc dv c := by
  unfold line_value
  have h0 : (dc : ℚ) ≠ 0 := by exact_mod_cast h
  push_cast
  field_simp
  ring

theorem step_sign_neg (d : Int) (h : d ≠ 0) : step_sign (-d) = - step_sign d := by
  unfold step_sign
  split <;> split <;> omega

theorem line_steps_comm (a b : ivec2) : line_steps a b = line_steps b a := by
  unfold line_steps
  omega

theorem abs_gt_comm (a b : ivec2) :
    |a.x - b.x| > |a.y - b.y| ↔ |b.x - a.x| > |b.y - a.y| := by
  rw [abs_sub_comm a.x b.x, abs_sub_comm a.y b.y]

/-- Drawing backwards visits the same points in the opposite order. -/
theorem line_point_reverse (a b : ivec2) (i : Nat) (hi : i ≤ line_steps a b) :
    line_point b a i = line_point a b (line_steps a b - i) := by
  by_cases hab : a = b
  · subst hab
    have h0 : line_steps a a = 0 := by simp [line_steps]
    rw [h0] at hi ⊢
    have : i = 0 := by omega
    subst this
    rfl
  have key : ∀ (c0 d : Int) (n i : Nat), d ≠ 0 → n = d.natAbs → i ≤ n →
      (c0 + d) + (i : Int) * step_sign (-d) = c0 + ((n - i : Nat) : Int) * step_sign d := by
    intro c0 d n i hd hn hi
    have h1 := natAbs_mul_step_sign d
    rw [step_sign_neg d hd, Nat.cast_sub hi, hn]
    linear_combination -h1
  unfold line_point
  by_cases h : |b.x - a.x| > |b.y - a.y|
  · rw [if_pos h, if_pos ((abs_gt_comm a b).mpr h), line_point_x_eq, line_point_x_eq]
    have hne : b.x - a.x ≠ 0 := by
      intro h0
      rw [h0] at h
      simp at h
      exact absurd h (not_lt.mpr (abs_nonneg _))
    rw [line_steps_x h] at hi ⊢
    have e1 : a.x - b.x = -(b.x - a.x) := by ring
    have e2 : a.y - b.y = -(b.y - a.y) := by ring
    have e3 : b.x = a.x + (b.x - a.x) := by ring
    have e4 : b.y = a.y + (b.y - a.y) := by ring
    have hk := key a.x (b.x - a.x) _ i hne rfl hi
    rw [← e3] at hk
    rw [e1, e2, hk]
    congr 2
    have hv := line_value_reverse a.x a.y (b.x - a.x) (b.y - a.y)
      (a.x + ((((b.x - a.x).natAbs - i : Nat)) : Int) * step_sign (b.x - a.x)) hne
    rw [← e3, ← e4] at hv
    exact hv
  · rw [if_neg h, if_neg (fun h1 => h ((abs_gt_comm a b).mp h1)), line_point_y_eq,
      line_point_y_eq]
    have hne : b.y - a.y ≠ 0 := by
      intro h0
      rw [h0] at h
      simp only [abs_zero, gt_iff_lt, abs_pos, ne_eq, not_not] at h
      apply hab
      cases a
      cases b
      simp only [ivec2.mk.injEq] at *
      omega
    rw [line_steps_y h] at hi ⊢
    have e1 : a.x - b.x = -(b.x - a.x) := by ring
    have e2 : a.y - b.y = -(b.y - a.y) := by ring
    have e3 : b.x = a.x + (b.x - a.x) := by ring
    have e4 : b.y = a.y + (b.y - a.y) := by ring
    have hk := key a.y (b.y - a.y) _ i hne rfl hi
    rw [← e4] at hk
    rw [e1, e2, hk]
    congr 2
    have hv := line_value_reverse a.y a.x (b.y - a.y) (b.x - a.x)
      (a.y + ((((b.y - a.y).natAbs - i : Nat)) : Int) * step_sign (b.y - a.y)) hne
    rw [← e3, ← e4] at hv
    exact hv

theorem mem_line_points (a b p : ivec2) :
    p ∈ line_points a b ↔ ∃ i, i ≤ line_steps a b ∧ line_point a b i = p := by
  rw [line_points_eq_map]
  simp [Nat.lt_succ_iff]

theorem mem_line_points_reverse (a b p : ivec2) :
    p ∈ line_points a b ↔ p ∈ line_points b a := by
  have one : ∀ a b : ivec2, p ∈ line_points b a → p ∈ line_points a b := by
    intro a b
    rw [mem_line_points, mem_line_points]
    rintro ⟨i, hi, rfl⟩
    rw [← line_steps_comm a b] at hi
    exact ⟨line_steps a b - i, Nat.sub_le _ _, (line_point_reverse a b i hi).symm⟩
  exact ⟨one b a, one a b⟩

/-- C4: for any amount of fuel, `draw_line p p` returns after exactly one pixel
write, at `p`; both loops exit at once, whatever the slope and pitch are. -/
theorem draw_line_same_point (p : ivec2) (colour : ivec3) (s : Trace) (fuel : Nat) :
    (∀ (slope pitch : ℚ) (sx : Int) (t : Trace),
      draw_line_loop_x slope pitch sx p.x colour fuel p.x t = some t) ∧
    (∀ (slope pitch : ℚ) (sy : Int) (t : Trace),
      draw_line_loop_y slope pitch sy p.y colour fuel p.y t = some t) ∧
    ∃ s', draw_line fuel p p colour s = some s' ∧
      s'.pixels = s.pixels ++ [(p, colour)] := by
  refine ⟨?_, ?_, ?_⟩
  · intro slope pitch sx t
    cases fuel <;> simp [draw_line_loop_x]
  · intro slope pitch sy t
    cases fuel <;> simp [draw_line_loop_y]
  · have h := draw_line_of_le p p colour s fuel (by simp [line_steps])
    refine ⟨_, h, ?_⟩
    simp [line_points, line_steps]

theorem line_value_flat (c0 v0 dc c : Int) : line_value c0 v0 dc 0 c = v0 := by
  unfold line_value
  simp

theorem sign_eq_step_sign (d : Int) (h : d ≠ 0) : Int.sign d = step_sign d := by
  unfold step_sign
  split
  next h1 => exact Int.sign_eq_neg_one_of_neg h1
  next h1 => exact Int.sign_eq_one_of_pos (by omega)

/-- On an axis-aligned segment the points of the line are the lattice points
of the segment. -/
theorem line_point_axis_aligned (start end_ : ivec2)
    (h : start.y = end_.y ∨ start.x = end_.x) (i : Nat) (hi : i ≤ line_steps start end_) :
    line_point start end_ i =
      ⟨start.x + i * Int.sign (end_.x - start.x),
        start.y + i * Int.sign (end_.y - start.y)⟩ := by
  unfold line_point
  rcases h with h | h
  · by_cases hx : end_.x - start.x = 0
    · have hc : ¬ |end_.x - start.x| > |end_.y - start.y| := by
        rw [hx]
        simp
      have hi0 : i = 0 := by
        rw [line_steps_y hc, ← h] at hi
        simpa using hi
      rw [if_neg hc, line_point_y_eq, ← h, hx, hi0]
      simp [line_value_flat, float_to_int_intCast]
    · have hc : |end_.x - start.x| > |end_.y - start.y| := by
        rw [← h]
        simpa using hx
      rw [if_pos hc, line_point_x_eq, sign_eq_step_sign _ hx, ← h]
      simp [line_value_flat, float_to_int_intCast]
  · have hc : ¬ |end_.x - start.x| > |end_.y - start.y| := by
      rw [← h]
      simp
    rw [line_steps_y hc] at hi
    rw [if_neg hc, line_point_y_eq, ← h]
    by_cases hy : end_.y - start.y = 0
    · have hi0 : i = 0 := by
        rw [hy] at hi
        simpa using hi
      rw [hy, hi0]
      simp [line_value_flat, float_to_int_intCast]
    · rw [sign_eq_step_sign _ hy]
      simp [line_value_flat, float_to_int_intCast]

theorem draw_line_eq_result (start end_ : ivec2) (colour : ivec3) (s : Trace) (fuel : Nat)
    (h : line_steps start end_ ≤ fuel) :
    draw_line fuel start end_ colour s = some (line_result start end_ colour s) :=
  draw_line_of_le start end_ colour s fuel h

theorem draw_triangle_eq_result (p1 p2 p3 : ivec2) (colour : ivec3) (s : Trace) (fuel : Nat)
    (h : triangle_fuel p1 p2 p3 ≤ fuel) :
    draw_triangle fuel p1 p2 p3 colour s = some (triangle_result p1 p2 p3 colour s) := by
  unfold triangle_fuel at h
  unfold draw_triangle
  rw [draw_line_eq_result _ _ _ _ _ (by omega), Option.some_bind,
    draw_line_eq_result _ _ _ _ _ (by omega), Option.some_bind,
    draw_line_eq_result _ _ _ _ _ (by omega)]
  rfl

/-- C7: with enough fuel `draw_triangle` returns, and the pixels it writes are
those written by `draw_line p1 p2`, then those of `draw_line p2 p3`, then
those of `draw_line p3 p1`; so the set of pixels written is the union of the
three sets. -/
theorem draw_triangle_pixels (p1 p2 p3 : ivec2) (colour : ivec3) (s : Trace) (k : Nat) :
    ∃ (s' a b c : Trace),
      draw_triangle (triangle_fuel p1 p2 p3 + k) p1 p2 p3 colour s = some s' ∧
      draw_line (triangle_fuel p1 p2 p3 + k) p1 p2 colour ⟨[], [], []⟩ = some a ∧
      draw_line (triangle_fuel p1 p2 p3 + k) p2 p3 colour ⟨[], [], []⟩ = some b ∧
      draw_line (triangle_fuel p1 p2 p3 + k) p3 p1 colour ⟨[], [], []⟩ = some c ∧
      s'.pixels = s.pixels ++ (a.pixels ++ b.pixels ++ c.pixels) ∧
      ∀ w, w ∈ a.pixels ++ b.pixels ++ c.pixels ↔
        (w ∈ a.pixels ∨ w ∈ b.pixels ∨ w ∈ c.pixels) := by
  refine ⟨_, _, _, _, draw_triangle_eq_result p1 p2 p3 colour s _ (Nat.le_add_right _ _),
    draw_line_eq_result _ _ _ _ _ ?_, draw_line_eq_result _ _ _ _ _ ?_,
    draw_line_eq_result _ _ _ _ _ ?_, ?_, ?_⟩
  · unfold triangle_fuel; omega
  · unfold triangle_fuel; omega
  · unfold triangle_fuel; omega
  · simp [triangle_result, line_result]
  · intro w
    simp only [List.mem_append, or_assoc]

theorem line_points_axis_aligned (a b : ivec2) (h : a.y = b.y ∨ a.x = b.x) :
    line_points a b = axis_points a b := by
  rw [line_points_eq_map]
  apply List.map_congr_left
  intro i hi
  rw [List.mem_range] at hi
  exact line_point_axis_aligned a b h i (Nat.lt_succ_iff.mp hi)

theorem mem_segment (x0 x1 v : Int) :
    (∃ i : Nat, i ≤ (x1 - x0).natAbs ∧ x0 + (i : Int) * Int.sign (x1 - x0) = v) ↔
      (min x0 x1 ≤ v ∧ v ≤ max x0 x1) := by
  rcases lt_trichotomy (x1 - x0) 0 with h | h | h
  · rw [Int.sign_eq_neg_one_of_neg h]
    constructor
    · rintro ⟨i, hi, rfl⟩
      omega
    · intro hv
      exact ⟨(x0 - v).toNat, by omega, by omega⟩
  · rw [h]
    constructor
    · rintro ⟨i, hi, rfl⟩
      simp only [Int.sign_zero, mul_zero, add_zero]
      omega
    · intro hv
      exact ⟨0, by simp, by simp only [Int.sign_zero, mul_zero, add_zero]; omega⟩
  · rw [Int.sign_eq_one_of_pos h]
    constructor
    · rintro ⟨i, hi, rfl⟩
      omega
    · intro hv
      exact ⟨(v - x0).toNat, by omega, by omega⟩

theorem mem_line_points_horizontal (x0 x1 y : Int) (p : ivec2) :
    p ∈ line_points ⟨x0, y⟩ ⟨x1, y⟩ ↔ (p.y = y ∧ min x0 x1 ≤ p.x ∧ p.x ≤ max x0 x1) := by
  rw [line_points_axis_aligned ⟨x0, y⟩ ⟨x1, y⟩ (Or.inl rfl), ← mem_segment]
  cases p with
  | mk a b =>
    simp only [axis_points, line_steps, List.mem_map, List.mem_range, sub_self,
      Int.natAbs_zero, Int.sign_zero, mul_zero, add_zero, ivec2.mk.injEq, Nat.lt_succ_iff]
    constructor
    · rintro ⟨i, hi, h1, h2⟩
      exact ⟨h2.symm, i, by omega, h1⟩
    · rintro ⟨h2, i, hi, h1⟩
      exact ⟨i, by omega, h1, h2.symm⟩

theorem mem_line_points_vertical (x y0 y1 : Int) (p : ivec2) :
    p ∈ line_points ⟨x, y0⟩ ⟨x, y1⟩ ↔ (p.x = x ∧ min y0 y1 ≤ p.y ∧ p.y ≤ max y0 y1) := by
  rw [line_points_axis_aligned ⟨x, y0⟩ ⟨x, y1⟩ (Or.inr rfl), ← mem_segment]
  cases p with
  | mk a b =>
    simp only [axis_points, line_steps, List.mem_map, List.mem_range, sub_self,
      Int.natAbs_zero, Int.sign_zero, mul_zero, add_zero, ivec2.mk.injEq, Nat.lt_succ_iff]
    constructor
    · rintro ⟨i, hi, h1, h2⟩
      exact ⟨h1.symm, i, by omega, h2⟩
    · rintro ⟨h2, i, hi, h1⟩
      exact ⟨i, by omega, h2.symm, h1⟩

theorem draw_rectangle_eq_result (dimensions position : ivec2) (colour : ivec3)
    (s : Trace) (fuel : Nat) (h : max dimensions.x.natAbs dimensions.y.natAbs ≤ fuel) :
    draw_rectangle fuel dimensions position colour s =
      some (rectangle_result dimensions position colour s) := by
  unfold draw_rectangle
  rw [draw_line_eq_result _ _ _ _ _ (by simp only [line_steps]; omega), Option.some_bind,
    draw_line_eq_result _ _ _ _ _ (by simp only [line_steps]; omega), Option.some_bind,
    draw_line_eq_result _ _ _ _ _ (by simp only [line_steps]; omega), Option.some_bind,
    draw_line_eq_result _ _ _ _ _ (by simp only [line_steps]; omega)]
  rfl

theorem to_ivec2_midpoint (a b : ivec2) :
    vec2.to_ivec2 ⟨(Int.tdiv (a.x + b.x) 2 : Int), (Int.tdiv (a.y + b.y) 2 : Int)⟩
      = midpoint a b := by
  simp [vec2.to_ivec2, midpoint, float_to_int_intCast]

theorem draw_sierpiernski_triangle_eq_result (colour : ivec3) (n : Nat) :
    ∀ (x y z : ivec2) (s : Trace) (fuel : Nat), sierpinski_fuel n x y z ≤ fuel →
      draw_sierpiernski_triangle fuel x y z ((n : Int) + 1) colour s =
        some (sierpinski_result n x y z colour s) := by
  induction n with
  | zero =>
    intro x y z s fuel h
    obtain ⟨f, rfl⟩ : ∃ f, fuel = f + 1 := ⟨fuel - 1, by simp [sierpinski_fuel] at h; omega⟩
    simp only [sierpinski_fuel, add_le_add_iff_right] at h
    simp only [draw_sierpiernski_triangle, Nat.cast_zero, zero_add, if_true]
    exact draw_triangle_eq_result x y z colour s f h
  | succ n ih =>
    intro x y z s fuel h
    obtain ⟨f, rfl⟩ : ∃ f, fuel = f + 1 := ⟨fuel - 1, by simp [sierpinski_fuel] at h; omega⟩
    simp only [sierpinski_fuel, add_le_add_iff_right] at h
    have hg : ¬ (((n + 1 : Nat) : Int) + 1 = 1) := by omega
    have hg1 : ((n + 1 : Nat) : Int) + 1 - 1 = (n : Int) + 1 := by omega
    simp only [draw_sierpiernski_triangle, if_neg hg, hg1, to_ivec2_midpoint]
    rw [ih _ _ _ _ _ (by omega), Option.some_bind, ih _ _ _ _ _ (by omega), Option.some_bind,
      ih _ _ _ _ _ (by omega)]
    rfl

theorem line_result_triangles (a b : ivec2) (colour : ivec3) (s : Trace) :
    (line_result a b colour s).triangles = s.triangles := rfl

theorem sierpinski_result_triangles (colour : ivec3) (n : Nat) :
    ∀ (x y z : ivec2) (s : Trace),
      (sierpinski_result n x y z colour s).triangles =
        s.triangles ++ sierpinski_leaves n x y z := by
  induction n with
  | zero =>
    intro x y z s
    simp [sierpinski_result, sierpinski_leaves, triangle_result, line_result_triangles]
  | succ n ih =>
    intro x y z s
    simp only [sierpinski_result, sierpinski_leaves, ih, List.append_assoc]

theorem sierpinski_leaves_length (n : Nat) :
    ∀ (x y z : ivec2), (sierpinski_leaves n x y z).length = 3 ^ n := by
  induction n with
  | zero => intro x y z; rfl
  | succ n ih =>
    intro x y z
    simp only [sierpinski_leaves, List.length_append, ih]
    ring

/-- C9: for a generation `g ≥ 1`, `draw_sierpiernski_triangle` returns for
every large enough amount of fuel, always with the same trace, and has then
made exactly `3 ^ (g - 1)` calls of `draw_triangle`. -/
theorem draw_sierpiernski_triangle_count (x y z : ivec2) (g : Int) (colour : ivec3)
    (s : Trace) (hg : 1 ≤ g) :
    ∃ (fuel0 : Nat) (s' : Trace),
      (∀ k : Nat, draw_sierpiernski_triangle (fuel0 + k) x y z g colour s = some s') ∧
      s'.triangles.length = s.triangles.length + 3 ^ (g - 1).toNat := by
  obtain ⟨n, rfl⟩ : ∃ n : Nat, g = (n : Int) + 1 := ⟨(g - 1).toNat, by omega⟩
  refine ⟨sierpinski_fuel n x y z, sierpinski_result n x y z colour s, ?_, ?_⟩
  · intro k
    exact draw_sierpiernski_triangle_eq_result colour n x y z s _ (Nat.le_add_right _ _)
  · rw [sierpinski_result_triangles, List.length_append, sierpinski_leaves_length]
    simp

/-- Witness for C9: the call made by `main`, with generation 6. -/
theorem draw_sierpiernski_triangle_count_witness :
    (1 : Int) ≤ 6 ∧
    ∃ (fuel0 : Nat) (s' : Trace),
      (∀ k : Nat, draw_sierpiernski_triangle (fuel0 + k) ⟨400, 50⟩ ⟨750, 550⟩ ⟨50, 550⟩ 6
        ⟨255, 0, 255⟩ ⟨[], [], []⟩ = some s') ∧
      s'.triangles.length = 0 + 3 ^ 5 :=
  ⟨by decide, draw_sierpiernski_triangle_count ⟨400, 50⟩ ⟨750, 550⟩ ⟨50, 550⟩ 6
    ⟨255, 0, 255⟩ ⟨[], [], []⟩ (by decide)⟩

theorem two_mul_tdiv_two (a : Int) :
    a - 1 ≤ 2 * Int.tdiv a 2 ∧ 2 * Int.tdiv a 2 ≤ a + 1 := by
  rcases le_or_lt 0 a with h | h
  · rw [Int.tdiv_eq_ediv h (by decide)]
    omega
  · have e : Int.tdiv a 2 = -(Int.tdiv (-a) 2) := by rw [Int.neg_tdiv, neg_neg]
    rw [e, Int.tdiv_eq_ediv (by omega) (by decide)]
    omega

/-- One coordinate of the edges of a leaf, scaled up by `2 ^ n`, differs from
the same coordinate of the outer edges by at most `2 ^ (n + 1) - 2`. -/
theorem sierpinski_leaves_near (f : ivec2 → Int)
    (hf : ∀ a b, f (midpoint a b) = Int.tdiv (f a + f b) 2) (n : Nat) :
    ∀ (x y z a b c : ivec2), (a, b, c) ∈ sierpinski_leaves n x y z →
      |2 ^ n * (f b - f a) - (f y - f x)| ≤ 2 ^ (n + 1) - 2 ∧
      |2 ^ n * (f c - f a) - (f z - f x)| ≤ 2 ^ (n + 1) - 2 := by
  induction n with
  | zero =>
    intro x y z a b c h
    simp only [sierpinski_leaves, List.mem_singleton, Prod.mk.injEq] at h
    obtain ⟨rfl, rfl, rfl⟩ := h
    simp
  | succ n ih =>
    intro x y z a b c h
    have m1 := two_mul_tdiv_two (f x + f y)
    have m2 := two_mul_tdiv_two (f y + f z)
    have m3 := two_mul_tdiv_two (f z + f x)
    rw [← hf] at m1 m2 m3
    have e1 : (2 : Int) ^ (n + 1) * (f b - f a) = 2 * (2 ^ n * (f b - f a)) := by
      rw [pow_succ]; ring
    have e2 : (2 : Int) ^ (n + 1) * (f c - f a) = 2 * (2 ^ n * (f c - f a)) := by
      rw [pow_succ]; ring
    have e3 : (2 : Int) ^ (n + 1 + 1) = 2 * 2 ^ (n + 1) := by
      rw [pow_succ]; ring
    rw [e1, e2, e3]
    simp only [sierpinski_leaves, List.mem_append] at h
    rcases h with h | h | h
    · have := ih _ _ _ a b c h
      simp only [abs_le] at this ⊢
      omega
    · have := ih _ _ _ a b c h
      simp only [abs_le] at this ⊢
      omega
    · have := ih _ _ _ a b c h
      simp only [abs_le] at this ⊢
      omega

theorem near_of_scaled (n : Nat) (u v : Int)
    (h : |2 ^ n * u - v| ≤ 2 ^ (n + 1) - 2) :
    |(u : ℚ) - (v : ℚ) / 2 ^ n| < 2 := by
  have hP : (0 : ℚ) < 2 ^ n := by positivity
  have e : (u : ℚ) - (v : ℚ) / 2 ^ n = (((2 ^ n * u - v : Int)) : ℚ) / 2 ^ n := by
    push_cast
    field_simp
    ring
  have hq : |(((2 ^ n * u - v : Int)) : ℚ)| ≤ 2 ^ (n + 1) - 2 := by
    rw [← Int.cast_abs]
    exact_mod_cast h
  rw [e, abs_div, abs_of_pos hP, div_lt_iff₀ hP]
  rw [pow_succ] at hq
  linarith

theorem cube_edge_iff (d : ivec3) (hw : d.x ≠ 0) (hh : d.y ≠ 0) (hd : d.z ≠ 0)
    (i j : Nat) (hi : i < 8) (hj : j < 8) :
    ((i, j) ∈ draw_real_cube_vertex_pairs ∨ (j, i) ∈ draw_real_cube_vertex_pairs) ↔
      coordinates_differing ((draw_real_cube_vertices d).getD i ⟨0, 0, 0⟩)
        ((draw_real_cube_vertices d).getD j ⟨0, 0, 0⟩) = 1 := by
  interval_cases i <;> interval_cases j <;>
    simp [draw_real_cube_vertex_pairs, draw_real_cube_vertices, coordinates_differing,
      hw, hh, hd, Ne.symm hw, Ne.symm hh, Ne.symm hd, -Prod.mk_zero_zero, -Prod.mk_one_one]

theorem mem_cube_vertices (d v : ivec3) :
    v ∈ draw_real_cube_vertices d ↔
      ((v.x = 0 ∨ v.x = d.x) ∧ (v.y = 0 ∨ v.y = d.y) ∧ (v.z = 0 ∨ v.z = d.z)) := by
  cases v with
  | mk a b c =>
    simp only [draw_real_cube_vertices, List.mem_cons, ivec3.mk.injEq, List.mem_singleton,
      List.not_mem_nil, or_false]
    tauto

/-- C11: the array `vertices` holds the 8 corners of the box
`{0, w} x {0, h} x {0, d}`, and the array `vertex_pairs` holds its 12 edges:
12 pairwise distinct unordered pairs of distinct indices below 8, such that a
pair of indices is listed exactly when the two corners differ in exactly one
coordinate; every vertex is in exactly 3 pairs. -/
theorem draw_real_cube_wireframe (d : ivec3) (hw : d.x ≠ 0) (hh : d.y ≠ 0) (hd : d.z ≠ 0) :
    (draw_real_cube_vertices d).length = VERTEX_NUM ∧ VERTEX_NUM = 8 ∧
    (draw_real_cube_vertices d).Nodup ∧
    (∀ v : ivec3, v ∈ draw_real_cube_vertices d ↔
      ((v.x = 0 ∨ v.x = d.x) ∧ (v.y = 0 ∨ v.y = d.y) ∧ (v.z = 0 ∨ v.z = d.z))) ∧
    draw_real_cube_vertex_pairs.length = EDGES ∧ EDGES = 12 ∧
    (∀ p ∈ draw_real_cube_vertex_pairs, p.1 < 8 ∧ p.2 < 8 ∧ p.1 ≠ p.2) ∧
    (draw_real_cube_vertex_pairs.map (fun p => (min p.1 p.2, max p.1 p.2))).Nodup ∧
    (∀ i j : Nat, i < 8 → j < 8 →
      (((i, j) ∈ draw_real_cube_vertex_pairs ∨ (j, i) ∈ draw_real_cube_vertex_pairs) ↔
        coordinates_differing ((draw_real_cube_vertices d).getD i ⟨0, 0, 0⟩)
          ((draw_real_cube_vertices d).getD j ⟨0, 0, 0⟩) = 1)) ∧
    (∀ i : Nat, i < 8 →
      draw_real_cube_vertex_pairs.countP (fun p => p.1 == i || p.2 == i) = 3) := by
  refine ⟨rfl, rfl, ?_, mem_cube_vertices d, rfl, rfl, by decide, by decide,
    fun i j hi hj => cube_edge_iff d hw hh hd i j hi hj, ?_⟩
  · simp [draw_real_cube_vertices, hw, hh, hd, Ne.symm hw, Ne.symm hh, Ne.symm hd]
  · intro i hi
    interval_cases i <;> rfl

/-- Witness for C11: the cube drawn by `main`. -/
theorem draw_real_cube_wireframe_witness :
    ((250 : Int) ≠ 0) ∧
    (∀ i j : Nat, i < 8 → j < 8 →
      (((i, j) ∈ draw_real_cube_vertex_pairs ∨ (j, i) ∈ draw_real_cube_vertex_pairs) ↔
        coordinates_differing ((draw_real_cube_vertices ⟨250, 250, 250⟩).getD i ⟨0, 0, 0⟩)
          ((draw_real_cube_vertices ⟨250, 250, 250⟩).getD j ⟨0, 0, 0⟩) = 1)) :=
  ⟨by decide, (draw_real_cube_wireframe ⟨250, 250, 250⟩ (by decide) (by decide)
    (by decide)).2.2.2.2.2.2.2.2.1⟩

theorem angle_update_bounded (fadd : ℚ → ℚ → ℚ) (step : ℚ)
    (hadd : ∀ a b : ℚ, 0 ≤ a → 0 ≤ b → 0 ≤ fadd a b) (hstep : 0 ≤ step)
    (f : ℚ → ℚ) (hf : ∀ a, f a = if fadd a step ≥ 360 then 0 else fadd a step) (n : Nat) :
    0 ≤ f^[n] 0 ∧ f^[n] 0 < 360 := by
  induction n with
  | zero => simp
  | succ n ih =>
    rw [Function.iterate_succ_apply', hf]
    have h0 := hadd _ _ ih.1 hstep
    split
    · norm_num
    · next h => exact ⟨h0, not_le.mp h⟩

/-- C12: whatever float addition is used, as long as the sum of two
non-negative floats is non-negative, the angle kept by `draw_triangle_rotated`
and the angle kept by `draw_real_cube` are in `[0, 360)` after any number of
calls starting from 0; a call either stores the sum of the angle and the step
or, when this sum is at least 360, stores 0, and this is the angle the call
leaves behind when it returns. -/
theorem rotation_angle_bounded (fadd : ℚ → ℚ → ℚ)
    (hadd : ∀ a b : ℚ, 0 ≤ a → 0 ≤ b → 0 ≤ fadd a b) (n : Nat) :
    (0 ≤ (draw_triangle_rotated_angle fadd)^[n] 0 ∧
      (draw_triangle_rotated_angle fadd)^[n] 0 < 360) ∧
    (0 ≤ (draw_real_cube_angle fadd)^[n] 0 ∧
      (draw_real_cube_angle fadd)^[n] 0 < 360) ∧
    (∀ angle : ℚ, draw_triangle_rotated_angle fadd angle =
      if fadd angle float_0_025 ≥ 360 then 0 else fadd angle float_0_025) ∧
    (∀ angle : ℚ, draw_real_cube_angle fadd angle =
      if fadd angle float_0_05 ≥ 360 then 0 else fadd angle float_0_05) ∧
    (∀ (cos sin : ℚ → ℚ) (fuel : Nat) (p1 p2 p3 : ivec2) (colour : ivec3) (angle : ℚ)
      (s : Trace) (r : ℚ × Trace),
      draw_triangle_rotated fadd cos sin fuel p1 p2 p3 colour angle s = some r →
        r.1 = draw_triangle_rotated_angle fadd angle) ∧
    (∀ (project : ℚ → ivec3 → ivec3 → ivec2) (fuel : Nat) (dimensions position : ivec3)
      (colour : ivec3) (angle : ℚ) (s : Trace) (r : ℚ × Trace),
      draw_real_cube fadd project fuel dimensions position colour angle s = some r →
        r.1 = draw_real_cube_angle fadd angle) := by
  refine ⟨?_, ?_, fun _ => rfl, fun _ => rfl, ?_, ?_⟩
  · exact angle_update_bounded fadd float_0_025 hadd (by norm_num [float_0_025]) _
      (fun _ => rfl) n
  · exact angle_update_bounded fadd float_0_05 hadd (by norm_num [float_0_05]) _
      (fun _ => rfl) n
  · intro cos sin fuel p1 p2 p3 colour angle s r h
    simp only [draw_triangle_rotated, Option.map_eq_some'] at h
    obtain ⟨t, _, rfl⟩ := h
    rfl
  · intro project fuel dimensions position colour angle s r h
    simp only [draw_real_cube, Option.map_eq_some'] at h
    obtain ⟨t, _, rfl⟩ := h
    rfl

/-- Witness for C12: exact addition, after 14400 calls. -/
theorem rotation_angle_bounded_witness :
    (∀ a b : ℚ, 0 ≤ a → 0 ≤ b → 0 ≤ (fun x y : ℚ => x + y) a b) ∧
    (0 ≤ (draw_triangle_rotated_angle (fun x y : ℚ => x + y))^[14400] 0 ∧
      (draw_triangle_rotated_angle (fun x y : ℚ => x + y))^[14400] 0 < 360) :=
  ⟨fun _ _ ha hb => add_nonneg ha hb,
    (rotation_angle_bounded (fun x y : ℚ => x + y) (fun _ _ ha hb => add_nonneg ha hb)
      14400).1⟩

theorem float_to_int_eq_of_nonneg {q : ℚ} {n : Int} (h0 : 0 ≤ q) (h1 : (n : ℚ) ≤ q)
    (h2 : q < n + 1) : float_to_int q = n := by
  unfold float_to_int
  rw [if_pos h0]
  exact Int.floor_eq_iff.mpr ⟨h1, h2⟩

/-- One call of `draw_sierpiernski_triangle` either calls `draw_triangle`
(generation 1) or runs its recursive calls in order. -/
theorem draw_sierpiernski_triangle_succ (fuel : Nat) (x y z : ivec2) (g : Int)
    (colour : ivec3) (s : Trace) :
    draw_sierpiernski_triangle (fuel + 1) x y z g colour s =
      if g = 1 then draw_triangle fuel x y z colour s
      else (sierpinski_subcalls x y z g).foldlM
        (fun t c => draw_sierpiernski_triangle fuel c.1 c.2.1 c.2.2.1 c.2.2.2 colour t) s := by
  by_cases h : g = 1
  · simp [draw_sierpiernski_triangle, h]
  · simp only [draw_sierpiernski_triangle, sierpinski_subcalls, if_neg h, List.foldlM_cons,
      List.foldlM_nil, Option.bind_eq_bind]
    congr 1
    funext s1
    congr 1
    funext s2
    simp

theorem draw_sierpiernski_triangle_diverges (fuel : Nat) :
    ∀ (x y z : ivec2) (g : Int) (colour : ivec3) (s : Trace), g ≤ 0 →
      draw_sierpiernski_triangle fuel x y z g colour s = none := by
  induction fuel with
  | zero => intro x y z g colour s _; rfl
  | succ fuel ih =>
    intro x y z g colour s hg
    have h1 : ¬ g = 1 := by omega
    simp only [draw_sierpiernski_triangle, if_neg h1]
    rw [ih _ _ _ _ _ _ (by omega)]
    rfl

theorem sierpinski_subcalls_generation (x y z : ivec2) (g : Int)
    (c : ivec2 × ivec2 × ivec2 × Int) (hc : c ∈ sierpinski_subcalls x y z g) :
    c.2.2.2 = g - 1 := by
  unfold sierpinski_subcalls at hc
  split at hc
  · simp at hc
  · simp only [List.mem_cons, List.mem_singleton, List.not_mem_nil, or_false] at hc
    rcases hc with rfl | rfl | rfl <;> rfl

theorem sierpinski_reachable_nonpos (c d : ivec2 × ivec2 × ivec2 × Int)
    (h : sierpinski_reachable c d) (hc : c.2.2.2 ≤ 0) : d.2.2.2 ≤ 0 := by
  induction h with
  | refl => exact hc
  | step _ hmem ih =>
    have := sierpinski_subcalls_generation _ _ _ _ _ hmem
    omega

/-- C18: for a generation `g ≤ 0`, every call reachable from
`draw_sierpiernski_triangle x y z g` has a generation `≤ 0`, hence is not the
base case (which alone calls `draw_triangle`) and makes three further
recursive calls; and the function returns for no amount of fuel. -/
theorem draw_sierpiernski_triangle_nonpos (x y z : ivec2) (g : Int) (colour : ivec3)
    (s : Trace) (hg : g ≤ 0) :
    (∀ c : ivec2 × ivec2 × ivec2 × Int, sierpinski_reachable (x, y, z, g) c →
      c.2.2.2 ≤ 0 ∧ c.2.2.2 ≠ 1 ∧
      (sierpinski_subcalls c.1 c.2.1 c.2.2.1 c.2.2.2).length = 3 ∧
      ∀ (fuel : Nat) (t : Trace),
        draw_sierpiernski_triangle (fuel + 1) c.1 c.2.1 c.2.2.1 c.2.2.2 colour t =
          (sierpinski_subcalls c.1 c.2.1 c.2.2.1 c.2.2.2).foldlM
            (fun t d => draw_sierpiernski_triangle fuel d.1 d.2.1 d.2.2.1 d.2.2.2 colour t) t) ∧
    (∀ fuel : Nat, draw_sierpiernski_triangle fuel x y z g colour s = none) := by
  constructor
  · intro c hc
    have h0 := sierpinski_reachable_nonpos _ _ hc hg
    have h1 : ¬ c.2.2.2 = 1 := by omega
    refine ⟨h0, h1, ?_, ?_⟩
    · simp [sierpinski_subcalls, h1]
    · intro fuel t
      rw [draw_sierpiernski_triangle_succ, if_neg h1]
  · intro fuel
    exact draw_sierpiernski_triangle_diverges fuel x y z g colour s hg

/-- Witness for C18: generation 0. -/
theorem draw_sierpiernski_triangle_nonpos_witness :
    (0 : Int) ≤ 0 ∧
    ∀ fuel : Nat, draw_sierpiernski_triangle fuel ⟨400, 50⟩ ⟨750, 550⟩ ⟨50, 550⟩ 0
      ⟨255, 0, 255⟩ ⟨[], [], []⟩ = none :=
  ⟨le_refl 0, (draw_sierpiernski_triangle_nonpos ⟨400, 50⟩ ⟨750, 550⟩ ⟨50, 550⟩ 0
    ⟨255, 0, 255⟩ ⟨[], [], []⟩ (le_refl 0)).2⟩

/-- The exact ordinate of the line lies between the ordinates of the two
ends, for an abscissa between the abscissas of the two ends. -/
theorem line_value_between (c0 v0 dc dv : Int) (i : Nat) (hi : i ≤ dc.natAbs) (hdc : dc ≠ 0) :
    ((min v0 (v0 + dv) : Int) : ℚ) ≤ line_value c0 v0 dc dv (c0 + i * step_sign dc) ∧
    line_value c0 v0 dc dv (c0 + i * step_sign dc) ≤ ((max v0 (v0 + dv) : Int) : ℚ) := by
  have hn : (0 : ℚ) < (dc.natAbs : ℚ) := by
    have : 0 < dc.natAbs := Int.natAbs_pos.mpr hdc
    exact_mod_cast this
  have hiq : (i : ℚ) ≤ (dc.natAbs : ℚ) := by exact_mod_cast hi
  have hi0 : (0 : ℚ) ≤ (i : ℚ) := by positivity
  have hs := congrArg (Int.cast : Int → ℚ) (natAbs_mul_step_sign dc)
  rw [Int.cast_mul, Int.cast_natCast] at hs
  have hsne : ((step_sign dc : Int) : ℚ) ≠ 0 := by
    have := step_sign_ne_zero dc
    exact_mod_cast this
  have e : line_value c0 v0 dc dv (c0 + i * step_sign dc) =
      (v0 : ℚ) + (dv : ℚ) * ((i : ℚ) / (dc.natAbs : ℚ)) := by
    unfold line_value
    rw [← hs]
    push_cast
    generalize ((step_sign dc : Int) : ℚ) = S at hsne ⊢
    generalize ((dc.natAbs : ℕ) : ℚ) = N at hn ⊢
    have hN : N ≠ 0 := ne_of_gt hn
    field_simp
    ring
  rw [e]
  have ht0 : (0 : ℚ) ≤ (i : ℚ) / (dc.natAbs : ℚ) := div_nonneg hi0 (le_of_lt hn)
  have ht1 : (i : ℚ) / (dc.natAbs : ℚ) ≤ 1 := (div_le_one hn).mpr hiq
  rcases le_total 0 dv with h | h
  · have hq : (0 : ℚ) ≤ (dv : ℚ) := by exact_mod_cast h
    rw [min_eq_left (by omega), max_eq_right (by omega)]
    push_cast
    constructor <;> nlinarith
  · have hq : (dv : ℚ) ≤ 0 := by exact_mod_cast h
    rw [min_eq_right (by omega), max_eq_left (by omega)]
    push_cast
    constructor <;> nlinarith

theorem float_to_int_between {a b : Int} {q : ℚ} (h1 : (a : ℚ) ≤ q) (h2 : q ≤ (b : ℚ)) :
    a ≤ float_to_int q ∧ float_to_int q ≤ b := by
  have := float_to_int_mono h1
  have := float_to_int_mono h2
  rw [float_to_int_intCast] at *
  constructor <;> assumption

theorem step_between (c0 dc : Int) (i : Nat) (hi : i ≤ dc.natAbs) :
    min c0 (c0 + dc) ≤ c0 + i * step_sign dc ∧ c0 + i * step_sign dc ≤ max c0 (c0 + dc) := by
  unfold step_sign
  split <;> omega

/-- Every point of the line is in the bounding box of its two ends. -/
theorem line_point_in_box (start end_ : ivec2) (i : Nat) (hi : i ≤ line_steps start end_) :
    min start.x end_.x ≤ (line_point start end_ i).x ∧
    (line_point start end_ i).x ≤ max start.x end_.x ∧
    min start.y end_.y ≤ (line_point start end_ i).y ∧
    (line_point start end_ i).y ≤ max start.y end_.y := by
  have ex : end_.x = start.x + (end_.x - start.x) := by ring
  have ey : end_.y = start.y + (end_.y - start.y) := by ring
  by_cases h0 : line_steps start end_ = 0
  · have hi0 : i = 0 := by omega
    rw [hi0, line_point_zero]
    omega
  unfold line_point
  by_cases h : |end_.x - start.x| > |end_.y - start.y|
  · rw [if_pos h, line_point_x_eq]
    rw [line_steps_x h] at hi h0
    have hdc : end_.x - start.x ≠ 0 := by
      intro hh
      rw [hh] at h0
      exact h0 rfl
    have hb := step_between start.x (end_.x - start.x) i hi
    have hv := line_value_between start.x start.y (end_.x - start.x) (end_.y - start.y) i hi hdc
    have hf := float_to_int_between hv.1 hv.2
    rw [← ex] at hb
    rw [← ey] at hf
    exact ⟨hb.1, hb.2, hf.1, hf.2⟩
  · rw [if_neg h, line_point_y_eq]
    rw [line_steps_y h] at hi h0
    have hdc : end_.y - start.y ≠ 0 := by
      intro hh
      rw [hh] at h0
      exact h0 rfl
    have hb := step_between start.y (end_.y - start.y) i hi
    have hv := line_value_between start.y start.x (end_.y - start.y) (end_.x - start.x) i hi hdc
    have hf := float_to_int_between hv.1 hv.2
    rw [← ey] at hb
    rw [← ex] at hf
    exact ⟨hf.1, hf.2, hb.1, hb.2⟩

theorem line_points_in_box (start end_ p : ivec2) (hp : p ∈ line_points start end_) :
    min start.x end_.x ≤ p.x ∧ p.x ≤ max start.x end_.x ∧
    min start.y end_.y ≤ p.y ∧ p.y ≤ max start.y end_.y := by
  rw [mem_line_points] at hp
  obtain ⟨i, hi, rfl⟩ := hp
  exact line_point_in_box start end_ i hi

/-- When the three vertices agree modulo `2 ^ (m + 1)` in the coordinate `f`,
the three midpoints are exact in this coordinate. -/
theorem midpoints_exact (f : ivec2 → Int)
    (hf : ∀ a b, f (midpoint a b) = Int.tdiv (f a + f b) 2) (m : Nat) (x y z : ivec2)
    (k1 k2 : Int) (h1 : f y - f x = 2 ^ (m + 1) * k1) (h2 : f z - f x = 2 ^ (m + 1) * k2) :
    f (midpoint x y) = f x + 2 ^ m * k1 ∧
    f (midpoint y z) = f x + 2 ^ m * (k1 + k2) ∧
    f (midpoint z x) = f x + 2 ^ m * k2 := by
  rw [pow_succ] at h1 h2
  refine ⟨?_, ?_, ?_⟩
  · rw [hf, show f x + f y = 2 * (f x + 2 ^ m * k1) by linear_combination h1]
    exact Int.mul_tdiv_cancel_left _ (by decide)
  · rw [hf, show f y + f z = 2 * (f x + 2 ^ m * (k1 + k2)) by linear_combination h1 + h2]
    exact Int.mul_tdiv_cancel_left _ (by decide)
  · rw [hf, show f z + f x = 2 * (f x + 2 ^ m * k2) by linear_combination h2]
    exact Int.mul_tdiv_cancel_left _ (by decide)

/-- When the three vertices agree modulo `2 ^ n` in the coordinate `f`, the
edges of every leaf are exactly those of the outer triangle divided by
`2 ^ n`. -/
theorem sierpinski_leaves_exact (f : ivec2 → Int)
    (hf : ∀ a b, f (midpoint a b) = Int.tdiv (f a + f b) 2) (n : Nat) :
    ∀ (x y z : ivec2), (2 : Int) ^ n ∣ f y - f x → (2 : Int) ^ n ∣ f z - f x →
      ∀ (a b c : ivec2), (a, b, c) ∈ sierpinski_leaves n x y z →
        2 ^ n * (f b - f a) = f y - f x ∧ 2 ^ n * (f c - f a) = f z - f x := by
  induction n with
  | zero =>
    intro x y z _ _ a b c h
    simp only [sierpinski_leaves, List.mem_singleton, Prod.mk.injEq] at h
    obtain ⟨rfl, rfl, rfl⟩ := h
    simp
  | succ n ih =>
    intro x y z ⟨k1, h1⟩ ⟨k2, h2⟩ a b c h
    obtain ⟨e1, e2, e3⟩ := midpoints_exact f hf n x y z k1 k2 h1 h2
    simp only [sierpinski_leaves, List.mem_append] at h
    rw [pow_succ] at h1 h2 ⊢
    rcases h with h | h | h
    · have := ih _ _ _ ⟨k1, by rw [e1]; ring⟩ ⟨k2, by rw [e3]; ring⟩ a b c h
      rw [e1, e3] at this
      constructor
      · linear_combination 2 * this.1 - h1
      · linear_combination 2 * this.2 - h2
    · have := ih _ _ _ ⟨k1, by rw [e1]; linear_combination h1⟩
        ⟨k2, by rw [e1, e2]; ring⟩ a b c h
      rw [e1, e2] at this
      constructor
      · linear_combination 2 * this.1 + h1
      · linear_combination 2 * this.2 - h2
    · have := ih _ _ _ ⟨k1, by rw [e2, e3]; ring⟩
        ⟨k2, by rw [e3]; linear_combination h2⟩ a b c h
      rw [e2, e3] at this
      constructor
      · linear_combination 2 * this.1 - h1
      · linear_combination 2 * this.2 + h2

/-- The invariant of the calls reachable from a call whose vertices agree
modulo `2 ^ (g - 1)`: the generation stays positive and the vertices agree
modulo `2 ^ (generation - 1)`. -/
theorem sierpinski_reachable_congruent (c d : ivec2 × ivec2 × ivec2 × Int)
    (h : sierpinski_reachable c d)
    (hc : ∃ m : Nat, c.2.2.2 = (m : Int) + 1 ∧
      (2 : Int) ^ m ∣ c.2.1.x - c.1.x ∧ (2 : Int) ^ m ∣ c.2.1.y - c.1.y ∧
      (2 : Int) ^ m ∣ c.2.2.1.x - c.1.x ∧ (2 : Int) ^ m ∣ c.2.2.1.y - c.1.y) :
    ∃ m : Nat, d.2.2.2 = (m : Int) + 1 ∧
      (2 : Int) ^ m ∣ d.2.1.x - d.1.x ∧ (2 : Int) ^ m ∣ d.2.1.y - d.1.y ∧
      (2 : Int) ^ m ∣ d.2.2.1.x - d.1.x ∧ (2 : Int) ^ m ∣ d.2.2.1.y - d.1.y := by
  induction h with
  | refl => exact hc
  | @step d e _ hmem ih =>
    obtain ⟨m, hm, ⟨a1, h1⟩, ⟨b1, h2⟩, ⟨a2, h3⟩, ⟨b2, h4⟩⟩ := ih
    obtain ⟨x, y, z, g⟩ := d
    simp only at hm h1 h2 h3 h4 hmem
    cases m with
    | zero =>
      have hg : g = 1 := by simpa using hm
      simp [sierpinski_subcalls, hg] at hmem
    | succ m =>
      have hg : ¬ g = 1 := by push_cast at hm; omega
      obtain ⟨ex1, ex2, ex3⟩ := midpoints_exact (fun p => p.x) (fun _ _ => rfl) m x y z a1 a2
        h1 h3
      obtain ⟨ey1, ey2, ey3⟩ := midpoints_exact (fun p => p.y) (fun _ _ => rfl) m x y z b1 b2
        h2 h4
      rw [pow_succ] at h1 h2 h3 h4
      simp only [sierpinski_subcalls, if_neg hg, to_ivec2_midpoint, List.mem_cons,
        List.mem_singleton, List.not_mem_nil, or_false] at hmem
      have hgm : g - 1 = (m : Int) + 1 := by push_cast at hm; omega
      rcases hmem with rfl | rfl | rfl
      · refine ⟨m, hgm, ⟨a1, ?_⟩, ⟨b1, ?_⟩, ⟨a2, ?_⟩, ⟨b2, ?_⟩⟩ <;> simp only
        · rw [ex1]; ring
        · rw [ey1]; ring
        · rw [ex3]; ring
        · rw [ey3]; ring
      · refine ⟨m, hgm, ⟨a1, ?_⟩, ⟨b1, ?_⟩, ⟨a2, ?_⟩, ⟨b2, ?_⟩⟩ <;> simp only
        · rw [ex1]; linear_combination h1
        · rw [ey1]; linear_combination h2
        · rw [ex1, ex2]; ring
        · rw [ey1, ey2]; ring
      · refine ⟨m, hgm, ⟨a1, ?_⟩, ⟨b1, ?_⟩, ⟨a2, ?_⟩, ⟨b2, ?_⟩⟩ <;> simp only
        · rw [ex2, ex3]; ring
        · rw [ey2, ey3]; ring
        · rw [ex3]; linear_combination h3
        · rw [ey3]; linear_combination h4

theorem scaled_of_exact (n : Nat) (u v : Int) (h : 2 ^ n * u = v) :
    (u : ℚ) = (v : ℚ) / 2 ^ n := by
  have hP : (2 : ℚ) ^ n ≠ 0 := by positivity
  rw [eq_div_iff hP, ← h]
  push_cast
  ring

theorem polyline_calls_length (last : ivec2) (ps : List ivec2) :
    (polyline_calls last ps).length = ps.length := by
  induction ps generalizing last with
  | nil => rfl
  | cons p ps ih => simp [polyline_calls, ih]

/-- In `polyline_calls` every call starts where the previous one ended. -/
theorem polyline_calls_chain (last : ivec2) (ps : List ivec2) :
    (polyline_calls last ps).Chain' (fun c d => d.1 = c.2) := by
  induction ps generalizing last with
  | nil => exact List.chain'_nil
  | cons p ps ih =>
    cases ps with
    | nil => exact List.chain'_singleton _
    | cons q qs =>
      simp only [polyline_calls]
      exact List.Chain'.cons rfl (ih p)

theorem polyline_calls_ends (last : ivec2) (ps : List ivec2) :
    (polyline_calls last ps).map (fun c => c.2) = ps := by
  induction ps generalizing last with
  | nil => rfl
  | cons p ps ih => simp [polyline_calls, ih]

/-- A disc is convex. -/
theorem sq_add_sq_convex {K : Type} [LinearOrderedField K] (a1 a2 b1 b2 t R : K)
    (ha : a1 ^ 2 + a2 ^ 2 ≤ R ^ 2) (hb : b1 ^ 2 + b2 ^ 2 ≤ R ^ 2) (ht0 : 0 ≤ t) (ht1 : t ≤ 1) :
    (a1 + (b1 - a1) * t) ^ 2 + (a2 + (b2 - a2) * t) ^ 2 ≤ R ^ 2 := by
  have h1t : 0 ≤ 1 - t := by linarith
  have key : (a1 + (b1 - a1) * t) ^ 2 + (a2 + (b2 - a2) * t) ^ 2 =
      (1 - t) * (a1 ^ 2 + a2 ^ 2) + t * (b1 ^ 2 + b2 ^ 2) -
        t * (1 - t) * ((a1 - b1) ^ 2 + (a2 - b2) ^ 2) := by ring
  rw [key]
  nlinarith [mul_nonneg (mul_nonneg ht0 h1t) (add_nonneg (sq_nonneg (a1 - b1))
    (sq_nonneg (a2 - b2))), mul_le_mul_of_nonneg_left ha h1t,
    mul_le_mul_of_nonneg_left hb ht0]

theorem float_to_int_sub_lt (q : ℚ) :
    -1 < (float_to_int q : ℚ) - q ∧ (float_to_int q : ℚ) - q < 1 := by
  unfold float_to_int
  split
  · have h1 := Int.floor_le q
    have h2 := Int.lt_floor_add_one q
    constructor <;> linarith
  · have h1 := Int.le_ceil q
    have h2 := Int.ceil_lt_add_one q
    constructor <;> linarith

/-- The exact ordinate after `i` steps, and the abscissa, as points of the
segment at the parameter `i / |dc|`. -/
theorem line_value_at_step (c0 v0 dc dv : Int) (i : Nat) (hdc : dc ≠ 0) :
    line_value c0 v0 dc dv (c0 + i * step_sign dc) =
      (v0 : ℚ) + (dv : ℚ) * ((i : ℚ) / (dc.natAbs : ℚ)) ∧
    ((c0 + i * step_sign dc : Int) : ℚ) =
      (c0 : ℚ) + (dc : ℚ) * ((i : ℚ) / (dc.natAbs : ℚ)) := by
  have hn : (0 : ℚ) < (dc.natAbs : ℚ) := by
    have : 0 < dc.natAbs := Int.natAbs_pos.mpr hdc
    exact_mod_cast this
  have hs := congrArg (Int.cast : Int → ℚ) (natAbs_mul_step_sign dc)
  rw [Int.cast_mul, Int.cast_natCast] at hs
  have hsne : ((step_sign dc : Int) : ℚ) ≠ 0 := by
    have := step_sign_ne_zero dc
    exact_mod_cast this
  unfold line_value
  rw [← hs]
  push_cast
  generalize ((step_sign dc : Int) : ℚ) = S at hsne ⊢
  generalize ((dc.natAbs : ℕ) : ℚ) = N at hn ⊢
  have hN : N ≠ 0 := ne_of_gt hn
  constructor
  · field_simp
    ring
  · field_simp
    ring

theorem polyline_calls_mem (P : ivec2 → Prop) (ps : List ivec2) :
    ∀ last : ivec2, P last → (∀ p ∈ ps, P p) →
      ∀ c ∈ polyline_calls last ps, P c.1 ∧ P c.2 := by
  induction ps with
  | nil => intro last _ _ c hc; simp [polyline_calls] at hc
  | cons p ps ih =>
    intro last hl hps c hc
    simp only [polyline_calls, List.mem_cons] at hc
    rcases hc with rfl | hc
    · exact ⟨hl, hps p (List.mem_cons_self _ _)⟩
    · exact ih p (hps p (List.mem_cons_self _ _))
        (fun q hq => hps q (List.mem_cons_of_mem _ hq)) c hc

theorem line_value_diagonal (c0 v0 d c : Int) (h : d ≠ 0) :
    line_value c0 v0 d d c = ((v0 + (c - c0) : Int) : ℚ) := by
  unfold line_value
  have h0 : (d : ℚ) ≠ 0 := by exact_mod_cast h
  rw [div_self h0]
  push_cast
  ring

/-- The line from `c` to `c + (d, d)` consists of the diagonal points. -/
theorem line_points_diagonal (x y d : Int) :
    line_points ⟨x, y⟩ ⟨x + d, y + d⟩ = diagonal_points ⟨x, y⟩ d := by
  have hs : line_steps ⟨x, y⟩ ⟨x + d, y + d⟩ = d.natAbs := by
    simp [line_steps]
  rw [line_points_eq_map, hs, diagonal_points]
  apply List.map_congr_left
  intro i hi
  rw [List.mem_range] at hi
  by_cases hd : d = 0
  · subst hd
    have hi0 : i = 0 := by simpa using hi
    subst hi0
    rw [line_point_zero]
    simp
  · have hc : ¬ |(x + d) - x| > |(y + d) - y| := by simp
    simp only [line_point, if_neg hc, line_point_y_eq]
    rw [show x + d - x = d by ring, show y + d - y = d by ring, line_value_diagonal _ _ _ _ hd,
      float_to_int_intCast, sign_eq_step_sign d hd]
    congr 1
    ring

theorem diagonal_points_nodup (c : ivec2) (d : Int) : (diagonal_points c d).Nodup := by
  unfold diagonal_points
  apply List.Nodup.map_on _ (List.nodup_range _)
  intro i hi j hj hij
  rw [List.mem_range] at hi hj
  simp only [ivec2.mk.injEq, add_right_inj] at hij
  by_cases hd : d = 0
  · subst hd
    simp at hi hj
    omega
  · have h1 := hij.1
    rw [sign_eq_step_sign _ hd] at h1
    have := mul_right_cancel₀ (step_sign_ne_zero _) h1
    exact_mod_cast this

theorem draw_fake_cube_eq_result (dimensions : ivec3) (position : ivec2) (colour : ivec3)
    (s : Trace) (fuel : Nat)
    (h : max dimensions.x.natAbs (max dimensions.y.natAbs dimensions.z.natAbs) ≤ fuel) :
    draw_fake_cube fuel dimensions position colour s =
      some (fake_cube_result dimensions position colour s) := by
  unfold draw_fake_cube
  rw [draw_rectangle_eq_result _ _ _ _ _ (by simp only; omega), Option.some_bind,
    draw_rectangle_eq_result _ _ _ _ _ (by simp only; omega), Option.some_bind,
    draw_line_eq_result _ _ _ _ _ (by simp only [line_steps]; omega), Option.some_bind,
    draw_line_eq_result _ _ _ _ _ (by simp only [line_steps]; omega), Option.some_bind,
    draw_line_eq_result _ _ _ _ _ (by simp only [line_steps]; omega), Option.some_bind,
    draw_line_eq_result _ _ _ _ _ (by simp only [line_steps]; omega)]
  rfl

theorem rectangle_result_pixels (dimensions position : ivec2) (colour : ivec3) (s : Trace) :
    (rectangle_result dimensions position colour s).pixels =
      s.pixels ++ (rectangle_result dimensions position colour ⟨[], [], []⟩).pixels := by
  simp [rectangle_result, line_result]

theorem polyline_calls_head_of_head (last : ivec2) (ps : List ivec2)
    (h : ps.head? = some last) : (polyline_calls last ps).head? = some (last, last) := by
  cases ps with
  | nil => simp at h
  | cons p ps =>
    simp only [List.head?_cons, Option.some.injEq] at h
    subst h
    rfl

theorem significand_shift_lower (fuel : Nat) : ∀ n : Nat,
    0 < significand_shift fuel n → 2 ^ (23 + significand_shift fuel n) ≤ n := by
  induction fuel with
  | zero => intro n h; simp [significand_shift] at h
  | succ fuel ih =>
    intro n h
    rw [significand_shift] at h ⊢
    by_cases hn : n < 2 ^ 24
    · rw [if_pos hn] at h
      exact absurd h (lt_irrefl 0)
    · rw [if_neg hn] at h ⊢
      by_cases h0 : 0 < significand_shift fuel (n / 2)
      · have := ih (n / 2) h0
        have h2 : 2 ^ (23 + (significand_shift fuel (n / 2) + 1)) =
            2 * 2 ^ (23 + significand_shift fuel (n / 2)) := by
          rw [← Nat.add_assoc, pow_succ]; ring
        rw [h2]
        omega
      · have h1 : significand_shift fuel (n / 2) = 0 := by omega
        rw [h1]
        simpa using hn

theorem significand_shift_le (fuel : Nat) : ∀ (n k : Nat), n < 2 ^ (24 + k) →
    significand_shift fuel n ≤ k := by
  induction fuel with
  | zero => intro n k _; simp [significand_shift]
  | succ fuel ih =>
    intro n k h
    rw [significand_shift]
    by_cases hn : n < 2 ^ 24
    · rw [if_pos hn]
      exact Nat.zero_le _
    · rw [if_neg hn]
      cases k with
      | zero => exact absurd h hn
      | succ k =>
        have h2 : n / 2 < 2 ^ (24 + k) := by
          rw [← Nat.add_assoc, pow_succ] at h
          omega
        have := ih (n / 2) k h2
        omega

theorem round_to_even_of_dvd (n shift : Nat) (h : 2 ^ shift ∣ n) :
    round_to_even n shift = n := by
  unfold round_to_even
  have hr : n % 2 ^ shift = 0 := Nat.mod_eq_zero_of_dvd h
  have hp : 0 < 2 ^ shift := by positivity
  simp only [hr, mul_zero, hp, if_true]
  exact Nat.div_mul_cancel h

theorem round_to_even_pos (n shift : Nat) (h : 2 ^ shift ≤ n) :
    0 < round_to_even n shift := by
  unfold round_to_even
  have hp : 0 < 2 ^ shift := by positivity
  have hq : 0 < n / 2 ^ shift := Nat.div_pos h hp
  simp only
  split_ifs <;> positivity

/-- The scaled magnitude and shift used by `binary32_round` at an integer. -/
theorem binary32_round_intCast (n : Int) :
    binary32_round (n : ℚ) =
      (if n < 0 then -((round_to_even (n.natAbs * 2 ^ 151)
          (max 2 (significand_shift 256 (n.natAbs * 2 ^ 151))) : Nat) : ℚ)
        else ((round_to_even (n.natAbs * 2 ^ 151)
          (max 2 (significand_shift 256 (n.natAbs * 2 ^ 151))) : Nat) : ℚ)) / 2 ^ 151 := by
  unfold binary32_round
  have h1 : |(n : ℚ)| * 2 ^ 150 = ((n.natAbs * 2 ^ 150 : Nat) : ℚ) := by
    rw [Nat.cast_mul, Nat.cast_pow, Nat.cast_ofNat, Nat.cast_natAbs, Int.cast_abs]
  have h2 : ⌊|(n : ℚ)| * 2 ^ 150⌋.toNat = n.natAbs * 2 ^ 150 := by
    rw [h1, Int.floor_natCast, Int.toNat_natCast]
  simp only [h2]
  rw [if_pos h1.symm]
  have h3 : 2 * (n.natAbs * 2 ^ 150) + 0 = n.natAbs * 2 ^ 151 := by ring
  rw [h3]
  simp only [Int.cast_lt_zero]

theorem binary32_shift_pos (m : Nat) (h : 4 ≤ m) :
    2 ^ (max 2 (significand_shift 256 m)) ≤ m := by
  rcases Nat.lt_or_ge 2 (significand_shift 256 m) with h1 | h1
  · rw [max_eq_right (le_of_lt h1)]
    have := significand_shift_lower 256 m (by omega)
    calc 2 ^ significand_shift 256 m ≤ 2 ^ (23 + significand_shift 256 m) :=
          Nat.pow_le_pow_right (by norm_num) (by omega)
      _ ≤ m := this
  · rw [max_eq_left h1]
    simpa using h

/-- The conversion of an `int` to a `float` keeps the sign. -/
theorem float_of_int_neg_iff (n : Int) : float_of_int n < 0 ↔ n < 0 := by
  unfold float_of_int
  rw [binary32_round_intCast]
  have hp : (0 : ℚ) < 2 ^ 151 := by positivity
  by_cases hn : n < 0
  · simp only [hn, if_true, iff_true]
    have h4 : 4 ≤ n.natAbs * 2 ^ 151 := by
      have : 1 ≤ n.natAbs := by omega
      calc 4 ≤ 1 * 2 ^ 151 := by norm_num
        _ ≤ n.natAbs * 2 ^ 151 := Nat.mul_le_mul_right _ this
    have := round_to_even_pos _ _ (binary32_shift_pos _ h4)
    have h5 : (0 : ℚ) < ((round_to_even (n.natAbs * 2 ^ 151)
        (max 2 (significand_shift 256 (n.natAbs * 2 ^ 151))) : Nat) : ℚ) := by
      exact_mod_cast this
    apply div_neg_of_neg_of_pos _ hp
    linarith
  · simp only [hn, if_false, iff_false, not_lt]
    exact div_nonneg (Nat.cast_nonneg _) (le_of_lt hp)

/-- The conversion of an `int` to a `float` gives zero only at zero. -/
theorem float_of_int_eq_zero_iff (n : Int) : float_of_int n = 0 ↔ n = 0 := by
  constructor
  · intro h
    by_contra hn
    unfold float_of_int at h
    rw [binary32_round_intCast] at h
    have hp : (0 : ℚ) < 2 ^ 151 := by positivity
    have h4 : 4 ≤ n.natAbs * 2 ^ 151 := by
      have : 1 ≤ n.natAbs := by omega
      calc 4 ≤ 1 * 2 ^ 151 := by norm_num
        _ ≤ n.natAbs * 2 ^ 151 := Nat.mul_le_mul_right _ this
    have := round_to_even_pos _ _ (binary32_shift_pos _ h4)
    have h5 : (0 : ℚ) < ((round_to_even (n.natAbs * 2 ^ 151)
        (max 2 (significand_shift 256 (n.natAbs * 2 ^ 151))) : Nat) : ℚ) := by
      exact_mod_cast this
    rw [div_eq_zero_iff] at h
    rcases h with h | h
    · split_ifs at h <;> linarith
    · linarith
  · intro h0
    unfold float_of_int
    rw [binary32_round_intCast, h0, Int.natAbs_zero, Nat.zero_mul,
      round_to_even_of_dvd _ _ (dvd_zero _)]
    simp

/-- Integers of magnitude at most `2 ^ 24` are binary32 numbers. -/
theorem binary32_round_int (n : Int) (h : |n| ≤ 2 ^ 24) : binary32_round (n : ℚ) = n := by
  rw [binary32_round_intCast]
  have hn : n.natAbs ≤ 2 ^ 24 := by
    rw [Int.abs_eq_natAbs] at h
    exact_mod_cast h
  have hm : n.natAbs * 2 ^ 151 < 2 ^ (24 + 152) := by
    calc n.natAbs * 2 ^ 151 ≤ 2 ^ 24 * 2 ^ 151 := Nat.mul_le_mul_right _ hn
      _ < 2 ^ (24 + 152) := by norm_num
  have hs := significand_shift_le 256 _ _ hm
  have hdvd : 2 ^ (max 2 (significand_shift 256 (n.natAbs * 2 ^ 151))) ∣
      n.natAbs * 2 ^ 151 := by
    rcases Nat.lt_or_ge (significand_shift 256 (n.natAbs * 2 ^ 151)) 152 with h1 | h1
    · apply Dvd.dvd.mul_left
      apply Nat.pow_dvd_pow
      omega
    · have h2 : significand_shift 256 (n.natAbs * 2 ^ 151) = 152 := by omega
      have h3 := significand_shift_lower 256 (n.natAbs * 2 ^ 151) (by omega)
      rw [h2] at h3 ⊢
      have h4 : n.natAbs = 2 ^ 24 := by
        have : 2 ^ 24 * 2 ^ 151 ≤ n.natAbs * 2 ^ 151 := by
          calc 2 ^ 24 * 2 ^ 151 = 2 ^ (23 + 152) := by norm_num
            _ ≤ _ := h3
        have := Nat.le_of_mul_le_mul_right this (by positivity)
        omega
      rw [h4]
      norm_num
  rw [round_to_even_of_dvd _ _ hdvd]
  have hp : (2 : ℚ) ^ 151 ≠ 0 := by positivity
  by_cases h0 : n < 0
  · rw [if_pos h0]
    rw [Nat.cast_mul, Nat.cast_pow, Nat.cast_ofNat, Nat.cast_natAbs, Int.cast_abs,
      abs_of_neg (by exact_mod_cast h0), neg_div, mul_div_assoc, div_self hp, mul_one, neg_neg]
  · rw [if_neg h0]
    rw [Nat.cast_mul, Nat.cast_pow, Nat.cast_ofNat, Nat.cast_natAbs, Int.cast_abs,
      abs_of_nonneg (by exact_mod_cast (not_lt.mp h0)), mul_div_assoc, div_self hp, mul_one]

theorem float_of_int_exact (n : Int) (h : |n| ≤ 2 ^ 24) : float_of_int n = n :=
  binary32_round_int n h

theorem float32_draw_line_loop_x_eq (slope pitch : ℚ) (sx : Int) (colour : ivec3)
    (hs : sx ≠ 0) (n k : Nat) : ∀ (x : Int) (s : Trace),
    float32.draw_line_loop_x slope pitch sx (x + n * sx) colour (n + k) x s =
      some { s with pixels := s.pixels ++ (List.range n).map fun (i : Nat) =>
        ((⟨x + i * sx, float_to_int (float_add (float_mul slope
          (float_of_int (x + i * sx))) pitch)⟩ : ivec2), colour) } := by
  induction n with
  | zero =>
    intro x s
    cases k <;> simp [float32.draw_line_loop_x]
  | succ n ih =>
    intro x s
    have hne : x ≠ x + ((n + 1 : Nat) : Int) * sx := by
      intro h
      have h0 : ((n + 1 : Nat) : Int) * sx = 0 := by linarith
      rcases mul_eq_zero.mp h0 with h1 | h1
      · omega
      · exact hs h1
    have hx : x + ((n + 1 : Nat) : Int) * sx = (x + sx) + (n : Int) * sx := by
      push_cast; ring
    rw [show n + 1 + k = (n + k) + 1 by omega]
    simp only [float32.draw_line_loop_x, if_pos hne]
    rw [hx, ih]
    simp only [DrawPixel, List.range_succ_eq_map, List.map_cons, List.map_map,
      List.append_assoc, List.singleton_append]
    congr 3
    simp only [List.cons.injEq, Prod.mk.injEq, ivec2.mk.injEq, List.map_inj_left,
      Function.comp, Nat.cast_zero, zero_mul, add_zero, true_and, and_true, Nat.cast_succ]
    intro a _
    have e : x + sx + (a : Int) * sx = x + ((a : Int) + 1) * sx := by ring
    rw [e]
    exact ⟨rfl, rfl⟩

theorem float32_draw_line_loop_y_eq (slope pitch : ℚ) (sy : Int) (colour : ivec3)
    (hs : sy ≠ 0) (n k : Nat) : ∀ (y : Int) (s : Trace),
    float32.draw_line_loop_y slope pitch sy (y + n * sy) colour (n + k) y s =
      some { s with pixels := s.pixels ++ (List.range n).map fun (i : Nat) =>
        ((⟨float_to_int (float_add (float_mul slope (float_of_int (y + i * sy))) pitch),
          y + i * sy⟩ : ivec2), colour) } := by
  induction n with
  | zero =>
    intro y s
    cases k <;> simp [float32.draw_line_loop_y]
  | succ n ih =>
    intro y s
    have hne : y ≠ y + ((n + 1 : Nat) : Int) * sy := by
      intro h
      have h0 : ((n + 1 : Nat) : Int) * sy = 0 := by linarith
      rcases mul_eq_zero.mp h0 with h1 | h1
      · omega
      · exact hs h1
    have hy : y + ((n + 1 : Nat) : Int) * sy = (y + sy) + (n : Int) * sy := by
      push_cast; ring
    rw [show n + 1 + k = (n + k) + 1 by omega]
    simp only [float32.draw_line_loop_y, if_pos hne]
    rw [hy, ih]
    simp only [DrawPixel, List.range_succ_eq_map, List.map_cons, List.map_map,
      List.append_assoc, List.singleton_append]
    congr 3
    simp only [List.cons.injEq, Prod.mk.injEq, ivec2.mk.injEq, List.map_inj_left,
      Function.comp, Nat.cast_zero, zero_mul, add_zero, true_and, and_true, Nat.cast_succ]
    intro a _
    have e : y + sy + (a : Int) * sy = y + ((a : Int) + 1) * sy := by ring
    rw [e]
    exact ⟨rfl, rfl⟩

theorem float32_sign_eq (d : Int) :
    (if float_of_int d < 0 then (-1 : Int) else 1) = step_sign d := by
  unfold step_sign
  simp only [float_of_int_neg_iff]

/-- Closed form of `draw_line` in binary32 arithmetic: with at least
`float32.line_steps` units of fuel it returns, having written
`float32.line_points`. -/
theorem float32_draw_line_eq (start end_ : ivec2) (colour : ivec3) (s : Trace) (k : Nat) :
    float32.draw_line (float32.line_steps start end_ + k) start end_ colour s =
      some (float32.line_result start end_ colour s) := by
  unfold float32.draw_line float32.line_result
  simp only [float32_sign_eq]
  by_cases h : float32.x_dominant start end_
  · have h' := h
    unfold float32.x_dominant at h'
    rw [if_pos h']
    have hst : float32.line_steps start end_ = (end_.x - start.x).natAbs := by
      simp [float32.line_steps, h]
    rw [hst]
    have hend : end_.x = start.x + ((end_.x - start.x).natAbs : Int) *
        step_sign (end_.x - start.x) := by
      rw [natAbs_mul_step_sign]; ring
    conv_lhs => arg 2; arg 4; rw [hend]
    rw [float32_draw_line_loop_x_eq _ _ _ _ (step_sign_ne_zero _)]
    simp [DrawPixel, log_division, float32.line_points, float32.line_point,
      float32.line_division, h, hst, float32.line_value, Function.comp_def]
  · have h' := h
    unfold float32.x_dominant at h'
    rw [if_neg h']
    have hst : float32.line_steps start end_ = (end_.y - start.y).natAbs := by
      simp [float32.line_steps, h]
    rw [hst]
    have hend : end_.y = start.y + ((end_.y - start.y).natAbs : Int) *
        step_sign (end_.y - start.y) := by
      rw [natAbs_mul_step_sign]; ring
    conv_lhs => arg 2; arg 4; rw [hend]
    rw [float32_draw_line_loop_y_eq _ _ _ _ (step_sign_ne_zero _)]
    simp [DrawPixel, log_division, float32.line_points, float32.line_point,
      float32.line_division, h, hst, float32.line_value, Function.comp_def]

theorem float32_line_steps_le (start end_ : ivec2) :
    float32.line_steps start end_ ≤ MCG.line_steps start end_ := by
  unfold float32.line_steps MCG.line_steps
  split <;> omega

/-- With at least `line_steps` units of fuel, `draw_line` returns in binary32
arithmetic. -/
theorem float32_draw_line_of_le (start end_ : ivec2) (colour : ivec3) (s : Trace)
    (fuel : Nat) (h : MCG.line_steps start end_ ≤ fuel) :
    float32.draw_line fuel start end_ colour s =
      some (float32.line_result start end_ colour s) := by
  have h1 := float32_line_steps_le start end_
  obtain ⟨k, rfl⟩ := Nat.exists_eq_add_of_le (le_trans h1 h)
  exact float32_draw_line_eq start end_ colour s k

theorem binary32_round_zero : binary32_round 0 = 0 := by
  have := binary32_round_int 0 (by norm_num)
  simpa using this

theorem binary32_round_one : binary32_round 1 = 1 := by
  have := binary32_round_int 1 (by norm_num)
  simpa using this

theorem float_of_int_zero : float_of_int 0 = 0 := by
  unfold float_of_int
  simpa using binary32_round_zero

/-- An operation whose exact result is an integer of magnitude at most
`2 ^ 24` is exact in binary32. -/
theorem binary32_round_eq_int (q : ℚ) (n : Int) (hq : q = n) (h : |n| ≤ 2 ^ 24) :
    binary32_round q = n := by
  rw [hq]
  exact binary32_round_int n h

/-- On a segment along which `v` is constant, the `float` ordinate is `v0`,
provided `v0` is a binary32 number. -/
theorem float32_line_value_flat (c0 v0 dc c : Int) (h : |v0| ≤ 2 ^ 24) :
    float32.line_value c0 v0 dc 0 c = v0 := by
  unfold float32.line_value float_add float_sub float_mul float_div
  rw [float_of_int_zero, zero_div, binary32_round_zero, zero_mul, binary32_round_zero,
    zero_mul, binary32_round_zero, sub_zero, zero_add, float_of_int_exact v0 h,
    binary32_round_int v0 h, binary32_round_int v0 h]

/-- On a diagonal segment the `float` ordinate is exact, provided the numbers
involved are binary32 numbers. -/
theorem float32_line_value_diagonal (c0 v0 d c : Int) (hd : d ≠ 0) (h1 : |c0| ≤ 2 ^ 24)
    (h2 : |v0| ≤ 2 ^ 24) (h3 : |c| ≤ 2 ^ 24) (h4 : |v0 - c0| ≤ 2 ^ 24)
    (h5 : |v0 + (c - c0)| ≤ 2 ^ 24) :
    float32.line_value c0 v0 d d c = ((v0 + (c - c0) : Int) : ℚ) := by
  unfold float32.line_value float_add float_sub float_mul float_div
  have hD : float_of_int d ≠ 0 := fun h => hd ((float_of_int_eq_zero_iff d).mp h)
  rw [div_self hD, binary32_round_one, one_mul, one_mul, float_of_int_exact c0 h1,
    float_of_int_exact v0 h2, float_of_int_exact c h3, binary32_round_int c h3,
    binary32_round_int c0 h1,
    binary32_round_eq_int ((v0 : ℚ) - c0) (v0 - c0) (by push_cast; ring) h4,
    binary32_round_eq_int ((c : ℚ) + ((v0 - c0 : Int) : ℚ)) (v0 + (c - c0))
      (by push_cast; ring) h5]

/-- When both differences are binary32 numbers, the test of `draw_line` on
the `float` differences is the test on the `int` differences. -/
theorem float32_x_dominant_iff (start end_ : ivec2) (hx : |end_.x - start.x| ≤ 2 ^ 24)
    (hy : |end_.y - start.y| ≤ 2 ^ 24) :
    float32.x_dominant start end_ ↔ |end_.x - start.x| > |end_.y - start.y| := by
  unfold float32.x_dominant
  rw [float_of_int_exact _ hx, float_of_int_exact _ hy, cast_abs_gt_iff]

theorem float32_line_steps_eq (start end_ : ivec2) (hx : |end_.x - start.x| ≤ 2 ^ 24)
    (hy : |end_.y - start.y| ≤ 2 ^ 24) :
    float32.line_steps start end_ = MCG.line_steps start end_ := by
  unfold float32.line_steps
  by_cases h : |end_.x - start.x| > |end_.y - start.y|
  · rw [if_pos ((float32_x_dominant_iff start end_ hx hy).mpr h), line_steps_x h]
  · rw [if_neg (fun h' => h ((float32_x_dominant_iff start end_ hx hy).mp h')), line_steps_y h]

theorem float32_line_points_length (start end_ : ivec2) :
    (float32.line_points start end_).length = float32.line_steps start end_ + 1 := by
  simp [float32.line_points]

theorem float32_line_points_getLast (start end_ : ivec2) :
    (float32.line_points start end_).getLast? = some end_ := by
  simp [float32.line_points]

theorem float32_x_dominant_horizontal (x0 x1 y : Int) (h : x1 ≠ x0) :
    float32.x_dominant ⟨x0, y⟩ ⟨x1, y⟩ := by
  unfold float32.x_dominant
  simp only [sub_self, float_of_int_zero, abs_zero, gt_iff_lt, abs_pos, ne_eq,
    float_of_int_eq_zero_iff]
  omega

theorem float32_not_x_dominant_vertical (x y0 y1 : Int) :
    ¬ float32.x_dominant ⟨x, y0⟩ ⟨x, y1⟩ := by
  unfold float32.x_dominant
  simp only [sub_self, float_of_int_zero, abs_zero, gt_iff_lt, not_lt]
  exact abs_nonneg _

/-- A horizontal line at a height that is a binary32 number is drawn as in
exact arithmetic. -/
theorem float32_line_points_horizontal (x0 x1 y : Int) (hy : |y| ≤ 2 ^ 24) :
    float32.line_points ⟨x0, y⟩ ⟨x1, y⟩ = MCG.line_points ⟨x0, y⟩ ⟨x1, y⟩ := by
  rw [line_points_axis_aligned ⟨x0, y⟩ ⟨x1, y⟩ (Or.inl rfl), axis_points,
    List.range_succ, List.map_append, float32.line_points]
  by_cases h : x1 = x0
  · subst h
    simp [float32.line_steps, MCG.line_steps]
  · have hd := float32_x_dominant_horizontal x0 x1 y h
    have hs : float32.line_steps ⟨x0, y⟩ ⟨x1, y⟩ = MCG.line_steps ⟨x0, y⟩ ⟨x1, y⟩ := by
      rw [float32.line_steps, if_pos hd]
      simp [MCG.line_steps]
    rw [hs]
    congr 1
    · apply List.map_congr_left
      intro i _
      simp only [float32.line_point, if_pos hd, sub_self, float32_line_value_flat _ _ _ _ hy,
        float_to_int_intCast, Int.sign_zero, mul_zero, add_zero, ivec2.mk.injEq, and_true]
      rw [sign_eq_step_sign _ (by omega)]
    · simp only [MCG.line_steps, sub_self, Int.natAbs_zero, Int.sign_zero, mul_zero,
        add_zero, List.map_cons, List.map_nil, List.cons.injEq, ivec2.mk.injEq, and_true]
      rw [max_eq_left (Nat.zero_le _), sign_eq_step_sign _ (by omega), natAbs_mul_step_sign]
      ring

/-- A vertical line at an abscissa that is a binary32 number is drawn as in
exact arithmetic. -/
theorem float32_line_points_vertical (x y0 y1 : Int) (hx : |x| ≤ 2 ^ 24) :
    float32.line_points ⟨x, y0⟩ ⟨x, y1⟩ = MCG.line_points ⟨x, y0⟩ ⟨x, y1⟩ := by
  rw [line_points_axis_aligned ⟨x, y0⟩ ⟨x, y1⟩ (Or.inr rfl), axis_points,
    List.range_succ, List.map_append, float32.line_points]
  have hd := float32_not_x_dominant_vertical x y0 y1
  have hs : float32.line_steps ⟨x, y0⟩ ⟨x, y1⟩ = MCG.line_steps ⟨x, y0⟩ ⟨x, y1⟩ := by
    rw [float32.line_steps, if_neg hd]
    simp [MCG.line_steps]
  rw [hs]
  by_cases h : y1 = y0
  · subst h
    simp [MCG.line_steps]
  · congr 1
    · apply List.map_congr_left
      intro i _
      simp only [float32.line_point, if_neg hd, sub_self, float32_line_value_flat _ _ _ _ hx,
        float_to_int_intCast, Int.sign_zero, mul_zero, add_zero, ivec2.mk.injEq, true_and]
      rw [sign_eq_step_sign _ (by omega)]
    · simp only [MCG.line_steps, sub_self, Int.natAbs_zero, Int.sign_zero, mul_zero,
        add_zero, List.map_cons, List.map_nil, List.cons.injEq, ivec2.mk.injEq, and_true,
        true_and]
      rw [max_eq_right (Nat.zero_le _), sign_eq_step_sign _ (by omega), natAbs_mul_step_sign]
      ring

theorem float32_line_steps_y {start end_ : ivec2} (h : ¬ float32.x_dominant start end_) :
    float32.line_steps start end_ = (end_.y - start.y).natAbs := by
  rw [float32.line_steps, if_neg h]

theorem float32_line_steps_x {start end_ : ivec2} (h : float32.x_dominant start end_) :
    float32.line_steps start end_ = (end_.x - start.x).natAbs := by
  rw [float32.line_steps, if_pos h]

theorem float32_line_result_length (start end_ : ivec2) (colour : ivec3) (s : Trace) :
    (float32.line_result start end_ colour s).pixels.length =
      s.pixels.length + (float32.line_steps start end_ + 1) := by
  simp [float32.line_result, float32_line_points_length]

theorem float32_not_x_dominant_diagonal (x y d : Int) :
    ¬ float32.x_dominant ⟨x, y⟩ ⟨x + d, y + d⟩ := by
  unfold float32.x_dominant
  simp only [add_sub_cancel_left, gt_iff_lt, lt_self_iff_false, not_false_eq_true]

/-- A diagonal line between points whose coordinates have magnitude at most
`2 ^ 23` is drawn as in exact arithmetic. -/
theorem float32_line_points_diagonal (x y d : Int) (hx : |x| ≤ 2 ^ 23) (hy : |y| ≤ 2 ^ 23)
    (hxd : |x + d| ≤ 2 ^ 23) (hyd : |y + d| ≤ 2 ^ 23) :
    float32.line_points ⟨x, y⟩ ⟨x + d, y + d⟩ = line_points ⟨x, y⟩ ⟨x + d, y + d⟩ := by
  rw [line_points_diagonal, diagonal_points, List.range_succ, List.map_append,
    float32.line_points]
  have hdom := float32_not_x_dominant_diagonal x y d
  have hs : float32.line_steps ⟨x, y⟩ ⟨x + d, y + d⟩ = d.natAbs := by
    rw [float32.line_steps, if_neg hdom]
    simp
  rw [hs]
  by_cases hd : d = 0
  · subst hd
    simp
  · congr 1
    · apply List.map_congr_left
      intro i hi
      rw [List.mem_range] at hi
      have e1 : x + d - x = d := by ring
      have e2 : y + d - y = d := by ring
      rw [abs_le] at hx hy hxd hyd
      have hsd : step_sign d = 1 ∨ step_sign d = -1 := by
        unfold step_sign
        split <;> simp
      have hb : -(d.natAbs : Int) ≤ (i : Int) * step_sign d ∧
          (i : Int) * step_sign d ≤ d.natAbs := by
        rcases hsd with h | h <;> rw [h] <;> constructor <;> omega
      have hds : (d.natAbs : Int) * step_sign d = d := natAbs_mul_step_sign d
      have hrange : (0 ≤ (i : Int) * step_sign d ∧ (i : Int) * step_sign d ≤ d) ∨
          (d ≤ (i : Int) * step_sign d ∧ (i : Int) * step_sign d ≤ 0) := by
        rcases hsd with h | h <;> rw [h] at hds ⊢ <;> omega
      simp only [float32.line_point, if_neg hdom, e1, e2]
      rw [float32_line_value_diagonal y x d _ hd (by rw [abs_le]; omega)
        (by rw [abs_le]; omega) (by rw [abs_le]; omega) (by rw [abs_le]; omega)
        (by rw [abs_le]; omega), float_to_int_intCast, sign_eq_step_sign d hd]
      congr 1
      ring
    · simp only [List.map_cons, List.map_nil, List.cons.injEq, ivec2.mk.injEq, and_true]
      rw [sign_eq_step_sign d hd, natAbs_mul_step_sign]
      exact ⟨rfl, rfl⟩

/-- C3, counterexample: on the segment from (0,0) to (16777217,16777216) the
two differences are the same `float`, 16777216, so the loop over `y` runs and
16777217 pixels are written, one fewer than `max |dx| |dy| + 1`. -/
theorem float32_draw_line_write_count_large :
    ∃ s' : Trace,
      float32.draw_line 16777217 ⟨0, 0⟩ ⟨16777217, 16777216⟩ ⟨255, 255, 255⟩ ⟨[], [], []⟩ =
        some s' ∧
      float_of_int (16777217 - 0) = 16777216 ∧
      s'.pixels.length = 16777217 ∧
      max ((16777217 : Int) - 0).natAbs ((16777216 : Int) - 0).natAbs + 1 = 16777218 := by
  have h := float32_draw_line_of_le ⟨0, 0⟩ ⟨16777217, 16777216⟩ ⟨255, 255, 255⟩ ⟨[], [], []⟩
    16777217 (by decide)
  have hd : ¬ float32.x_dominant ⟨0, 0⟩ ⟨16777217, 16777216⟩ := by decide!
  refine ⟨_, h, by decide!, ?_, by decide⟩
  rw [float32_line_result_length, float32_line_steps_y hd]
  rfl

/-- C3, amended: when both differences `end.x - start.x` and
`end.y - start.y` have magnitude at most `2 ^ 24`, `draw_line` returns with
enough fuel after exactly `max |dx| |dy| + 1` pixel writes: the loop writes one
pixel for each value of the dominant coordinate from that of `start`
(inclusive) to that of `end_` (exclusive), in order, and then `end_` is
written. -/
theorem float32_draw_line_write_count (start end_ : ivec2) (colour : ivec3) (s : Trace)
    (k : Nat) (hx : |end_.x - start.x| ≤ 2 ^ 24) (hy : |end_.y - start.y| ≤ 2 ^ 24) :
    ∃ (s' : Trace) (body : List ivec2),
      float32.draw_line (max (end_.x - start.x).natAbs (end_.y - start.y).natAbs + k)
        start end_ colour s = some s' ∧
      s'.pixels = s.pixels ++ (body ++ [end_]).map (fun p => (p, colour)) ∧
      s'.pixels.length =
        s.pixels.length + (max (end_.x - start.x).natAbs (end_.y - start.y).natAbs + 1) ∧
      body.length = max (end_.x - start.x).natAbs (end_.y - start.y).natAbs ∧
      (if |end_.x - start.x| > |end_.y - start.y| then
        body.map (fun p => p.x) = (List.range (end_.x - start.x).natAbs).map
          (fun (i : Nat) => start.x + i * step_sign (end_.x - start.x)) ∧
        start.x + ((end_.x - start.x).natAbs : Int) * step_sign (end_.x - start.x) = end_.x ∧
        max (end_.x - start.x).natAbs (end_.y - start.y).natAbs = (end_.x - start.x).natAbs
      else
        body.map (fun p => p.y) = (List.range (end_.y - start.y).natAbs).map
          (fun (i : Nat) => start.y + i * step_sign (end_.y - start.y)) ∧
        start.y + ((end_.y - start.y).natAbs : Int) * step_sign (end_.y - start.y) = end_.y ∧
        max (end_.x - start.x).natAbs (end_.y - start.y).natAbs = (end_.y - start.y).natAbs) := by
  have hst := float32_line_steps_eq start end_ hx hy
  refine ⟨_, (List.range (float32.line_steps start end_)).map (float32.line_point start end_),
    float32_draw_line_of_le start end_ colour s _ (Nat.le_add_right _ _), rfl, ?_, ?_, ?_⟩
  · simp only [float32.line_result, float32.line_points, List.length_append, List.length_map,
      List.length_range, List.length_singleton, hst, line_steps]
  · simp [hst, line_steps]
  · split
    next h =>
      have hd := (float32_x_dominant_iff start end_ hx hy).mpr h
      refine ⟨?_, ?_, line_steps_x h⟩
      · rw [hst, line_steps_x h, List.map_map]
        apply List.map_congr_left
        intro i _
        simp only [Function.comp, float32.line_point, if_pos hd]
      · rw [natAbs_mul_step_sign]; ring
    next h =>
      have hd : ¬ float32.x_dominant start end_ :=
        fun h' => h ((float32_x_dominant_iff start end_ hx hy).mp h')
      refine ⟨?_, ?_, line_steps_y h⟩
      · rw [hst, line_steps_y h, List.map_map]
        apply List.map_congr_left
        intro i _
        simp only [Function.comp, float32.line_point, if_neg hd]
      · rw [natAbs_mul_step_sign]; ring

/-- Witness for C3: main draws the line from (432,502) to (443,487) on its
sixth slide; it takes 16 pixel writes. -/
theorem float32_draw_line_write_count_witness :
    ∃ (s' : Trace),
      float32.draw_line 15 ⟨432, 502⟩ ⟨443, 487⟩ ⟨255, 0, 255⟩ ⟨[], [], []⟩ = some s' ∧
      s'.pixels.length = 16 := by
  obtain ⟨s', body, h1, _, h3, _⟩ :=
    float32_draw_line_write_count ⟨432, 502⟩ ⟨443, 487⟩ ⟨255, 0, 255⟩ ⟨[], [], []⟩ 0
      (by decide) (by decide)
  exact ⟨s', h1, h3⟩

theorem float32_draw_rectangle_eq_result (dimensions position : ivec2) (colour : ivec3)
    (s : Trace) (fuel : Nat) (h : max dimensions.x.natAbs dimensions.y.natAbs ≤ fuel) :
    float32.draw_rectangle fuel dimensions position colour s =
      some (float32.rectangle_result dimensions position colour s) := by
  unfold float32.draw_rectangle
  rw [float32_draw_line_of_le _ _ _ _ _ (by simp only [line_steps]; omega), Option.some_bind,
    float32_draw_line_of_le _ _ _ _ _ (by simp only [line_steps]; omega), Option.some_bind,
    float32_draw_line_of_le _ _ _ _ _ (by simp only [line_steps]; omega), Option.some_bind,
    float32_draw_line_of_le _ _ _ _ _ (by simp only [line_steps]; omega)]
  rfl

theorem float32_rectangle_result_pixels (dimensions position : ivec2) (colour : ivec3)
    (s : Trace) :
    (float32.rectangle_result dimensions position colour s).pixels =
      s.pixels ++ (float32.rectangle_result dimensions position colour ⟨[], [], []⟩).pixels := by
  simp [float32.rectangle_result, float32.line_result]

/-- When the four sides lie on binary32 coordinates, the rectangle is drawn as
in exact arithmetic. -/
theorem float32_rectangle_result_pixels_eq (dimensions position : ivec2) (colour : ivec3)
    (s : Trace) (hx0 : |position.x| ≤ 2 ^ 24) (hx1 : |position.x + dimensions.x| ≤ 2 ^ 24)
    (hy0 : |position.y| ≤ 2 ^ 24) (hy1 : |position.y + dimensions.y| ≤ 2 ^ 24) :
    (float32.rectangle_result dimensions position colour s).pixels =
      (rectangle_result dimensions position colour s).pixels := by
  have e : position = ⟨position.x, position.y⟩ := rfl
  have e1 := float32_line_points_horizontal position.x (position.x + dimensions.x)
    position.y hy0
  have e2 := float32_line_points_vertical (position.x + dimensions.x) position.y
    (position.y + dimensions.y) hx1
  have e3 := float32_line_points_horizontal (position.x + dimensions.x) position.x
    (position.y + dimensions.y) hy1
  have e4 := float32_line_points_vertical position.x (position.y + dimensions.y)
    position.y hx0
  rw [← e] at e1 e4
  simp only [float32.rectangle_result, float32.line_result, rectangle_result, line_result,
    e1, e2, e3, e4]

/-- C8, counterexample: the first pixel written by
`draw_rectangle((4,4),(0,16777217))` is (0,16777216), one row above the box
from (0,16777217) to (4,16777221). -/
theorem float32_draw_rectangle_leaves_box :
    (float32.draw_rectangle 4 ⟨4, 4⟩ ⟨0, 16777217⟩ ⟨255, 0, 0⟩ ⟨[], [], []⟩).map
      (fun s' => (s'.pixels.map (fun w => w.1)).head?) = some (some ⟨0, 16777216⟩) := by
  decide!

/-- C8, amended: when the coordinates of the four sides, `position.x`,
`position.x + dimensions.x`, `position.y` and `position.y + dimensions.y`, have
magnitude at most `2 ^ 24`, `draw_rectangle` returns with enough fuel, and the
set of pixels it writes is the boundary of the box spanned by `position` and
`position + dimensions`. For dimensions (10, 10) at position (0, 0) these are
40 distinct points. -/
theorem float32_draw_rectangle_boundary (dimensions position : ivec2) (colour : ivec3)
    (s : Trace) (k : Nat) (hx0 : |position.x| ≤ 2 ^ 24)
    (hx1 : |position.x + dimensions.x| ≤ 2 ^ 24) (hy0 : |position.y| ≤ 2 ^ 24)
    (hy1 : |position.y + dimensions.y| ≤ 2 ^ 24) :
    (∃ (s' : Trace) (ws : List ivec2),
      float32.draw_rectangle (max dimensions.x.natAbs dimensions.y.natAbs + k) dimensions
        position colour s = some s' ∧
      s'.pixels = s.pixels ++ ws.map (fun p => (p, colour)) ∧
      ∀ p : ivec2, p ∈ ws ↔
        (min position.x (position.x + dimensions.x) ≤ p.x ∧
          p.x ≤ max position.x (position.x + dimensions.x) ∧
          min position.y (position.y + dimensions.y) ≤ p.y ∧
          p.y ≤ max position.y (position.y + dimensions.y) ∧
          (p.x = position.x ∨ p.x = position.x + dimensions.x ∨
            p.y = position.y ∨ p.y = position.y + dimensions.y))) ∧
    (∃ s' : Trace,
      float32.draw_rectangle (10 + k) ⟨10, 10⟩ ⟨0, 0⟩ colour ⟨[], [], []⟩ = some s' ∧
      (s'.pixels.map (fun w => w.1)).toFinset.card = 40) := by
  constructor
  · refine ⟨_, line_points position ⟨position.x + dimensions.x, position.y⟩ ++
        (line_points ⟨position.x + dimensions.x, position.y⟩
          ⟨position.x + dimensions.x, position.y + dimensions.y⟩ ++
        (line_points ⟨position.x + dimensions.x, position.y + dimensions.y⟩
          ⟨position.x, position.y + dimensions.y⟩ ++
        line_points ⟨position.x, position.y + dimensions.y⟩ position)),
      float32_draw_rectangle_eq_result dimensions position colour s _
        (Nat.le_add_right _ _), ?_, ?_⟩
    · rw [float32_rectangle_result_pixels_eq _ _ _ _ hx0 hx1 hy0 hy1]
      simp [rectangle_result, line_result]
    · intro p
      have e : position = ⟨position.x, position.y⟩ := rfl
      rw [List.mem_append, List.mem_append, List.mem_append]
      conv_lhs => rw [e]
      simp only [mem_line_points_horizontal, mem_line_points_vertical]
      omega
  · refine ⟨_, float32_draw_rectangle_eq_result ⟨10, 10⟩ ⟨0, 0⟩ colour ⟨[], [], []⟩ _
      (by simp), ?_⟩
    rw [float32_rectangle_result_pixels_eq _ _ _ _ (by decide) (by decide) (by decide)
      (by decide)]
    simp only [rectangle_result, line_result, List.nil_append, List.map_append, List.map_map,
      Function.comp_def, List.map_id']
    rw [line_points_axis_aligned ⟨0, 0⟩ ⟨0 + 10, 0⟩ (Or.inl rfl),
      line_points_axis_aligned ⟨0 + 10, 0⟩ ⟨0 + 10, 0 + 10⟩ (Or.inr rfl),
      line_points_axis_aligned ⟨0 + 10, 0 + 10⟩ ⟨0, 0 + 10⟩ (Or.inl rfl),
      line_points_axis_aligned ⟨0, 0 + 10⟩ ⟨0, 0⟩ (Or.inr rfl), List.card_toFinset]
    decide

/-- Witness for C8: the rectangle that `main` draws on its second slide. -/
theorem float32_draw_rectangle_boundary_witness :
    ∃ (s' : Trace) (ws : List ivec2),
      float32.draw_rectangle 700 ⟨700, 500⟩ ⟨50, 50⟩ ⟨255, 0, 0⟩ ⟨[], [], []⟩ = some s' ∧
      s'.pixels = ws.map (fun p => (p, (⟨255, 0, 0⟩ : ivec3))) ∧
      ∀ p : ivec2, p ∈ ws ↔
        (50 ≤ p.x ∧ p.x ≤ 750 ∧ 50 ≤ p.y ∧ p.y ≤ 550 ∧
          (p.x = 50 ∨ p.x = 750 ∨ p.y = 50 ∨ p.y = 550)) := by
  obtain ⟨⟨s', ws, h1, h2, h3⟩, _⟩ :=
    float32_draw_rectangle_boundary ⟨700, 500⟩ ⟨50, 50⟩ ⟨255, 0, 0⟩ ⟨[], [], []⟩ 0
      (by decide) (by decide) (by decide) (by decide)
  refine ⟨s', ws, h1, by simpa using h2, ?_⟩
  intro p
  rw [h3]
  simp only [show (50 : Int) + 700 = 750 by norm_num, show (50 : Int) + 500 = 550 by norm_num]
  omega

theorem float32_draw_fake_cube_eq_result (dimensions : ivec3) (position : ivec2)
    (colour : ivec3) (s : Trace) (fuel : Nat)
    (h : max dimensions.x.natAbs (max dimensions.y.natAbs dimensions.z.natAbs) ≤ fuel) :
    float32.draw_fake_cube fuel dimensions position colour s =
      some (float32.fake_cube_result dimensions position colour s) := by
  unfold float32.draw_fake_cube
  rw [float32_draw_rectangle_eq_result _ _ _ _ _ (by simp only; omega), Option.some_bind,
    float32_draw_rectangle_eq_result _ _ _ _ _ (by simp only; omega), Option.some_bind,
    float32_draw_line_of_le _ _ _ _ _ (by simp only [line_steps]; omega), Option.some_bind,
    float32_draw_line_of_le _ _ _ _ _ (by simp only [line_steps]; omega), Option.some_bind,
    float32_draw_line_of_le _ _ _ _ _ (by simp only [line_steps]; omega), Option.some_bind,
    float32_draw_line_of_le _ _ _ _ _ (by simp only [line_steps]; omega)]
  rfl

/-- C15, counterexample: for dimensions (0,0,2) at position (16777217,0) the
four connecting lines are drawn through (16777216,0) and (16777216,1), which
are not among the diagonal points (16777217,0), (16777218,1), (16777219,2). -/
theorem float32_draw_fake_cube_off_diagonal :
    (float32.draw_fake_cube 2 ⟨0, 0, 2⟩ ⟨16777217, 0⟩ ⟨0, 255, 255⟩ ⟨[], [], []⟩).map
      (fun s' => s'.pixels.map (fun w => w.1)) =
    some [⟨16777217, 0⟩, ⟨16777217, 0⟩, ⟨16777217, 0⟩, ⟨16777217, 0⟩,
      ⟨16777219, 2⟩, ⟨16777219, 2⟩, ⟨16777219, 2⟩, ⟨16777219, 2⟩,
      ⟨16777216, 0⟩, ⟨16777216, 1⟩, ⟨16777219, 2⟩,
      ⟨16777216, 0⟩, ⟨16777216, 1⟩, ⟨16777219, 2⟩,
      ⟨16777216, 0⟩, ⟨16777216, 1⟩, ⟨16777219, 2⟩,
      ⟨16777216, 0⟩, ⟨16777216, 1⟩, ⟨16777219, 2⟩] := by
  decide!

/-- C15, amended: when the coordinates of the eight corners, `position.x`,
`position.x + w`, `position.x + depth`, `position.x + w + depth` and the same
in `y` with `h`, have magnitude at most `2 ^ 23`, `draw_fake_cube` returns with
enough fuel, and it writes the pixels of `draw_rectangle` for the front face,
then those for the back face (the front face moved by `(depth, depth)`), then,
for each of the four front corners `c`, the `|depth| + 1` distinct points
`c + i * (s, s)`, `i = 0, ..., |depth|`, `s = sign depth`; so the set of pixels
written is the union of these six sets. -/
theorem float32_draw_fake_cube_pixels (dimensions : ivec3) (position : ivec2)
    (colour : ivec3) (s : Trace) (k : Nat)
    (hx0 : |position.x| ≤ 2 ^ 23) (hx1 : |position.x + dimensions.x| ≤ 2 ^ 23)
    (hx2 : |position.x + dimensions.z| ≤ 2 ^ 23)
    (hx3 : |position.x + dimensions.x + dimensions.z| ≤ 2 ^ 23)
    (hy0 : |position.y| ≤ 2 ^ 23) (hy1 : |position.y + dimensions.y| ≤ 2 ^ 23)
    (hy2 : |position.y + dimensions.z| ≤ 2 ^ 23)
    (hy3 : |position.y + dimensions.y + dimensions.z| ≤ 2 ^ 23) :
    ∃ (s' front back : Trace) (d1 d2 d3 d4 : List ivec2),
      float32.draw_fake_cube
        (max dimensions.x.natAbs (max dimensions.y.natAbs dimensions.z.natAbs) + k)
        dimensions position colour s = some s' ∧
      float32.draw_rectangle
        (max dimensions.x.natAbs (max dimensions.y.natAbs dimensions.z.natAbs) + k)
        ⟨dimensions.x, dimensions.y⟩ position colour ⟨[], [], []⟩ = some front ∧
      float32.draw_rectangle
        (max dimensions.x.natAbs (max dimensions.y.natAbs dimensions.z.natAbs) + k)
        ⟨dimensions.x, dimensions.y⟩ ⟨position.x + dimensions.z, position.y + dimensions.z⟩
        colour ⟨[], [], []⟩ = some back ∧
      d1 = (List.range (dimensions.z.natAbs + 1)).map (fun (i : Nat) =>
        (⟨position.x + i * Int.sign dimensions.z,
          position.y + i * Int.sign dimensions.z⟩ : ivec2)) ∧
      d2 = (List.range (dimensions.z.natAbs + 1)).map (fun (i : Nat) =>
        (⟨position.x + dimensions.x + i * Int.sign dimensions.z,
          position.y + i * Int.sign dimensions.z⟩ : ivec2)) ∧
      d3 = (List.range (dimensions.z.natAbs + 1)).map (fun (i : Nat) =>
        (⟨position.x + dimensions.x + i * Int.sign dimensions.z,
          position.y + dimensions.y + i * Int.sign dimensions.z⟩ : ivec2)) ∧
      d4 = (List.range (dimensions.z.natAbs + 1)).map (fun (i : Nat) =>
        (⟨position.x + i * Int.sign dimensions.z,
          position.y + dimensions.y + i * Int.sign dimensions.z⟩ : ivec2)) ∧
      d1.Nodup ∧ d2.Nodup ∧ d3.Nodup ∧ d4.Nodup ∧
      s'.pixels = s.pixels ++ (front.pixels ++ (back.pixels ++
        (d1 ++ (d2 ++ (d3 ++ d4))).map (fun p => (p, colour)))) ∧
      ∀ w : ivec2 × ivec3,
        w ∈ front.pixels ++ (back.pixels ++
          (d1 ++ (d2 ++ (d3 ++ d4))).map (fun p => (p, colour))) ↔
        (w ∈ front.pixels ∨ w ∈ back.pixels ∨
          ∃ p, (p ∈ d1 ∨ p ∈ d2 ∨ p ∈ d3 ∨ p ∈ d4) ∧ w = (p, colour)) := by
  refine ⟨_, _, _, _, _, _, _,
    float32_draw_fake_cube_eq_result dimensions position colour s _ (Nat.le_add_right _ _),
    float32_draw_rectangle_eq_result _ _ _ _ _ (by simp only; omega),
    float32_draw_rectangle_eq_result _ _ _ _ _ (by simp only; omega),
    rfl, rfl, rfl, rfl,
    diagonal_points_nodup position dimensions.z,
    diagonal_points_nodup ⟨position.x + dimensions.x, position.y⟩ dimensions.z,
    diagonal_points_nodup ⟨position.x + dimensions.x, position.y + dimensions.y⟩ dimensions.z,
    diagonal_points_nodup ⟨position.x, position.y + dimensions.y⟩ dimensions.z, ?_, ?_⟩
  · have e : position = ⟨position.x, position.y⟩ := rfl
    have e1 := (float32_line_points_diagonal position.x position.y dimensions.z hx0 hy0
      hx2 hy2).trans (line_points_diagonal position.x position.y dimensions.z)
    have e2 := (float32_line_points_diagonal (position.x + dimensions.x) position.y
      dimensions.z hx1 hy0 hx3 hy2).trans
      (line_points_diagonal (position.x + dimensions.x) position.y dimensions.z)
    have e3 := (float32_line_points_diagonal (position.x + dimensions.x)
      (position.y + dimensions.y) dimensions.z hx1 hy1 hx3 hy3).trans
      (line_points_diagonal (position.x + dimensions.x) (position.y + dimensions.y)
        dimensions.z)
    have e4 := (float32_line_points_diagonal position.x (position.y + dimensions.y)
      dimensions.z hx0 hy1 hx2 hy3).trans
      (line_points_diagonal position.x (position.y + dimensions.y) dimensions.z)
    rw [← e] at e1
    simp only [diagonal_points] at e1 e2 e3 e4
    simp only [float32.fake_cube_result, float32.line_result, e1, e2, e3, e4]
    rw [float32_rectangle_result_pixels _
        ⟨position.x + dimensions.z, position.y + dimensions.z⟩,
      float32_rectangle_result_pixels _ position colour s]
    simp only [List.append_assoc, List.map_append]
  · intro w
    simp only [List.mem_append, List.mem_map]
    constructor
    · rintro (h | h | ⟨p, hp, rfl⟩)
      · exact Or.inl h
      · exact Or.inr (Or.inl h)
      · exact Or.inr (Or.inr ⟨p, hp, rfl⟩)
    · rintro (h | h | ⟨p, hp, rfl⟩)
      · exact Or.inl h
      · exact Or.inr (Or.inl h)
      · exact Or.inr (Or.inr ⟨p, hp, rfl⟩)

/-- Witness for C15: the cube that `main` draws on its seventh slide,
`draw_fake_cube((200,200,50), (300,200))`. -/
theorem float32_draw_fake_cube_pixels_witness :
    ∃ (s' front back : Trace),
      float32.draw_fake_cube 200 ⟨200, 200, 50⟩ ⟨300, 200⟩ ⟨0, 255, 255⟩ ⟨[], [], []⟩ =
        some s' ∧
      float32.draw_rectangle 200 ⟨200, 200⟩ ⟨300, 200⟩ ⟨0, 255, 255⟩ ⟨[], [], []⟩ =
        some front ∧
      float32.draw_rectangle 200 ⟨200, 200⟩ ⟨350, 250⟩ ⟨0, 255, 255⟩ ⟨[], [], []⟩ =
        some back ∧
      s'.pixels.length = front.pixels.length + back.pixels.length + 4 * 51 := by
  obtain ⟨s', front, back, d1, d2, d3, d4, h1, h2, h3, e1, e2, e3, e4, _, _, _, _, h5, _⟩ :=
    float32_draw_fake_cube_pixels ⟨200, 200, 50⟩ ⟨300, 200⟩ ⟨0, 255, 255⟩ ⟨[], [], []⟩ 0
      (by decide) (by decide) (by decide) (by decide) (by decide) (by decide) (by decide)
      (by decide)
  refine ⟨s', front, back, h1, h2, h3, ?_⟩
  rw [h5, e1, e2, e3, e4]
  simp only [List.nil_append, List.length_append, List.length_map, List.length_range]
  norm_num
  ring

theorem float32_draw_triangle_eq_result (p1 p2 p3 : ivec2) (colour : ivec3) (s : Trace)
    (fuel : Nat) (h : triangle_fuel p1 p2 p3 ≤ fuel) :
    float32.draw_triangle fuel p1 p2 p3 colour s =
      some (float32.triangle_result p1 p2 p3 colour s) := by
  unfold triangle_fuel at h
  unfold float32.draw_triangle
  rw [float32_draw_line_of_le _ _ _ _ _ (by omega), Option.some_bind,
    float32_draw_line_of_le _ _ _ _ _ (by omega), Option.some_bind,
    float32_draw_line_of_le _ _ _ _ _ (by omega)]
  rfl

theorem abs_tdiv_two_le (a b B : Int) (ha : |a| ≤ B) (hb : |b| ≤ B) :
    |Int.tdiv (a + b) 2| ≤ B := by
  have h := two_mul_tdiv_two (a + b)
  rw [abs_le] at ha hb ⊢
  omega

theorem binary32_point_midpoint (a b : ivec2) (ha : binary32_point a)
    (hb : binary32_point b) : binary32_point (midpoint a b) :=
  ⟨abs_tdiv_two_le _ _ _ ha.1 hb.1, abs_tdiv_two_le _ _ _ ha.2 hb.2⟩

/-- Storing the midpoint of two points with binary32 coordinates in a
`glm::vec2` and reading it back does not change it. -/
theorem float32_to_ivec2_midpoint (a b : ivec2) (ha : binary32_point a)
    (hb : binary32_point b) :
    vec2.to_ivec2 ⟨float_of_int (Int.tdiv (a.x + b.x) 2),
      float_of_int (Int.tdiv (a.y + b.y) 2)⟩ = midpoint a b := by
  rw [float_of_int_exact _ (abs_tdiv_two_le _ _ _ ha.1 hb.1),
    float_of_int_exact _ (abs_tdiv_two_le _ _ _ ha.2 hb.2)]
  exact to_ivec2_midpoint a b

theorem float32_draw_sierpiernski_triangle_eq_result (colour : ivec3) (n : Nat) :
    ∀ (x y z : ivec2) (s : Trace) (fuel : Nat), binary32_point x → binary32_point y →
      binary32_point z → sierpinski_fuel n x y z ≤ fuel →
      float32.draw_sierpiernski_triangle fuel x y z ((n : Int) + 1) colour s =
        some (float32.sierpinski_result n x y z colour s) := by
  induction n with
  | zero =>
    intro x y z s fuel _ _ _ h
    obtain ⟨f, rfl⟩ : ∃ f, fuel = f + 1 := ⟨fuel - 1, by simp [sierpinski_fuel] at h; omega⟩
    simp only [sierpinski_fuel, add_le_add_iff_right] at h
    simp only [float32.draw_sierpiernski_triangle, Nat.cast_zero, zero_add, if_true]
    exact float32_draw_triangle_eq_result x y z colour s f h
  | succ n ih =>
    intro x y z s fuel hx hy hz h
    obtain ⟨f, rfl⟩ : ∃ f, fuel = f + 1 := ⟨fuel - 1, by simp [sierpinski_fuel] at h; omega⟩
    simp only [sierpinski_fuel, add_le_add_iff_right] at h
    have hg : ¬ (((n + 1 : Nat) : Int) + 1 = 1) := by omega
    have hg1 : ((n + 1 : Nat) : Int) + 1 - 1 = (n : Int) + 1 := by omega
    have m1 := binary32_point_midpoint x y hx hy
    have m2 := binary32_point_midpoint y z hy hz
    have m3 := binary32_point_midpoint z x hz hx
    simp only [float32.draw_sierpiernski_triangle, if_neg hg, hg1,
      float32_to_ivec2_midpoint x y hx hy, float32_to_ivec2_midpoint y z hy hz,
      float32_to_ivec2_midpoint z x hz hx]
    rw [ih _ _ _ _ _ hx m1 m3 (by omega), Option.some_bind,
      ih _ _ _ _ _ m1 hy m2 (by omega), Option.some_bind,
      ih _ _ _ _ _ m3 m2 hz (by omega)]
    rfl

theorem float32_line_result_triangles (a b : ivec2) (colour : ivec3) (s : Trace) :
    (float32.line_result a b colour s).triangles = s.triangles := rfl

theorem float32_sierpinski_result_triangles (colour : ivec3) (n : Nat) :
    ∀ (x y z : ivec2) (s : Trace),
      (float32.sierpinski_result n x y z colour s).triangles =
        s.triangles ++ sierpinski_leaves n x y z := by
  induction n with
  | zero =>
    intro x y z s
    simp [float32.sierpinski_result, sierpinski_leaves, float32.triangle_result,
      float32_line_result_triangles]
  | succ n ih =>
    intro x y z s
    simp only [float32.sierpinski_result, sierpinski_leaves, ih, List.append_assoc]

/-- From a call whose vertices have binary32 coordinates, the calls reachable
in binary32 arithmetic are those reachable in exact arithmetic, and their
vertices have binary32 coordinates. -/
theorem float32_sierpinski_reachable_exact (c d : ivec2 × ivec2 × ivec2 × Int)
    (h : float32.sierpinski_reachable c d)
    (hc : binary32_point c.1 ∧ binary32_point c.2.1 ∧ binary32_point c.2.2.1) :
    sierpinski_reachable c d ∧
      binary32_point d.1 ∧ binary32_point d.2.1 ∧ binary32_point d.2.2.1 := by
  induction h with
  | refl => exact ⟨sierpinski_reachable.refl c, hc⟩
  | @step d e _ hmem ih =>
    obtain ⟨hr, hx, hy, hz⟩ := ih
    obtain ⟨x, y, z, g⟩ := d
    simp only at hx hy hz hmem
    have m1 := binary32_point_midpoint x y hx hy
    have m2 := binary32_point_midpoint y z hy hz
    have m3 := binary32_point_midpoint z x hz hx
    by_cases hg : g = 1
    · simp [float32.sierpinski_subcalls, hg] at hmem
    · have hsub : e ∈ sierpinski_subcalls x y z g := by
        simp only [float32.sierpinski_subcalls, if_neg hg,
          float32_to_ivec2_midpoint x y hx hy, float32_to_ivec2_midpoint y z hy hz,
          float32_to_ivec2_midpoint z x hz hx] at hmem
        simp only [sierpinski_subcalls, if_neg hg, to_ivec2_midpoint]
        exact hmem
      refine ⟨sierpinski_reachable.step hr hsub, ?_⟩
      simp only [float32.sierpinski_subcalls, if_neg hg,
        float32_to_ivec2_midpoint x y hx hy, float32_to_ivec2_midpoint y z hy hz,
        float32_to_ivec2_midpoint z x hz hx, List.mem_cons, List.mem_singleton,
        List.not_mem_nil, or_false] at hmem
      rcases hmem with rfl | rfl | rfl
      · exact ⟨hx, m1, m3⟩
      · exact ⟨m1, hy, m2⟩
      · exact ⟨m3, m2, hz⟩

/-- C10, counterexample: for the triangle (0,0), (1,0), (0,1) and generation
2 the second triangle drawn is (0,0), (1,0), (0,0), whose first edge is
(1, 0) and not (1/2, 0). -/
theorem float32_sierpinski_leaf_not_scaled_copy :
    (float32.draw_sierpiernski_triangle 3 ⟨0, 0⟩ ⟨1, 0⟩ ⟨0, 1⟩ 2 ⟨255, 0, 255⟩
        ⟨[], [], []⟩).map (fun s' => s'.triangles) =
      some [(⟨0, 0⟩, ⟨0, 0⟩, ⟨0, 0⟩), (⟨0, 0⟩, ⟨1, 0⟩, ⟨0, 0⟩), (⟨0, 0⟩, ⟨0, 0⟩, ⟨0, 1⟩)] ∧
    ¬ (∀ a b c : ivec2, (a, b, c) ∈
          [((⟨0, 0⟩ : ivec2), (⟨0, 0⟩ : ivec2), (⟨0, 0⟩ : ivec2)),
            (⟨0, 0⟩, ⟨1, 0⟩, ⟨0, 0⟩), (⟨0, 0⟩, ⟨0, 0⟩, ⟨0, 1⟩)] →
        ((b.x - a.x : Int) : ℚ) = (((1 : Int) - 0 : Int) : ℚ) / 2 ^ (2 - 1) ∧
        ((b.y - a.y : Int) : ℚ) = (((0 : Int) - 0 : Int) : ℚ) / 2 ^ (2 - 1) ∧
        ((c.x - a.x : Int) : ℚ) = (((0 : Int) - 0 : Int) : ℚ) / 2 ^ (2 - 1) ∧
        ((c.y - a.y : Int) : ℚ) = (((1 : Int) - 0 : Int) : ℚ) / 2 ^ (2 - 1)) := by
  refine ⟨by decide!, ?_⟩
  intro h
  have h1 := (h ⟨0, 0⟩ ⟨1, 0⟩ ⟨0, 0⟩ (by simp)).1
  norm_num at h1

/-- The midpoint of 1073741791 with itself is stored as 1073741760: beyond
`2 ^ 24` the error of a leaf is not bounded by 2. -/
theorem float32_sierpinski_midpoint_rounded :
    (float32.draw_sierpiernski_triangle 40 ⟨1073741791, 0⟩ ⟨1073741791, 0⟩ ⟨1073741791, 0⟩ 2
        ⟨255, 0, 255⟩ ⟨[], [], []⟩).map (fun s' => s'.triangles) =
      some [(⟨1073741791, 0⟩, ⟨1073741760, 0⟩, ⟨1073741760, 0⟩),
        (⟨1073741760, 0⟩, ⟨1073741791, 0⟩, ⟨1073741760, 0⟩),
        (⟨1073741760, 0⟩, ⟨1073741760, 0⟩, ⟨1073741791, 0⟩)] := by
  decide!

/-- C10, amended: for a generation `g ≥ 1` and a triangle whose vertices have
coordinates of magnitude at most `2 ^ 24`, `draw_sierpiernski_triangle`
returns with enough fuel after `3 ^ (g - 1)` calls of `draw_triangle`, and
every triangle `(a, b, c)` passed to `draw_triangle` is a translated copy of
the outer triangle scaled by `1 / 2 ^ (g - 1)` up to an error of less than 2
in each coordinate of each edge. -/
theorem float32_sierpinski_leaf_nearly_scaled_copy (x y z : ivec2) (g : Int)
    (colour : ivec3) (s : Trace) (hg : 1 ≤ g) (hx : binary32_point x)
    (hy : binary32_point y) (hz : binary32_point z) :
    ∃ (fuel0 : Nat) (s' : Trace) (leaves : List (ivec2 × ivec2 × ivec2)),
      (∀ k : Nat,
        float32.draw_sierpiernski_triangle (fuel0 + k) x y z g colour s = some s') ∧
      s'.triangles = s.triangles ++ leaves ∧
      leaves.length = 3 ^ (g - 1).toNat ∧
      ∀ a b c : ivec2, (a, b, c) ∈ leaves →
        |((b.x - a.x : Int) : ℚ) - ((y.x - x.x : Int) : ℚ) / 2 ^ (g - 1).toNat| < 2 ∧
        |((b.y - a.y : Int) : ℚ) - ((y.y - x.y : Int) : ℚ) / 2 ^ (g - 1).toNat| < 2 ∧
        |((c.x - a.x : Int) : ℚ) - ((z.x - x.x : Int) : ℚ) / 2 ^ (g - 1).toNat| < 2 ∧
        |((c.y - a.y : Int) : ℚ) - ((z.y - x.y : Int) : ℚ) / 2 ^ (g - 1).toNat| < 2 := by
  obtain ⟨n, rfl⟩ : ∃ n : Nat, g = (n : Int) + 1 := ⟨(g - 1).toNat, by omega⟩
  have hn : ((n : Int) + 1 - 1).toNat = n := by simp
  refine ⟨sierpinski_fuel n x y z, float32.sierpinski_result n x y z colour s,
    sierpinski_leaves n x y z, ?_, float32_sierpinski_result_triangles colour n x y z s,
    ?_, ?_⟩
  · intro k
    exact float32_draw_sierpiernski_triangle_eq_result colour n x y z s _ hx hy hz
      (Nat.le_add_right _ _)
  · rw [hn]
    exact sierpinski_leaves_length n x y z
  · intro a b c h
    rw [hn]
    have h1 := sierpinski_leaves_near (fun p => p.x) (fun _ _ => rfl) n x y z a b c h
    have h2 := sierpinski_leaves_near (fun p => p.y) (fun _ _ => rfl) n x y z a b c h
    exact ⟨near_of_scaled n _ _ h1.1, near_of_scaled n _ _ h2.1,
      near_of_scaled n _ _ h1.2, near_of_scaled n _ _ h2.2⟩

/-- Witness for the amended C10: the call that `main` makes on its sixth
slide, `draw_sierpiernski_triangle((400,50), (750,550), (50,550), 6)`. -/
theorem float32_sierpinski_leaf_nearly_scaled_copy_witness :
    ∃ (fuel0 : Nat) (s' : Trace) (leaves : List (ivec2 × ivec2 × ivec2)),
      (∀ k : Nat, float32.draw_sierpiernski_triangle (fuel0 + k) ⟨400, 50⟩ ⟨750, 550⟩
        ⟨50, 550⟩ 6 ⟨255, 0, 255⟩ ⟨[], [], []⟩ = some s') ∧
      s'.triangles = [] ++ leaves ∧
      leaves.length = 3 ^ ((6 : Int) - 1).toNat ∧
      ∀ a b c : ivec2, (a, b, c) ∈ leaves →
        |((b.x - a.x : Int) : ℚ) - (((750 : Int) - 400 : Int) : ℚ) /
          2 ^ ((6 : Int) - 1).toNat| < 2 ∧
        |((b.y - a.y : Int) : ℚ) - (((550 : Int) - 50 : Int) : ℚ) /
          2 ^ ((6 : Int) - 1).toNat| < 2 ∧
        |((c.x - a.x : Int) : ℚ) - (((50 : Int) - 400 : Int) : ℚ) /
          2 ^ ((6 : Int) - 1).toNat| < 2 ∧
        |((c.y - a.y : Int) : ℚ) - (((550 : Int) - 50 : Int) : ℚ) /
          2 ^ ((6 : Int) - 1).toNat| < 2 :=
  float32_sierpinski_leaf_nearly_scaled_copy ⟨400, 50⟩ ⟨750, 550⟩ ⟨50, 550⟩ 6 ⟨255, 0, 255⟩
    ⟨[], [], []⟩ (by decide) ⟨by decide, by decide⟩ ⟨by decide, by decide⟩
    ⟨by decide, by decide⟩

/-- C20, counterexample: the three vertices (16777217,0) agree modulo 2, but
at generation 2 the first triangle drawn is (16777217,0), (16777216,0),
(16777216,0): the midpoint 16777217 is rounded to 16777216 when it is stored
in a `glm::vec2`, so `b - a = (-1, 0)` and not `(y - x) / 2 = (0, 0)`. -/
theorem float32_sierpinski_leaf_not_exact_copy :
    (2 : Int) ^ ((2 : Int) - 1).toNat ∣ (16777217 : Int) - 16777217 ∧
    (float32.draw_sierpiernski_triangle 3 ⟨16777217, 0⟩ ⟨16777217, 0⟩ ⟨16777217, 0⟩ 2
        ⟨255, 0, 255⟩ ⟨[], [], []⟩).map (fun s' => s'.triangles) =
      some [(⟨16777217, 0⟩, ⟨16777216, 0⟩, ⟨16777216, 0⟩),
        (⟨16777216, 0⟩, ⟨16777217, 0⟩, ⟨16777216, 0⟩),
        (⟨16777216, 0⟩, ⟨16777216, 0⟩, ⟨16777217, 0⟩)] ∧
    (((16777216 : Int) - 16777217 : Int) : ℚ) ≠
      (((16777217 : Int) - 16777217 : Int) : ℚ) / 2 ^ ((2 : Int) - 1).toNat := by
  refine ⟨by decide, by decide!, by norm_num⟩

/-- C20, amended: for a generation `g ≥ 1` and a triangle whose vertices have
coordinates of magnitude at most `2 ^ 24` and agree modulo `2 ^ (g - 1)` in
both coordinates, `draw_sierpiernski_triangle` returns with enough fuel after
`3 ^ (g - 1)` calls of `draw_triangle`; every triangle `(a, b, c)` it passes
to `draw_triangle` has `b - a = (y - x) / 2 ^ (g - 1)` and
`c - a = (z - x) / 2 ^ (g - 1)` exactly; and in every reachable call that
computes midpoints the three `int` divisions by 2 are exact in both
coordinates. -/
theorem float32_sierpinski_leaf_exact_copy (x y z : ivec2) (g : Int) (colour : ivec3)
    (s : Trace) (hg : 1 ≤ g) (hx : binary32_point x) (hy : binary32_point y)
    (hz : binary32_point z)
    (hyx : (2 : Int) ^ (g - 1).toNat ∣ y.x - x.x) (hyy : (2 : Int) ^ (g - 1).toNat ∣ y.y - x.y)
    (hzx : (2 : Int) ^ (g - 1).toNat ∣ z.x - x.x) (hzy : (2 : Int) ^ (g - 1).toNat ∣ z.y - x.y) :
    (∃ (fuel0 : Nat) (s' : Trace) (leaves : List (ivec2 × ivec2 × ivec2)),
      (∀ k : Nat,
        float32.draw_sierpiernski_triangle (fuel0 + k) x y z g colour s = some s') ∧
      s'.triangles = s.triangles ++ leaves ∧
      leaves.length = 3 ^ (g - 1).toNat ∧
      ∀ a b c : ivec2, (a, b, c) ∈ leaves →
        ((b.x - a.x : Int) : ℚ) = ((y.x - x.x : Int) : ℚ) / 2 ^ (g - 1).toNat ∧
        ((b.y - a.y : Int) : ℚ) = ((y.y - x.y : Int) : ℚ) / 2 ^ (g - 1).toNat ∧
        ((c.x - a.x : Int) : ℚ) = ((z.x - x.x : Int) : ℚ) / 2 ^ (g - 1).toNat ∧
        ((c.y - a.y : Int) : ℚ) = ((z.y - x.y : Int) : ℚ) / 2 ^ (g - 1).toNat) ∧
    (∀ c : ivec2 × ivec2 × ivec2 × Int, float32.sierpinski_reachable (x, y, z, g) c →
      c.2.2.2 ≠ 1 →
      2 * Int.tdiv (c.1.x + c.2.1.x) 2 = c.1.x + c.2.1.x ∧
      2 * Int.tdiv (c.1.y + c.2.1.y) 2 = c.1.y + c.2.1.y ∧
      2 * Int.tdiv (c.2.1.x + c.2.2.1.x) 2 = c.2.1.x + c.2.2.1.x ∧
      2 * Int.tdiv (c.2.1.y + c.2.2.1.y) 2 = c.2.1.y + c.2.2.1.y ∧
      2 * Int.tdiv (c.2.2.1.x + c.1.x) 2 = c.2.2.1.x + c.1.x ∧
      2 * Int.tdiv (c.2.2.1.y + c.1.y) 2 = c.2.2.1.y + c.1.y) := by
  obtain ⟨n, rfl⟩ : ∃ n : Nat, g = (n : Int) + 1 := ⟨(g - 1).toNat, by omega⟩
  have hn : ((n : Int) + 1 - 1).toNat = n := by simp
  rw [hn] at hyx hyy hzx hzy
  constructor
  · refine ⟨sierpinski_fuel n x y z, float32.sierpinski_result n x y z colour s,
      sierpinski_leaves n x y z, ?_, float32_sierpinski_result_triangles colour n x y z s,
      ?_, ?_⟩
    · intro k
      exact float32_draw_sierpiernski_triangle_eq_result colour n x y z s _ hx hy hz
        (Nat.le_add_right _ _)
    · rw [hn]
      exact sierpinski_leaves_length n x y z
    · intro a b c h
      rw [hn]
      have h1 := sierpinski_leaves_exact (fun p => p.x) (fun _ _ => rfl) n x y z hyx hzx a b c h
      have h2 := sierpinski_leaves_exact (fun p => p.y) (fun _ _ => rfl) n x y z hyy hzy a b c h
      exact ⟨scaled_of_exact n _ _ h1.1, scaled_of_exact n _ _ h2.1,
        scaled_of_exact n _ _ h1.2, scaled_of_exact n _ _ h2.2⟩
  · intro c hc hc1
    obtain ⟨m, hm, ⟨a1, h1⟩, ⟨b1, h2⟩, ⟨a2, h3⟩, ⟨b2, h4⟩⟩ :=
      sierpinski_reachable_congruent _ _
        (float32_sierpinski_reachable_exact _ _ hc ⟨hx, hy, hz⟩).1
        ⟨n, rfl, hyx, hyy, hzx, hzy⟩
    cases m with
    | zero => exact absurd (by simpa using hm) hc1
    | succ m =>
      obtain ⟨ex1, ex2, ex3⟩ := midpoints_exact (fun p => p.x) (fun _ _ => rfl) m
        c.1 c.2.1 c.2.2.1 a1 a2 h1 h3
      obtain ⟨ey1, ey2, ey3⟩ := midpoints_exact (fun p => p.y) (fun _ _ => rfl) m
        c.1 c.2.1 c.2.2.1 b1 b2 h2 h4
      simp only [midpoint] at ex1 ex2 ex3 ey1 ey2 ey3
      rw [pow_succ] at h1 h2 h3 h4
      rw [ex1, ex2, ex3, ey1, ey2, ey3]
      refine ⟨?_, ?_, ?_, ?_, ?_, ?_⟩
      · linear_combination -h1
      · linear_combination -h2
      · linear_combination -h1 - h3
      · linear_combination -h2 - h4
      · linear_combination -h3
      · linear_combination -h4

/-- Witness for C20: the triangle (0,0), (8,0), (0,8) at generation 3. -/
theorem float32_sierpinski_leaf_exact_copy_witness :
    ∃ (fuel0 : Nat) (s' : Trace) (leaves : List (ivec2 × ivec2 × ivec2)),
      (∀ k : Nat, float32.draw_sierpiernski_triangle (fuel0 + k) ⟨0, 0⟩ ⟨8, 0⟩ ⟨0, 8⟩ 3
        ⟨255, 0, 255⟩ ⟨[], [], []⟩ = some s') ∧
      s'.triangles = [] ++ leaves ∧
      leaves.length = 3 ^ ((3 : Int) - 1).toNat ∧
      ∀ a b c : ivec2, (a, b, c) ∈ leaves →
        ((b.x - a.x : Int) : ℚ) = (((8 : Int) - 0 : Int) : ℚ) / 2 ^ ((3 : Int) - 1).toNat ∧
        ((b.y - a.y : Int) : ℚ) = (((0 : Int) - 0 : Int) : ℚ) / 2 ^ ((3 : Int) - 1).toNat ∧
        ((c.x - a.x : Int) : ℚ) = (((0 : Int) - 0 : Int) : ℚ) / 2 ^ ((3 : Int) - 1).toNat ∧
        ((c.y - a.y : Int) : ℚ) = (((8 : Int) - 0 : Int) : ℚ) / 2 ^ ((3 : Int) - 1).toNat :=
  (float32_sierpinski_leaf_exact_copy ⟨0, 0⟩ ⟨8, 0⟩ ⟨0, 8⟩ 3 ⟨255, 0, 255⟩ ⟨[], [], []⟩
    (by decide) ⟨by decide, by decide⟩ ⟨by decide, by decide⟩ ⟨by decide, by decide⟩
    (by decide) (by decide) (by decide) (by decide)).1

theorem round_to_even_dist (m S : Nat) :
    round_to_even m S ≤ m + 2 ^ S / 2 ∧ m ≤ round_to_even m S + 2 ^ S / 2 := by
  unfold round_to_even
  have hp : 0 < 2 ^ S := by positivity
  have hm := Nat.div_add_mod m (2 ^ S)
  have hr := Nat.mod_lt m hp
  simp only
  generalize m / 2 ^ S = q at *
  generalize m % 2 ^ S = r at *
  have e1 : (q + 1) * 2 ^ S = q * 2 ^ S + 2 ^ S := by ring
  have e2 : 2 ^ S * q = q * 2 ^ S := by ring
  split_ifs <;> omega

/-- For an odd `m` and a shift of at least 2 the rounding is strictly closer
than half a unit: there is no tie. -/
theorem round_to_even_dist_odd (m S : Nat) (hS : 2 ≤ S) (hodd : m % 2 = 1) :
    round_to_even m S + 1 ≤ m + 2 ^ S / 2 ∧ m + 1 ≤ round_to_even m S + 2 ^ S / 2 := by
  unfold round_to_even
  have hp : 0 < 2 ^ S := by positivity
  have hm := Nat.div_add_mod m (2 ^ S)
  have hr := Nat.mod_lt m hp
  obtain ⟨t, rfl⟩ : ∃ t, S = t + 2 := ⟨S - 2, by omega⟩
  have h4 : 2 ^ (t + 2) = 4 * 2 ^ t := by rw [pow_add]; ring
  have hrodd : (m % 2 ^ (t + 2)) % 2 = 1 := by
    rw [Nat.mod_mod_of_dvd m (Dvd.intro (2 * 2 ^ t) (by rw [h4]; ring))]
    exact hodd
  simp only
  generalize m / 2 ^ (t + 2) = q at *
  generalize m % 2 ^ (t + 2) = r at *
  have e1 : (q + 1) * 2 ^ (t + 2) = q * 2 ^ (t + 2) + 2 ^ (t + 2) := by ring
  have e2 : 2 ^ (t + 2) * q = q * 2 ^ (t + 2) := by ring
  rw [h4] at *
  generalize 2 ^ t = T at *
  split_ifs <;> omega

theorem binary32_shift_le (m K : Nat) (hK : 1 ≤ K) (hm : m < 2 ^ (K + 25)) :
    max 2 (significand_shift 256 m) ≤ K + 1 := by
  have h := significand_shift_le 256 m (K + 1) (by
    rw [show 24 + (K + 1) = K + 25 by ring]
    exact hm)
  omega

theorem pow_half_le (S K : Nat) (hS : 1 ≤ S) (h : S ≤ K + 1) : 2 ^ S / 2 ≤ 2 ^ K := by
  obtain ⟨t, rfl⟩ : ∃ t, S = t + 1 := ⟨S - 1, by omega⟩
  rw [pow_succ, Nat.mul_div_cancel _ (by norm_num)]
  exact Nat.pow_le_pow_right (by norm_num) (by omega)

/-- The rounding to 24 significant bits of `m ≤ 2 ^ (K + 25)` moves it by at
most `2 ^ K`, and by less when `m` is odd. -/
theorem binary32_significand_error (m K : Nat) (hK : 1 ≤ K) (hm : m ≤ 2 ^ (K + 25)) :
    (round_to_even m (max 2 (significand_shift 256 m)) ≤ m + 2 ^ K ∧
      m ≤ round_to_even m (max 2 (significand_shift 256 m)) + 2 ^ K) ∧
    (m % 2 = 1 →
      round_to_even m (max 2 (significand_shift 256 m)) + 1 ≤ m + 2 ^ K ∧
      m + 1 ≤ round_to_even m (max 2 (significand_shift 256 m)) + 2 ^ K) := by
  rcases Nat.lt_or_ge m (2 ^ (K + 25)) with h | h
  · have hS := binary32_shift_le m K hK h
    have hS2 : 2 ≤ max 2 (significand_shift 256 m) := le_max_left _ _
    have hp := pow_half_le _ K (by omega) hS
    have h1 := round_to_even_dist m (max 2 (significand_shift 256 m))
    constructor
    · omega
    · intro hodd
      have h2 := round_to_even_dist_odd m _ hS2 hodd
      omega
  · have he : m = 2 ^ (K + 25) := le_antisymm hm h
    have hpos25 : 0 < 2 ^ (K + 25) := by positivity
    have hs : significand_shift 256 m ≤ K + 2 := significand_shift_le 256 m (K + 2) (by
      rw [show 24 + (K + 2) = K + 25 + 1 by ring, pow_succ]
      omega)
    have hdvd : 2 ^ (max 2 (significand_shift 256 m)) ∣ m := by
      have h1 : 2 ^ (max 2 (significand_shift 256 m)) ∣ 2 ^ (K + 25) :=
        Nat.pow_dvd_pow 2 (by omega)
      have h2 : 2 ^ (K + 25) ∣ m := by rw [he]
      exact dvd_trans h1 h2
    rw [round_to_even_of_dvd _ _ hdvd]
    have hpos : 0 < 2 ^ K := by positivity
    constructor
    · omega
    · intro hodd
      exfalso
      rw [he, pow_succ] at hodd
      omega

/-- The magnitude computed by `binary32_round` from a magnitude `a ≤ 2 ^ k`
differs from `a` by at most `2 ^ k / 2 ^ 25`. -/
theorem binary32_magnitude_error (a : ℚ) (k : Nat) (ha : 0 ≤ a) (h : a ≤ 2 ^ k) :
    |((round_to_even
        (2 * ⌊a * 2 ^ 150⌋.toNat +
          (if ((⌊a * 2 ^ 150⌋.toNat : Nat) : ℚ) = a * 2 ^ 150 then 0 else 1))
        (max 2 (significand_shift 256 (2 * ⌊a * 2 ^ 150⌋.toNat +
          (if ((⌊a * 2 ^ 150⌋.toNat : Nat) : ℚ) = a * 2 ^ 150 then 0 else 1)))) : Nat) : ℚ)
        / 2 ^ 151 - a| ≤ 2 ^ k / 2 ^ 25 := by
  have hX0 : 0 ≤ a * 2 ^ 150 := by positivity
  have hfl0 : 0 ≤ ⌊a * 2 ^ 150⌋ := Int.floor_nonneg.mpr hX0
  have hncast : ((⌊a * 2 ^ 150⌋.toNat : Nat) : ℚ) = ((⌊a * 2 ^ 150⌋ : Int) : ℚ) := by
    have := Int.toNat_of_nonneg hfl0
    exact_mod_cast congrArg (Int.cast : Int → ℚ) this
  have hle : ((⌊a * 2 ^ 150⌋.toNat : Nat) : ℚ) ≤ a * 2 ^ 150 := by
    rw [hncast]; exact Int.floor_le _
  have hlt : a * 2 ^ 150 < ((⌊a * 2 ^ 150⌋.toNat : Nat) : ℚ) + 1 := by
    rw [hncast]; exact Int.lt_floor_add_one _
  clear hncast
  generalize ⌊a * 2 ^ 150⌋.toNat = n at hle hlt ⊢
  have hp151 : (0 : ℚ) < 2 ^ 151 := by positivity
  have hY : a * 2 ^ 151 = 2 * (a * 2 ^ 150) := by
    rw [show (151 : Nat) = 150 + 1 by norm_num, pow_succ]; ring
  have hYle : a * 2 ^ 151 ≤ 2 ^ (k + 126 + 25) := by
    have e : (2 : ℚ) ^ (k + 126 + 25) = 2 ^ k * 2 ^ 151 := by
      rw [show k + 126 + 25 = k + 151 by ring, pow_add]
    rw [e]
    exact mul_le_mul_of_nonneg_right h (le_of_lt hp151)
  have hscale : (2 : ℚ) ^ (k + 126) / 2 ^ 151 = 2 ^ k / 2 ^ 25 := by
    rw [pow_add, show (151 : Nat) = 126 + 25 by norm_num, pow_add]
    have h126 : (2 : ℚ) ^ 126 ≠ 0 := by positivity
    have h25 : (2 : ℚ) ^ 25 ≠ 0 := by positivity
    field_simp
    ring
  have main : ∀ r m : Nat, (r ≤ m + 2 ^ (k + 126) ∧ m ≤ r + 2 ^ (k + 126)) →
      (m % 2 = 1 → r + 1 ≤ m + 2 ^ (k + 126) ∧ m + 1 ≤ r + 2 ^ (k + 126)) →
      ((m : ℚ) = a * 2 ^ 151 ∨
        (m % 2 = 1 ∧ (m : ℚ) - 1 < a * 2 ^ 151 ∧ a * 2 ^ 151 < (m : ℚ) + 1)) →
      |(r : ℚ) / 2 ^ 151 - a| ≤ 2 ^ k / 2 ^ 25 := by
    intro r m h1 h2 h3
    have e : (r : ℚ) / 2 ^ 151 - a = ((r : ℚ) - a * 2 ^ 151) / 2 ^ 151 := by
      field_simp
      ring
    rw [e, abs_div, abs_of_pos hp151, ← hscale]
    apply div_le_div_of_nonneg_right _ (le_of_lt hp151)
    have c1 : (r : ℚ) ≤ (m : ℚ) + 2 ^ (k + 126) := by exact_mod_cast h1.1
    have c2 : (m : ℚ) ≤ (r : ℚ) + 2 ^ (k + 126) := by exact_mod_cast h1.2
    rw [abs_le]
    rcases h3 with h3 | ⟨hodd, h3, h4⟩
    · rw [← h3]
      constructor <;> linarith
    · have d := h2 hodd
      have d1 : (r : ℚ) + 1 ≤ (m : ℚ) + 2 ^ (k + 126) := by exact_mod_cast d.1
      have d2 : (m : ℚ) + 1 ≤ (r : ℚ) + 2 ^ (k + 126) := by exact_mod_cast d.2
      constructor <;> linarith
  by_cases hex : (n : ℚ) = a * 2 ^ 150
  · rw [if_pos hex, Nat.add_zero]
    have hm : ((2 * n : Nat) : ℚ) = a * 2 ^ 151 := by
      rw [hY, ← hex]; push_cast; ring
    have hmle : 2 * n ≤ 2 ^ (k + 126 + 25) := by
      have : ((2 * n : Nat) : ℚ) ≤ ((2 ^ (k + 126 + 25) : Nat) : ℚ) := by
        rw [hm]; push_cast; exact hYle
      exact_mod_cast this
    have hs := binary32_significand_error (2 * n) (k + 126) (by omega) hmle
    exact main _ _ hs.1 hs.2 (Or.inl hm)
  · rw [if_neg hex]
    have hlt' : (n : ℚ) < a * 2 ^ 150 := lt_of_le_of_ne hle hex
    have hmle : 2 * n + 1 ≤ 2 ^ (k + 126 + 25) := by
      have h2n : ((2 * n : Nat) : ℚ) < ((2 ^ (k + 126 + 25) : Nat) : ℚ) := by
        push_cast
        calc (2 : ℚ) * n < 2 * (a * 2 ^ 150) := by linarith
          _ = a * 2 ^ 151 := hY.symm
          _ ≤ 2 ^ (k + 126 + 25) := hYle
      have : 2 * n < 2 ^ (k + 126 + 25) := by exact_mod_cast h2n
      omega
    have hs := binary32_significand_error (2 * n + 1) (k + 126) (by omega) hmle
    refine main _ _ hs.1 hs.2 (Or.inr ⟨by omega, ?_, ?_⟩)
    · push_cast
      rw [hY]
      linarith
    · push_cast
      rw [hY]
      linarith

/-- The rounding error of `binary32_round`, half a unit in the last place: a
number of magnitude at most `2 ^ k` is moved by at most `2 ^ k / 2 ^ 25`. -/
theorem binary32_round_error (q : ℚ) (k : Nat) (h : |q| ≤ 2 ^ k) :
    |binary32_round q - q| ≤ 2 ^ k / 2 ^ 25 := by
  have key := binary32_magnitude_error (|q|) k (abs_nonneg q) h
  unfold binary32_round
  simp only
  generalize ((round_to_even
        (2 * ⌊|q| * 2 ^ 150⌋.toNat +
          (if ((⌊|q| * 2 ^ 150⌋.toNat : Nat) : ℚ) = |q| * 2 ^ 150 then 0 else 1))
        (max 2 (significand_shift 256 (2 * ⌊|q| * 2 ^ 150⌋.toNat +
          (if ((⌊|q| * 2 ^ 150⌋.toNat : Nat) : ℚ) = |q| * 2 ^ 150 then 0 else 1)))) : Nat) : ℚ)
    = r at key ⊢
  by_cases hq : q < 0
  · rw [if_pos hq]
    rw [abs_of_neg hq] at key
    have e : -r / 2 ^ 151 - q = -(r / 2 ^ 151 - -q) := by ring
    rw [e, abs_neg]
    exact key
  · rw [if_neg hq]
    rw [abs_of_nonneg (not_lt.mp hq)] at key
    exact key

theorem float32_line_value_eq (c0 v0 dc dv c : Int) :
    float32.line_value c0 v0 dc dv c =
      float_add (float_mul (float32.slope dc dv) (float_of_int c))
        (float32.pitch c0 v0 dc dv) := rfl

theorem abs_mul_le_mul {x y a b : ℚ} (hx : |x| ≤ a) (hy : |y| ≤ b) : |x * y| ≤ a * b := by
  rw [abs_mul]
  exact mul_le_mul hx hy (abs_nonneg _) (le_trans (abs_nonneg _) hx)

theorem binary32_round_error_one (q : ℚ) (h : |q| ≤ 1) :
    |binary32_round q - q| ≤ 1 / 33554432 := by
  have := binary32_round_error q 0 (by simpa using h)
  norm_num at this
  linarith

theorem binary32_round_error_2048 (q : ℚ) (h : |q| ≤ 2048) :
    |binary32_round q - q| ≤ 1 / 16384 := by
  have := binary32_round_error q 11 (by norm_num; exact h)
  norm_num at this
  linarith

theorem binary32_round_error_4096 (q : ℚ) (h : |q| ≤ 4096) :
    |binary32_round q - q| ≤ 1 / 8192 := by
  have := binary32_round_error q 12 (by norm_num; exact h)
  norm_num at this
  linarith

theorem intCast_abs_le (n : Int) (b : Int) (h : |n| ≤ b) : |(n : ℚ)| ≤ (b : ℚ) := by
  rw [← Int.cast_abs]
  exact_mod_cast h

/-- The exact slope of a line whose direction has `|dv| ≤ |dc|` is at most 1 in
magnitude. -/
theorem exact_slope_le_one (dc dv : Int) (hdv : |dv| ≤ |dc|) :
    |(dv : ℚ) / (dc : ℚ)| ≤ 1 := by
  rw [abs_div]
  have hq : |(dv : ℚ)| ≤ |(dc : ℚ)| := by
    rw [← Int.cast_abs, ← Int.cast_abs]
    exact_mod_cast hdv
  exact div_le_one_of_le₀ hq (abs_nonneg _)

/-- The exact slope of a line whose direction has `|dv| < |dc| ≤ 2048` is at
most `1 - 1 / 2048` in magnitude. -/
theorem exact_slope_lt_one (dc dv : Int) (hdv : |dv| < |dc|) (hdc : |dc| ≤ 2048) :
    |(dv : ℚ) / (dc : ℚ)| ≤ 1 - 1 / 2048 := by
  rw [abs_div]
  have hpos : (0 : ℚ) < |(dc : ℚ)| := by
    rw [← Int.cast_abs]
    have : 0 < |dc| := lt_of_le_of_lt (abs_nonneg _) hdv
    exact_mod_cast this
  have h1 : |(dv : ℚ)| ≤ |(dc : ℚ)| - 1 := by
    rw [← Int.cast_abs, ← Int.cast_abs]
    have : |dv| ≤ |dc| - 1 := by omega
    exact_mod_cast this
  have h2 : |(dc : ℚ)| ≤ 2048 := by
    rw [← Int.cast_abs]
    exact_mod_cast hdc
  rw [div_le_iff₀ hpos]
  nlinarith

/-- The `float` slope differs from the exact slope by at most `2 ^ (-25)`. -/
theorem float32_slope_error (dc dv : Int) (hdv : |dv| ≤ |dc|) (hdc : |dc| ≤ 2048) :
    |float32.slope dc dv - (dv : ℚ) / (dc : ℚ)| ≤ 1 / 33554432 := by
  unfold float32.slope float_div
  rw [float_of_int_exact dv (by omega), float_of_int_exact dc (by omega)]
  exact binary32_round_error_one _ (exact_slope_le_one dc dv hdv)

/-- The three rounding errors of the `float` ordinate, for a line between
points with coordinates of magnitude at most 1024: the pitch differs from
`v0 - slope * c0` by at most `3 / 16384`, and the ordinate at `c` differs from
`slope * c + pitch` by at most `1 / 8192`. -/
theorem float32_line_value_errors (c0 v0 dc dv c : Int) (hdv : |dv| ≤ |dc|)
    (hdc : |dc| ≤ 2048) (hc0 : |c0| ≤ 1024) (hv0 : |v0| ≤ 1024) (hc : |c| ≤ 1024)
    (hcc : |c - c0| ≤ 2048) (hL : |line_value c0 v0 dc dv c| ≤ 1024) :
    |float32.pitch c0 v0 dc dv - ((v0 : ℚ) - float32.slope dc dv * (c0 : ℚ))| ≤ 3 / 16384 ∧
    |float32.line_value c0 v0 dc dv c -
      (float32.slope dc dv * (c : ℚ) + float32.pitch c0 v0 dc dv)| ≤ 1 / 8192 := by
  have hs := float32_slope_error dc dv hdv hdc
  have hσ := exact_slope_le_one dc dv hdv
  rw [float32_line_value_eq]
  unfold float32.pitch float_add float_sub float_mul
  rw [float_of_int_exact c0 (by omega), float_of_int_exact v0 (by omega),
    float_of_int_exact c (by omega)]
  unfold line_value at hL
  generalize float32.slope dc dv = s at hs ⊢
  generalize (dv : ℚ) / (dc : ℚ) = σ at hs hσ hL
  have hc0q := intCast_abs_le c0 1024 hc0
  have hv0q := intCast_abs_le v0 1024 hv0
  have hcq := intCast_abs_le c 1024 hc
  have hccq : |(c : ℚ) - (c0 : ℚ)| ≤ 2048 := by
    have := intCast_abs_le (c - c0) 2048 hcc
    push_cast at this
    exact this
  push_cast at hc0q hv0q hcq
  generalize (c0 : ℚ) = C0 at *
  generalize (v0 : ℚ) = V0 at *
  generalize (c : ℚ) = C at *
  have hs2 : |s| ≤ 2 := by
    rw [abs_le] at hs hσ ⊢
    constructor <;> linarith
  have hsc0 : |s * C0| ≤ 2048 := by
    have := abs_mul_le_mul hs2 hc0q
    linarith
  have hsc : |s * C| ≤ 2048 := by
    have := abs_mul_le_mul hs2 hcq
    linarith
  have ea0 := binary32_round_error_2048 _ hsc0
  have ea := binary32_round_error_2048 _ hsc
  generalize binary32_round (s * C0) = a0 at ea0 ⊢
  generalize binary32_round (s * C) = a at ea ⊢
  have hva0 : |V0 - a0| ≤ 4096 := by
    rw [abs_le] at hv0q hsc0 ea0 ⊢
    constructor <;> linarith
  have ep := binary32_round_error_4096 _ hva0
  generalize binary32_round (V0 - a0) = p at ep ⊢
  have hd : |(s - σ) * (C - C0)| ≤ 1 / 33554432 * 2048 := abs_mul_le_mul hs hccq
  have hpitch : |p - (V0 - s * C0)| ≤ 3 / 16384 := by
    rw [abs_le] at ep ea0 ⊢
    constructor <;> linarith
  have hap : |a + p| ≤ 2048 := by
    have e : a + p = (σ * C + (V0 - σ * C0)) + (a - s * C) + (p - (V0 - s * C0))
        + (s - σ) * (C - C0) := by ring
    rw [e]
    rw [abs_le] at hL ea hpitch hd ⊢
    constructor <;> linarith
  have ev := binary32_round_error_2048 _ hap
  refine ⟨hpitch, ?_⟩
  rw [abs_le] at ev ea ⊢
  constructor <;> linarith

/-- The `float` ordinate differs from the exact ordinate by at most
`3 / 8192`, for a line between points with coordinates of magnitude at most
1024. -/
theorem float32_line_value_accuracy (c0 v0 dc dv c : Int) (hdv : |dv| ≤ |dc|)
    (hdc : |dc| ≤ 2048) (hc0 : |c0| ≤ 1024) (hv0 : |v0| ≤ 1024) (hc : |c| ≤ 1024)
    (hcc : |c - c0| ≤ 2048) (hL : |line_value c0 v0 dc dv c| ≤ 1024) :
    |float32.line_value c0 v0 dc dv c - line_value c0 v0 dc dv c| ≤ 3 / 8192 := by
  obtain ⟨hp, hv⟩ := float32_line_value_errors c0 v0 dc dv c hdv hdc hc0 hv0 hc hcc hL
  have hs := float32_slope_error dc dv hdv hdc
  unfold line_value
  have hccq : |(c : ℚ) - (c0 : ℚ)| ≤ 2048 := by
    have := intCast_abs_le (c - c0) 2048 hcc
    push_cast at this
    exact this
  have hd := abs_mul_le_mul hs hccq
  generalize float32.line_value c0 v0 dc dv c = v at hv ⊢
  generalize float32.pitch c0 v0 dc dv = p at hp hv
  generalize float32.slope dc dv = s at hs hp hv hd
  generalize (dv : ℚ) / (dc : ℚ) = σ at hs hd ⊢
  have e : v - (σ * (c : ℚ) + ((v0 : ℚ) - σ * (c0 : ℚ))) =
      (v - (s * (c : ℚ) + p)) + (p - ((v0 : ℚ) - s * (c0 : ℚ)))
        + (s - σ) * ((c : ℚ) - (c0 : ℚ)) := by ring
  rw [e]
  rw [abs_le] at hp hv hd ⊢
  constructor <;> linarith

/-- Two `float` ordinates one step apart differ by at most 1, when the line is
strictly closer to the `c` axis than the diagonal. -/
theorem float32_line_value_step (c0 v0 dc dv c t : Int) (hdv : |dv| < |dc|)
    (hdc : |dc| ≤ 2048) (hc0 : |c0| ≤ 1024) (hv0 : |v0| ≤ 1024) (hc : |c| ≤ 1024)
    (hct : |c + t| ≤ 1024) (ht : |t| = 1)
    (hcc : |c - c0| ≤ 2048) (hcct : |c + t - c0| ≤ 2048)
    (hL : |line_value c0 v0 dc dv c| ≤ 1024)
    (hLt : |line_value c0 v0 dc dv (c + t)| ≤ 1024) :
    |float32.line_value c0 v0 dc dv (c + t) - float32.line_value c0 v0 dc dv c| ≤ 1 := by
  have hle := le_of_lt hdv
  obtain ⟨_, hv⟩ := float32_line_value_errors c0 v0 dc dv c hle hdc hc0 hv0 hc hcc hL
  obtain ⟨_, hvt⟩ := float32_line_value_errors c0 v0 dc dv (c + t) hle hdc hc0 hv0 hct hcct hLt
  have hs := float32_slope_error dc dv hle hdc
  have hσ := exact_slope_lt_one dc dv hdv hdc
  have htq : |(t : ℚ)| = 1 := by
    rw [← Int.cast_abs, ht]
    norm_num
  generalize float32.line_value c0 v0 dc dv c = v at hv ⊢
  generalize float32.line_value c0 v0 dc dv (c + t) = w at hvt ⊢
  generalize float32.pitch c0 v0 dc dv = p at hv hvt
  generalize float32.slope dc dv = s at hs hv hvt
  generalize (dv : ℚ) / (dc : ℚ) = σ at hs hσ
  have hs1 : |s| ≤ 1 - 1 / 2048 + 1 / 33554432 := by
    rw [abs_le] at hs hσ ⊢
    constructor <;> linarith
  have hst : |s * (t : ℚ)| ≤ 1 - 1 / 2048 + 1 / 33554432 := by
    rw [abs_mul, htq, mul_one]
    exact hs1
  have e : w - v = (w - (s * ((c + t : Int) : ℚ) + p)) - (v - (s * (c : ℚ) + p))
      + s * (t : ℚ) := by
    push_cast
    ring
  rw [e]
  rw [abs_le] at hv hvt hst ⊢
  constructor <;> linarith

theorem line_value_antidiagonal (c0 v0 d c : Int) (h : d ≠ 0) :
    line_value c0 v0 d (-d) c = ((v0 - (c - c0) : Int) : ℚ) := by
  unfold line_value
  have h0 : (d : ℚ) ≠ 0 := by exact_mod_cast h
  rw [Int.cast_neg, neg_div, div_self h0]
  push_cast
  ring

/-- On an antidiagonal segment the `float` ordinate is exact, provided the
numbers involved are binary32 numbers. -/
theorem float32_line_value_antidiagonal (c0 v0 d c : Int) (hd : d ≠ 0) (hd2 : |d| ≤ 2 ^ 24)
    (h1 : |c0| ≤ 2 ^ 24) (h2 : |v0| ≤ 2 ^ 24) (h3 : |c| ≤ 2 ^ 24) (h4 : |v0 + c0| ≤ 2 ^ 24)
    (h5 : |v0 - (c - c0)| ≤ 2 ^ 24) :
    float32.line_value c0 v0 d (-d) c = ((v0 - (c - c0) : Int) : ℚ) := by
  unfold float32.line_value float_add float_sub float_mul float_div
  have hq : (d : ℚ) ≠ 0 := by exact_mod_cast hd
  have hm1 : binary32_round (-1) = -1 := by
    have := binary32_round_int (-1) (by norm_num)
    simpa using this
  rw [float_of_int_exact (-d) (by rw [abs_neg]; exact hd2), float_of_int_exact d hd2,
    Int.cast_neg, neg_div, div_self hq, hm1, float_of_int_exact c0 h1,
    float_of_int_exact v0 h2, float_of_int_exact c h3,
    binary32_round_eq_int (-1 * (c : ℚ)) (-c) (by push_cast; ring) (by rw [abs_neg]; exact h3),
    binary32_round_eq_int (-1 * (c0 : ℚ)) (-c0) (by push_cast; ring)
      (by rw [abs_neg]; exact h1),
    binary32_round_eq_int ((v0 : ℚ) - ((-c0 : Int) : ℚ)) (v0 + c0) (by push_cast; ring) h4,
    binary32_round_eq_int (((-c : Int) : ℚ) + ((v0 + c0 : Int) : ℚ)) (v0 - (c - c0))
      (by push_cast; ring) h5]

/-- When `|dv| = |dc|` the `float` ordinate is the exact ordinate, for points
with coordinates of magnitude at most 1024. -/
theorem float32_line_value_exact (c0 v0 dc dv c : Int) (hdc0 : dc ≠ 0) (hdv : |dv| = |dc|)
    (hdc : |dc| ≤ 2048) (hc0 : |c0| ≤ 1024) (hv0 : |v0| ≤ 1024) (hc : |c| ≤ 1024)
    (hL : |line_value c0 v0 dc dv c| ≤ 1024) :
    float32.line_value c0 v0 dc dv c = line_value c0 v0 dc dv c := by
  rw [abs_le] at hc0 hv0 hc
  rcases abs_eq_abs.mp hdv with h | h
  · subst h
    rw [line_value_diagonal _ _ _ _ hdc0] at hL ⊢
    have hL' : |v0 + (c - c0)| ≤ 1024 := by
      rw [← Int.cast_abs] at hL
      exact_mod_cast hL
    rw [abs_le] at hL'
    exact float32_line_value_diagonal c0 v0 dv c hdc0 (by rw [abs_le]; omega)
      (by rw [abs_le]; omega) (by rw [abs_le]; omega) (by rw [abs_le]; omega)
      (by rw [abs_le]; omega)
  · subst h
    rw [line_value_antidiagonal _ _ _ _ hdc0] at hL ⊢
    have hL' : |v0 - (c - c0)| ≤ 1024 := by
      rw [← Int.cast_abs] at hL
      exact_mod_cast hL
    rw [abs_le] at hL'
    exact float32_line_value_antidiagonal c0 v0 dc c hdc0 (by omega)
      (by rw [abs_le]; omega) (by rw [abs_le]; omega) (by rw [abs_le]; omega)
      (by rw [abs_le]; omega) (by rw [abs_le]; omega)

/-- The coordinates and exact ordinates met along a line between points with
coordinates of magnitude at most 1024 have magnitude at most 1024. -/
theorem float32_step_facts (c0 v0 dc dv : Int) (i : Nat) (hi : i ≤ dc.natAbs) (hdc0 : dc ≠ 0)
    (hc0 : |c0| ≤ 1024) (hv0 : |v0| ≤ 1024) (hc1 : |c0 + dc| ≤ 1024)
    (hv1 : |v0 + dv| ≤ 1024) :
    |dc| ≤ 2048 ∧ |c0 + i * step_sign dc| ≤ 1024 ∧ |c0 + i * step_sign dc - c0| ≤ 2048 ∧
      |line_value c0 v0 dc dv (c0 + i * step_sign dc)| ≤ 1024 := by
  have hb := step_between c0 dc i hi
  have hL := line_value_between c0 v0 dc dv i hi hdc0
  rw [abs_le] at hc0 hv0 hc1 hv1
  refine ⟨by rw [abs_le]; omega, by rw [abs_le]; omega, by rw [abs_le]; omega, ?_⟩
  have h1 : (-1024 : ℚ) ≤ ((min v0 (v0 + dv) : Int) : ℚ) := by
    have : (-1024 : Int) ≤ min v0 (v0 + dv) := by omega
    calc (-1024 : ℚ) = ((-1024 : Int) : ℚ) := by norm_num
      _ ≤ _ := Int.cast_le.mpr this
  have h2 : ((max v0 (v0 + dv) : Int) : ℚ) ≤ (1024 : ℚ) := by
    have : max v0 (v0 + dv) ≤ (1024 : Int) := by omega
    calc ((max v0 (v0 + dv) : Int) : ℚ) ≤ ((1024 : Int) : ℚ) := Int.cast_le.mpr this
      _ = 1024 := by norm_num
  rw [abs_le]
  exact ⟨le_trans h1 hL.1, le_trans hL.2 h2⟩

/-- Accuracy of the `float` ordinate at the `i`-th step of a line between
points with coordinates of magnitude at most 1024. -/
theorem float32_line_value_accuracy_at (c0 v0 dc dv : Int) (i : Nat) (hi : i ≤ dc.natAbs)
    (hdc0 : dc ≠ 0) (hdv : |dv| ≤ |dc|) (hc0 : |c0| ≤ 1024) (hv0 : |v0| ≤ 1024)
    (hc1 : |c0 + dc| ≤ 1024) (hv1 : |v0 + dv| ≤ 1024) :
    |float32.line_value c0 v0 dc dv (c0 + i * step_sign dc) -
      line_value c0 v0 dc dv (c0 + i * step_sign dc)| ≤ 3 / 8192 := by
  obtain ⟨h1, h2, h3, h4⟩ := float32_step_facts c0 v0 dc dv i hi hdc0 hc0 hv0 hc1 hv1
  exact float32_line_value_accuracy c0 v0 dc dv _ hdv h1 hc0 hv0 h2 h3 h4

/-- Two consecutive `float` ordinates of a line between points with coordinates
of magnitude at most 1024 differ by at most 1. -/
theorem float32_line_value_step_at (c0 v0 dc dv : Int) (i : Nat) (hi : i + 1 ≤ dc.natAbs)
    (hdc0 : dc ≠ 0) (hdv : |dv| ≤ |dc|) (hc0 : |c0| ≤ 1024) (hv0 : |v0| ≤ 1024)
    (hc1 : |c0 + dc| ≤ 1024) (hv1 : |v0 + dv| ≤ 1024) :
    |float32.line_value c0 v0 dc dv (c0 + ((i + 1 : Nat) : Int) * step_sign dc) -
      float32.line_value c0 v0 dc dv (c0 + i * step_sign dc)| ≤ 1 := by
  obtain ⟨h1, h2, h3, h4⟩ := float32_step_facts c0 v0 dc dv i (by omega) hdc0 hc0 hv0 hc1 hv1
  obtain ⟨_, k2, k3, k4⟩ := float32_step_facts c0 v0 dc dv (i + 1) hi hdc0 hc0 hv0 hc1 hv1
  have e : c0 + ((i + 1 : Nat) : Int) * step_sign dc = c0 + i * step_sign dc + step_sign dc := by
    push_cast; ring
  rw [e] at k2 k3 k4 ⊢
  have ht : |step_sign dc| = 1 := by
    unfold step_sign
    split <;> simp
  rcases lt_or_eq_of_le hdv with hlt | heq
  · exact float32_line_value_step c0 v0 dc dv _ _ hlt h1 hc0 hv0 h2 k2 ht h3 k3 h4 k4
  · rw [float32_line_value_exact c0 v0 dc dv _ hdc0 heq h1 hc0 hv0 k2 k4,
      float32_line_value_exact c0 v0 dc dv _ hdc0 heq h1 hc0 hv0 h2 h4]
    exact line_value_step c0 v0 dc dv _ hdv

/-- The last `float` ordinate computed in the loop differs from the ordinate of
`end` by at most 1, for a line between points with coordinates of magnitude at
most 1024. -/
theorem float32_line_value_last (c0 v0 dc dv : Int) (i : Nat) (hi : i + 1 = dc.natAbs)
    (hdc0 : dc ≠ 0) (hdv : |dv| ≤ |dc|) (hc0 : |c0| ≤ 1024) (hv0 : |v0| ≤ 1024)
    (hc1 : |c0 + dc| ≤ 1024) (hv1 : |v0 + dv| ≤ 1024) :
    |((v0 + dv : Int) : ℚ) - float32.line_value c0 v0 dc dv (c0 + i * step_sign dc)| ≤ 1 := by
  obtain ⟨h1, h2, h3, h4⟩ := float32_step_facts c0 v0 dc dv i (by omega) hdc0 hc0 hv0 hc1 hv1
  have hend : c0 + i * step_sign dc + step_sign dc = c0 + dc := by
    have := natAbs_mul_step_sign dc
    rw [← hi] at this
    push_cast at this
    linarith
  have hLend := line_value_end c0 v0 dc dv hdc0
  rw [← hend] at hLend
  have hstep := line_value_step c0 v0 dc dv (c0 + i * step_sign dc) hdv
  rw [hLend] at hstep
  rcases lt_or_eq_of_le hdv with hlt | heq
  · have hacc := float32_line_value_accuracy c0 v0 dc dv _ hdv h1 hc0 hv0 h2 h3 h4
    have hσ := exact_slope_lt_one dc dv hlt h1
    have hd : ((v0 + dv : Int) : ℚ) - line_value c0 v0 dc dv (c0 + i * step_sign dc) =
        (dv : ℚ) / (dc : ℚ) * ((step_sign dc : Int) : ℚ) := by
      rw [← hLend]
      unfold line_value
      push_cast
      ring
    have hts : |((step_sign dc : Int) : ℚ)| = 1 := by
      unfold step_sign
      split <;> simp
    have hd2 : |((v0 + dv : Int) : ℚ) - line_value c0 v0 dc dv (c0 + i * step_sign dc)| ≤
        1 - 1 / 2048 := by
      rw [hd, abs_mul, hts, mul_one]
      exact hσ
    generalize float32.line_value c0 v0 dc dv (c0 + i * step_sign dc) = v at hacc ⊢
    generalize line_value c0 v0 dc dv (c0 + i * step_sign dc) = L at hacc hd2
    rw [abs_le] at hacc hd2 ⊢
    constructor <;> linarith
  · rw [float32_line_value_exact c0 v0 dc dv _ hdc0 heq h1 hc0 hv0 h2 h4]
    exact hstep

theorem small_point_diff (a b : ivec2) (ha : small_point a) (hb : small_point b) :
    |b.x - a.x| ≤ 2 ^ 24 ∧ |b.y - a.y| ≤ 2 ^ 24 := by
  obtain ⟨h1, h2⟩ := ha
  obtain ⟨h3, h4⟩ := hb
  rw [abs_le] at h1 h2 h3 h4
  constructor <;> rw [abs_le] <;> omega

/-- The pixel written by iteration `i` of the loop, for a line along `x`. -/
theorem float32_line_point_x (start end_ : ivec2) (i : Nat)
    (h : float32.x_dominant start end_) :
    float32.line_point start end_ i =
      ⟨start.x + i * step_sign (end_.x - start.x),
        float_to_int (float32.line_value start.x start.y (end_.x - start.x)
          (end_.y - start.y) (start.x + i * step_sign (end_.x - start.x)))⟩ := by
  rw [float32.line_point, if_pos h]

/-- The pixel written by iteration `i` of the loop, for a line along `y`. -/
theorem float32_line_point_y (start end_ : ivec2) (i : Nat)
    (h : ¬ float32.x_dominant start end_) :
    float32.line_point start end_ i =
      ⟨float_to_int (float32.line_value start.y start.x (end_.y - start.y)
          (end_.x - start.x) (start.y + i * step_sign (end_.y - start.y))),
        start.y + i * step_sign (end_.y - start.y)⟩ := by
  rw [float32.line_point, if_neg h]

/-- The points written by `draw_line` in binary32 arithmetic, indexed from 0
to the number of steps: the loop pixels, then `end_`. -/
theorem float32_line_points_eq_map (start end_ : ivec2) :
    float32.line_points start end_ =
      (List.range (float32.line_steps start end_ + 1)).map
        (fun i => if i < float32.line_steps start end_ then float32.line_point start end_ i
          else end_) := by
  rw [float32.line_points, List.range_succ, List.map_append, List.map_singleton,
    if_neg (lt_irrefl _)]
  congr 1
  apply List.map_congr_left
  intro i hi
  rw [List.mem_range] at hi
  rw [if_pos hi]

theorem float32_mem_line_points (start end_ p : ivec2) :
    p ∈ float32.line_points start end_ ↔
      (∃ i, i < float32.line_steps start end_ ∧ p = float32.line_point start end_ i) ∨
        p = end_ := by
  rw [float32.line_points, List.mem_append, List.mem_map, List.mem_singleton]
  constructor
  · rintro (⟨i, hi, rfl⟩ | h)
    · exact Or.inl ⟨i, List.mem_range.mp hi, rfl⟩
    · exact Or.inr h
  · rintro (⟨i, hi, rfl⟩ | h)
    · exact Or.inl ⟨i, List.mem_range.mpr hi, rfl⟩
    · exact Or.inr h

theorem float_to_int_near_int {q : ℚ} (n : Int) (h : |q - (n : ℚ)| ≤ 1) :
    |float_to_int q - n| ≤ 1 := by
  rw [abs_le] at h
  have := float_to_int_close (q := (n : ℚ)) (r := q) (by linarith) (by linarith)
  rwa [float_to_int_intCast] at this

/-- The dominant coordinate and the other coordinate of a loop pixel, relative
to the exact line: the data on which the claims about `draw_line` rest. For a
line between points with coordinates of magnitude at most 1024, the pixel of
iteration `i` has the dominant coordinate `c0 + i * sign`, and its other
coordinate is the truncation of a `float` within `3 / 8192` of the exact
ordinate, which lies between the ordinates of the two ends. -/
theorem float32_ordinate_facts (c0 v0 dc dv : Int) (i : Nat) (hi : i < dc.natAbs)
    (hdv : |dv| ≤ |dc|) (hc0 : |c0| ≤ 1024) (hv0 : |v0| ≤ 1024)
    (hc1 : |c0 + dc| ≤ 1024) (hv1 : |v0 + dv| ≤ 1024) :
    min v0 (v0 + dv) - 1 ≤
        float_to_int (float32.line_value c0 v0 dc dv (c0 + i * step_sign dc)) ∧
      float_to_int (float32.line_value c0 v0 dc dv (c0 + i * step_sign dc)) ≤
        max v0 (v0 + dv) + 1 := by
  have hdc0 : dc ≠ 0 := by
    intro h
    rw [h] at hi
    simp at hi
  have hacc := float32_line_value_accuracy_at c0 v0 dc dv i (le_of_lt hi) hdc0 hdv hc0 hv0
    hc1 hv1
  have hL := line_value_between c0 v0 dc dv i (le_of_lt hi) hdc0
  rw [abs_le] at hacc
  have h1 : ((min v0 (v0 + dv) - 1 : Int) : ℚ) ≤
      float32.line_value c0 v0 dc dv (c0 + i * step_sign dc) := by
    rw [Int.cast_sub, Int.cast_one]
    linarith [hL.1, hacc.1]
  have h2 : float32.line_value c0 v0 dc dv (c0 + i * step_sign dc) ≤
      ((max v0 (v0 + dv) + 1 : Int) : ℚ) := by
    rw [Int.cast_add, Int.cast_one]
    linarith [hL.2, hacc.2]
  exact float_to_int_between h1 h2

/-- The first loop pixel is at most one away from `start` in its other
coordinate. -/
theorem float32_ordinate_first (c0 v0 dc dv : Int) (hdc0 : dc ≠ 0)
    (hdv : |dv| ≤ |dc|) (hc0 : |c0| ≤ 1024) (hv0 : |v0| ≤ 1024)
    (hc1 : |c0 + dc| ≤ 1024) (hv1 : |v0 + dv| ≤ 1024) :
    |float_to_int (float32.line_value c0 v0 dc dv c0) - v0| ≤ 1 := by
  have hacc := float32_line_value_accuracy_at c0 v0 dc dv 0 (Nat.zero_le _) hdc0 hdv hc0 hv0
    hc1 hv1
  simp only [Nat.cast_zero, zero_mul, add_zero] at hacc
  rw [line_value_start] at hacc
  apply float_to_int_near_int
  rw [abs_le] at hacc ⊢
  constructor <;> linarith

/-- Two consecutive loop pixels are at most one apart in their other
coordinate. -/
theorem float32_ordinate_step (c0 v0 dc dv : Int) (i : Nat) (hi : i + 1 ≤ dc.natAbs)
    (hdv : |dv| ≤ |dc|) (hc0 : |c0| ≤ 1024) (hv0 : |v0| ≤ 1024)
    (hc1 : |c0 + dc| ≤ 1024) (hv1 : |v0 + dv| ≤ 1024) :
    |float_to_int (float32.line_value c0 v0 dc dv (c0 + ((i + 1 : Nat) : Int) * step_sign dc)) -
      float_to_int (float32.line_value c0 v0 dc dv (c0 + i * step_sign dc))| ≤ 1 := by
  have hdc0 : dc ≠ 0 := by
    intro h
    rw [h] at hi
    simp at hi
  have h := float32_line_value_step_at c0 v0 dc dv i hi hdc0 hdv hc0 hv0 hc1 hv1
  rw [abs_le] at h
  exact float_to_int_close (by linarith) (by linarith)

/-- The last loop pixel is at most one away from `end` in its other
coordinate. -/
theorem float32_ordinate_last (c0 v0 dc dv : Int) (i : Nat) (hi : i + 1 = dc.natAbs)
    (hdv : |dv| ≤ |dc|) (hc0 : |c0| ≤ 1024) (hv0 : |v0| ≤ 1024)
    (hc1 : |c0 + dc| ≤ 1024) (hv1 : |v0 + dv| ≤ 1024) :
    |(v0 + dv) - float_to_int (float32.line_value c0 v0 dc dv (c0 + i * step_sign dc))| ≤ 1 := by
  have hdc0 : dc ≠ 0 := by
    intro h
    rw [h] at hi
    simp at hi
  have h := float32_line_value_last c0 v0 dc dv i hi hdc0 hdv hc0 hv0 hc1 hv1
  have := float_to_int_near_int (q := float32.line_value c0 v0 dc dv (c0 + i * step_sign dc))
    (v0 + dv) (by rw [abs_sub_comm]; exact h)
  rw [abs_sub_comm]
  exact this

theorem abs_step_sign (d : Int) : |step_sign d| = 1 := by
  unfold step_sign
  split <;> simp

/-- Two consecutive pixels of a line between points with coordinates of
magnitude at most 1024 differ by at most one in each axis. -/
theorem float32_line_point_adjacent (start end_ : ivec2) (hs : small_point start)
    (he : small_point end_) (m : Nat) (hm : m < float32.line_steps start end_) :
    |(if m + 1 < float32.line_steps start end_ then float32.line_point start end_ (m + 1)
        else end_).x -
      (if m < float32.line_steps start end_ then float32.line_point start end_ m
        else end_).x| ≤ 1 ∧
    |(if m + 1 < float32.line_steps start end_ then float32.line_point start end_ (m + 1)
        else end_).y -
      (if m < float32.line_steps start end_ then float32.line_point start end_ m
        else end_).y| ≤ 1 := by
  obtain ⟨hdx, hdy⟩ := small_point_diff start end_ hs he
  have hxe : start.x + (end_.x - start.x) = end_.x := by ring
  have hye : start.y + (end_.y - start.y) = end_.y := by ring
  have hex : |start.x + (end_.x - start.x)| ≤ 1024 := by rw [hxe]; exact he.1
  have hey : |start.y + (end_.y - start.y)| ≤ 1024 := by rw [hye]; exact he.2
  rw [if_pos hm]
  by_cases hd : float32.x_dominant start end_
  · have hd' := le_of_lt ((float32_x_dominant_iff start end_ hdx hdy).mp hd)
    rw [float32_line_steps_x hd] at hm ⊢
    rw [float32_line_point_x _ _ m hd]
    by_cases hl : m + 1 < (end_.x - start.x).natAbs
    · rw [if_pos hl, float32_line_point_x _ _ (m + 1) hd]
      refine ⟨?_, float32_ordinate_step _ _ _ _ m (by omega) hd' hs.1 hs.2 hex hey⟩
      simp only
      have := abs_step_sign (end_.x - start.x)
      rw [show start.x + ((m + 1 : Nat) : Int) * step_sign (end_.x - start.x) -
        (start.x + (m : Int) * step_sign (end_.x - start.x)) = step_sign (end_.x - start.x) by
        push_cast; ring]
      omega
    · rw [if_neg hl]
      have hmn : m + 1 = (end_.x - start.x).natAbs := by omega
      have hlast := float32_ordinate_last start.x start.y _ _ m hmn hd' hs.1 hs.2 hex hey
      rw [hye] at hlast
      refine ⟨?_, hlast⟩
      simp only
      have h1 := natAbs_mul_step_sign (end_.x - start.x)
      rw [← hmn] at h1
      have h2 := abs_step_sign (end_.x - start.x)
      rw [show end_.x - (start.x + (m : Int) * step_sign (end_.x - start.x)) =
        step_sign (end_.x - start.x) by push_cast at h1; linarith]
      omega
  · have hd' : |end_.x - start.x| ≤ |end_.y - start.y| :=
      not_lt.mp (fun h => hd ((float32_x_dominant_iff start end_ hdx hdy).mpr h))
    rw [float32_line_steps_y hd] at hm ⊢
    rw [float32_line_point_y _ _ m hd]
    by_cases hl : m + 1 < (end_.y - start.y).natAbs
    · rw [if_pos hl, float32_line_point_y _ _ (m + 1) hd]
      refine ⟨float32_ordinate_step _ _ _ _ m (by omega) hd' hs.2 hs.1 hey hex, ?_⟩
      simp only
      have := abs_step_sign (end_.y - start.y)
      rw [show start.y + ((m + 1 : Nat) : Int) * step_sign (end_.y - start.y) -
        (start.y + (m : Int) * step_sign (end_.y - start.y)) = step_sign (end_.y - start.y) by
        push_cast; ring]
      omega
    · rw [if_neg hl]
      have hmn : m + 1 = (end_.y - start.y).natAbs := by omega
      have hlast := float32_ordinate_last start.y start.x _ _ m hmn hd' hs.2 hs.1 hey hex
      rw [hxe] at hlast
      refine ⟨hlast, ?_⟩
      simp only
      have h1 := natAbs_mul_step_sign (end_.y - start.y)
      rw [← hmn] at h1
      have h2 := abs_step_sign (end_.y - start.y)
      rw [show end_.y - (start.y + (m : Int) * step_sign (end_.y - start.y)) =
        step_sign (end_.y - start.y) by push_cast at h1; linarith]
      omega

theorem float32_line_points_chain (start end_ : ivec2) (hs : small_point start)
    (he : small_point end_) :
    (float32.line_points start end_).Chain'
      (fun p q => |q.x - p.x| ≤ 1 ∧ |q.y - p.y| ≤ 1) := by
  rw [float32_line_points_eq_map, List.chain'_map, List.chain'_range_succ]
  intro m hm
  exact float32_line_point_adjacent start end_ hs he m hm

/-- The first pixel of a line between points with coordinates of magnitude at
most 1024 has the dominant coordinate of `start` and is at most one away from
it in the other coordinate. -/
theorem float32_line_points_head (start end_ : ivec2) (hs : small_point start)
    (he : small_point end_) :
    ∃ p : ivec2, (float32.line_points start end_).head? = some p ∧
      (if |end_.x - start.x| > |end_.y - start.y| then p.x = start.x ∧ |p.y - start.y| ≤ 1
        else p.y = start.y ∧ |p.x - start.x| ≤ 1) := by
  obtain ⟨hdx, hdy⟩ := small_point_diff start end_ hs he
  have hxe : start.x + (end_.x - start.x) = end_.x := by ring
  have hye : start.y + (end_.y - start.y) = end_.y := by ring
  have hex : |start.x + (end_.x - start.x)| ≤ 1024 := by rw [hxe]; exact he.1
  have hey : |start.y + (end_.y - start.y)| ≤ 1024 := by rw [hye]; exact he.2
  rw [float32_line_points_eq_map, List.range_succ_eq_map]
  simp only [List.map_cons, List.head?_cons, Option.some.injEq, exists_eq_left']
  by_cases hd : float32.x_dominant start end_
  · have hd' := (float32_x_dominant_iff start end_ hdx hdy).mp hd
    rw [if_pos hd', float32_line_steps_x hd]
    have hne : end_.x - start.x ≠ 0 := by
      intro h
      rw [h] at hd'
      simp at hd'
      exact absurd hd' (not_lt.mpr (abs_nonneg _))
    rw [if_pos (Int.natAbs_pos.mpr hne), float32_line_point_x _ _ _ hd]
    simp only [Nat.cast_zero, zero_mul, add_zero, true_and]
    exact float32_ordinate_first _ _ _ _ hne (le_of_lt hd') hs.1 hs.2 hex hey
  · have hd' : ¬ |end_.x - start.x| > |end_.y - start.y| :=
      fun h => hd ((float32_x_dominant_iff start end_ hdx hdy).mpr h)
    rw [if_neg hd', float32_line_steps_y hd]
    by_cases hne : end_.y - start.y = 0
    · have hx0 : end_.x - start.x = 0 := by
        rw [hne] at hd'
        simpa using hd'
      rw [hne]
      simp only [Int.natAbs_zero, lt_irrefl, if_false]
      constructor
      · omega
      · rw [show start.x = end_.x by omega]
        simp
    · rw [if_pos (Int.natAbs_pos.mpr hne), float32_line_point_y _ _ _ hd]
      simp only [Nat.cast_zero, zero_mul, add_zero, true_and]
      exact float32_ordinate_first _ _ _ _ hne (not_lt.mp hd') hs.2 hs.1 hey hex

/-- Every pixel of a line between points with coordinates of magnitude at most
1024 lies in the bounding box of the two ends, enlarged by one pixel on the
axis that is not the dominant one. -/
theorem float32_line_points_in_box (start end_ p : ivec2) (hs : small_point start)
    (he : small_point end_) (hp : p ∈ float32.line_points start end_) :
    (if |end_.x - start.x| > |end_.y - start.y| then
      min start.x end_.x ≤ p.x ∧ p.x ≤ max start.x end_.x ∧
      min start.y end_.y - 1 ≤ p.y ∧ p.y ≤ max start.y end_.y + 1
    else
      min start.x end_.x - 1 ≤ p.x ∧ p.x ≤ max start.x end_.x + 1 ∧
      min start.y end_.y ≤ p.y ∧ p.y ≤ max start.y end_.y) := by
  obtain ⟨hdx, hdy⟩ := small_point_diff start end_ hs he
  have hxe : start.x + (end_.x - start.x) = end_.x := by ring
  have hye : start.y + (end_.y - start.y) = end_.y := by ring
  have hex : |start.x + (end_.x - start.x)| ≤ 1024 := by rw [hxe]; exact he.1
  have hey : |start.y + (end_.y - start.y)| ≤ 1024 := by rw [hye]; exact he.2
  rw [float32_mem_line_points] at hp
  rcases hp with ⟨i, hi, rfl⟩ | rfl
  · by_cases hd : float32.x_dominant start end_
    · have hd' := (float32_x_dominant_iff start end_ hdx hdy).mp hd
      rw [float32_line_steps_x hd] at hi
      rw [if_pos hd', float32_line_point_x _ _ _ hd]
      have h1 := step_between start.x (end_.x - start.x) i (le_of_lt hi)
      have h2 := float32_ordinate_facts start.x start.y _ _ i hi (le_of_lt hd') hs.1 hs.2
        hex hey
      rw [hxe] at h1
      rw [hye] at h2
      exact ⟨h1.1, h1.2, h2.1, h2.2⟩
    · have hd' : ¬ |end_.x - start.x| > |end_.y - start.y| :=
        fun h => hd ((float32_x_dominant_iff start end_ hdx hdy).mpr h)
      rw [float32_line_steps_y hd] at hi
      rw [if_neg hd', float32_line_point_y _ _ _ hd]
      have h1 := step_between start.y (end_.y - start.y) i (le_of_lt hi)
      have h2 := float32_ordinate_facts start.y start.x _ _ i hi (not_lt.mp hd') hs.2 hs.1
        hey hex
      rw [hye] at h1
      rw [hxe] at h2
      exact ⟨h2.1, h2.2, h1.1, h1.2⟩
  · split <;> omega

/-- Drawn from either end, a line between points with coordinates of magnitude
at most 1024 gets, at the same dominant coordinate, ordinates at most one
apart. The pixel of iteration `i` drawn forwards is compared with the pixel of
iteration `n - i` drawn backwards. -/
theorem float32_ordinate_reverse (c0 v0 dc dv : Int) (i : Nat) (hi : i ≤ dc.natAbs)
    (hdc0 : dc ≠ 0) (hdv : |dv| ≤ |dc|) (hc0 : |c0| ≤ 1024) (hv0 : |v0| ≤ 1024)
    (hc1 : |c0 + dc| ≤ 1024) (hv1 : |v0 + dv| ≤ 1024) :
    (c0 + dc) + ((dc.natAbs - i : Nat) : Int) * step_sign (-dc) = c0 + i * step_sign dc ∧
    |float_to_int (float32.line_value (c0 + dc) (v0 + dv) (-dc) (-dv)
        ((c0 + dc) + ((dc.natAbs - i : Nat) : Int) * step_sign (-dc))) -
      float_to_int (float32.line_value c0 v0 dc dv (c0 + i * step_sign dc))| ≤ 1 := by
  have hcoord : (c0 + dc) + ((dc.natAbs - i : Nat) : Int) * step_sign (-dc) =
      c0 + i * step_sign dc := by
    have h1 := natAbs_mul_step_sign dc
    have h2 : step_sign dc * step_sign dc = 1 := by
      unfold step_sign
      split <;> norm_num
    rw [step_sign_neg dc hdc0, Nat.cast_sub hi]
    linear_combination -h1
  refine ⟨hcoord, ?_⟩
  have hf := float32_line_value_accuracy_at c0 v0 dc dv i hi hdc0 hdv hc0 hv0 hc1 hv1
  have hr := float32_line_value_accuracy_at (c0 + dc) (v0 + dv) (-dc) (-dv)
    (dc.natAbs - i) (by rw [Int.natAbs_neg]; omega) (by omega)
    (by rw [abs_neg, abs_neg]; exact hdv) hc1 hv1
    (by rw [show c0 + dc + -dc = c0 by ring]; exact hc0)
    (by rw [show v0 + dv + -dv = v0 by ring]; exact hv0)
  rw [hcoord] at hr ⊢
  rw [line_value_reverse c0 v0 dc dv _ hdc0] at hr
  rw [abs_le] at hf hr
  exact float_to_int_close (by linarith) (by linarith)

theorem float32_x_dominant_comm (a b : ivec2) (ha : small_point a) (hb : small_point b) :
    float32.x_dominant b a ↔ float32.x_dominant a b := by
  obtain ⟨h1, h2⟩ := small_point_diff a b ha hb
  obtain ⟨h3, h4⟩ := small_point_diff b a hb ha
  rw [float32_x_dominant_iff a b h1 h2, float32_x_dominant_iff b a h3 h4]
  exact abs_gt_comm a b

theorem float32_line_steps_comm (a b : ivec2) (ha : small_point a) (hb : small_point b) :
    float32.line_steps b a = float32.line_steps a b := by
  obtain ⟨h1, h2⟩ := small_point_diff a b ha hb
  obtain ⟨h3, h4⟩ := small_point_diff b a hb ha
  rw [float32_line_steps_eq a b h1 h2, float32_line_steps_eq b a h3 h4, line_steps_comm]

/-- Every pixel of the line drawn from `a` to `b` has, among the pixels of the
line drawn from `b` to `a`, one with the same dominant coordinate and at most
one away in the other coordinate. -/
theorem float32_line_points_reverse_near (a b p : ivec2) (ha : small_point a)
    (hb : small_point b) (hp : p ∈ float32.line_points a b) :
    ∃ q ∈ float32.line_points b a,
      (if |b.x - a.x| > |b.y - a.y| then q.x = p.x ∧ |q.y - p.y| ≤ 1
        else q.y = p.y ∧ |q.x - p.x| ≤ 1) := by
  obtain ⟨hdx, hdy⟩ := small_point_diff a b ha hb
  have hxe : a.x + (b.x - a.x) = b.x := by ring
  have hye : a.y + (b.y - a.y) = b.y := by ring
  have hex : |a.x + (b.x - a.x)| ≤ 1024 := by rw [hxe]; exact hb.1
  have hey : |a.y + (b.y - a.y)| ≤ 1024 := by rw [hye]; exact hb.2
  have nx : a.x - b.x = -(b.x - a.x) := by ring
  have ny : a.y - b.y = -(b.y - a.y) := by ring
  have hsteps := float32_line_steps_comm a b ha hb
  rw [float32_mem_line_points] at hp
  rcases hp with ⟨i, hi, hpi⟩ | hpb
  · by_cases hd : float32.x_dominant a b
    · have hd' := (float32_x_dominant_iff a b hdx hdy).mp hd
      have hdr : float32.x_dominant b a := (float32_x_dominant_comm a b ha hb).mpr hd
      have hne : b.x - a.x ≠ 0 := by
        intro h
        rw [h] at hd'
        simp at hd'
        exact absurd hd' (not_lt.mpr (abs_nonneg _))
      have hn := float32_line_steps_x hd
      rw [hn] at hi
      simp only [if_pos hd']
      rw [hpi, float32_line_point_x _ _ _ hd]
      rcases Nat.eq_zero_or_pos i with h0 | h0
      · subst h0
        refine ⟨a, ?_, ?_⟩
        · rw [float32_mem_line_points]
          exact Or.inr rfl
        · simp only [Nat.cast_zero, zero_mul, add_zero, true_and]
          rw [abs_sub_comm]
          exact float32_ordinate_first _ _ _ _ hne (le_of_lt hd') ha.1 ha.2 hex hey
      · obtain ⟨h1, h2⟩ := float32_ordinate_reverse a.x a.y (b.x - a.x) (b.y - a.y) i
          (le_of_lt hi) hne (le_of_lt hd') ha.1 ha.2 hex hey
        rw [hxe, ← nx] at h1
        rw [hxe, hye, ← nx, ← ny] at h2
        refine ⟨float32.line_point b a ((b.x - a.x).natAbs - i), ?_, ?_⟩
        · rw [float32_mem_line_points]
          exact Or.inl ⟨_, by rw [hsteps, hn]; omega, rfl⟩
        · rw [float32_line_point_x _ _ _ hdr]
          exact ⟨h1, h2⟩
    · have hd' : ¬ |b.x - a.x| > |b.y - a.y| :=
        fun h => hd ((float32_x_dominant_iff a b hdx hdy).mpr h)
      have hdr : ¬ float32.x_dominant b a :=
        fun h => hd ((float32_x_dominant_comm a b ha hb).mp h)
      have hn := float32_line_steps_y hd
      rw [hn] at hi
      have hne : b.y - a.y ≠ 0 := by
        intro h
        rw [h] at hi
        simp at hi
      simp only [if_neg hd']
      rw [hpi, float32_line_point_y _ _ _ hd]
      rcases Nat.eq_zero_or_pos i with h0 | h0
      · subst h0
        refine ⟨a, ?_, ?_⟩
        · rw [float32_mem_line_points]
          exact Or.inr rfl
        · simp only [Nat.cast_zero, zero_mul, add_zero, true_and]
          rw [abs_sub_comm]
          exact float32_ordinate_first _ _ _ _ hne (not_lt.mp hd') ha.2 ha.1 hey hex
      · obtain ⟨h1, h2⟩ := float32_ordinate_reverse a.y a.x (b.y - a.y) (b.x - a.x) i
          (le_of_lt hi) hne (not_lt.mp hd') ha.2 ha.1 hey hex
        rw [hye, ← ny] at h1
        rw [hxe, hye, ← nx, ← ny] at h2
        refine ⟨float32.line_point b a ((b.y - a.y).natAbs - i), ?_, ?_⟩
        · rw [float32_mem_line_points]
          exact Or.inl ⟨_, by rw [hsteps, hn]; omega, rfl⟩
        · rw [float32_line_point_y _ _ _ hdr]
          exact ⟨h1, h2⟩
  · obtain ⟨q, hq, hq2⟩ := float32_line_points_head b a hb ha
    refine ⟨q, List.mem_of_mem_head? hq, ?_⟩
    rw [hpb]
    by_cases h : |b.x - a.x| > |b.y - a.y|
    · rw [if_pos ((abs_gt_comm a b).mpr h)] at hq2
      rw [if_pos h]
      exact hq2
    · rw [if_neg (fun h1 => h ((abs_gt_comm a b).mp h1))] at hq2
      rw [if_neg h]
      exact hq2

/-- C1, counterexample: the line from (1,1) to (0,7) is drawn through (0,1),
..., (0,6), (0,7): the first pixel written is (0,1), and `start` is not
written at all. In binary32 the pitch is `1 - (-1/6) * 1 = 1.1666666` and the
first abscissa is `(-1/6) * 1 + 1.1666666 = 0.99999994`, truncated to 0. -/
theorem float32_draw_line_misses_start :
    (float32.draw_line 6 ⟨1, 1⟩ ⟨0, 7⟩ ⟨255, 255, 255⟩ ⟨[], [], []⟩).map
      (fun s' => s'.pixels.map (fun w => w.1)) =
    some [⟨0, 1⟩, ⟨0, 2⟩, ⟨0, 3⟩, ⟨0, 4⟩, ⟨0, 5⟩, ⟨0, 6⟩, ⟨0, 7⟩] := by
  decide!

/-- Far from the origin the pixels of a line need not be connected: from
(1073741824,0) to (1073741827,3) the abscissa stays at 1073741824 in the loop
and jumps by 3 to the last point. -/
theorem float32_draw_line_gap_large :
    (float32.draw_line 3 ⟨1073741824, 0⟩ ⟨1073741827, 3⟩ ⟨255, 255, 255⟩ ⟨[], [], []⟩).map
      (fun s' => s'.pixels.map (fun w => w.1)) =
    some [⟨1073741824, 0⟩, ⟨1073741824, 1⟩, ⟨1073741824, 2⟩, ⟨1073741827, 3⟩] := by
  decide!

/-- C1, amended: for points with coordinates of magnitude at most 1024,
`draw_line` returns with enough fuel, and the sequence of pixels it writes
ends at `end_`, begins with a pixel that has the dominant coordinate of
`start` and is at most 1 away from `start` in the other coordinate, and any
two consecutive pixels differ by at most 1 in `x` and at most 1 in `y`. -/
theorem float32_draw_line_connected (start end_ : ivec2) (colour : ivec3) (s : Trace)
    (k : Nat) (hs : small_point start) (he : small_point end_) :
    ∃ (s' : Trace) (ws : List ivec2) (p : ivec2),
      float32.draw_line (max (end_.x - start.x).natAbs (end_.y - start.y).natAbs + k)
        start end_ colour s = some s' ∧
      s'.pixels = s.pixels ++ ws.map (fun p => (p, colour)) ∧
      ws.head? = some p ∧
      (if |end_.x - start.x| > |end_.y - start.y| then p.x = start.x ∧ |p.y - start.y| ≤ 1
        else p.y = start.y ∧ |p.x - start.x| ≤ 1) ∧
      ws.getLast? = some end_ ∧
      ws.Chain' (fun p q => |q.x - p.x| ≤ 1 ∧ |q.y - p.y| ≤ 1) := by
  obtain ⟨p, hp1, hp2⟩ := float32_line_points_head start end_ hs he
  exact ⟨_, float32.line_points start end_, p,
    float32_draw_line_of_le start end_ colour s _ (Nat.le_add_right _ _), rfl, hp1, hp2,
    float32_line_points_getLast start end_, float32_line_points_chain start end_ hs he⟩

/-- Witness for C1: the line from (432,502) to (443,487), which `main` draws
on its sixth slide; its first pixel is (431,502). -/
theorem float32_draw_line_connected_witness :
    ∃ (s' : Trace) (ws : List ivec2) (p : ivec2),
      float32.draw_line 15 ⟨432, 502⟩ ⟨443, 487⟩ ⟨255, 0, 255⟩ ⟨[], [], []⟩ = some s' ∧
      s'.pixels = ws.map (fun p => (p, (⟨255, 0, 255⟩ : ivec3))) ∧
      ws.head? = some p ∧ p.y = 502 ∧ |p.x - 432| ≤ 1 ∧
      ws.getLast? = some ⟨443, 487⟩ ∧
      ws.Chain' (fun p q => |q.x - p.x| ≤ 1 ∧ |q.y - p.y| ≤ 1) := by
  obtain ⟨s', ws, p, h1, h2, h3, h4, h5, h6⟩ :=
    float32_draw_line_connected ⟨432, 502⟩ ⟨443, 487⟩ ⟨255, 0, 255⟩ ⟨[], [], []⟩ 0
      ⟨by decide, by decide⟩ ⟨by decide, by decide⟩
  have hc : ¬ |(443 : Int) - 432| > |(487 : Int) - 502| := by decide
  rw [if_neg hc] at h4
  exact ⟨s', ws, p, h1, by simpa using h2, h3, h4.1, h4.2, h5, h6⟩

/-- C2, counterexample: the line from (1,1) to (0,7) is drawn through (0,1),
while the line from (0,7) to (1,1) is drawn through (1,1) and not through
(0,1). -/
theorem float32_draw_line_reverse_differs :
    (float32.draw_line 6 ⟨1, 1⟩ ⟨0, 7⟩ ⟨255, 255, 255⟩ ⟨[], [], []⟩).map
      (fun s' => s'.pixels.map (fun w => w.1)) =
    some [⟨0, 1⟩, ⟨0, 2⟩, ⟨0, 3⟩, ⟨0, 4⟩, ⟨0, 5⟩, ⟨0, 6⟩, ⟨0, 7⟩] ∧
    (float32.draw_line 6 ⟨0, 7⟩ ⟨1, 1⟩ ⟨255, 255, 255⟩ ⟨[], [], []⟩).map
      (fun s' => s'.pixels.map (fun w => w.1)) =
    some [⟨0, 7⟩, ⟨0, 6⟩, ⟨0, 5⟩, ⟨0, 4⟩, ⟨0, 3⟩, ⟨0, 2⟩, ⟨1, 1⟩] ∧
    ¬ (∀ w : ivec2,
      w ∈ [(⟨0, 1⟩ : ivec2), ⟨0, 2⟩, ⟨0, 3⟩, ⟨0, 4⟩, ⟨0, 5⟩, ⟨0, 6⟩, ⟨0, 7⟩] ↔
      w ∈ [(⟨0, 7⟩ : ivec2), ⟨0, 6⟩, ⟨0, 5⟩, ⟨0, 4⟩, ⟨0, 3⟩, ⟨0, 2⟩, ⟨1, 1⟩]) := by
  refine ⟨by decide!, by decide!, ?_⟩
  intro h
  have := (h ⟨1, 1⟩).mpr (by decide)
  revert this
  decide

/-- C2, amended: for points `a` and `b` with coordinates of magnitude at most
1024, `draw_line a b` and `draw_line b a` both return with enough fuel and
write the same number of pixels, and every pixel written by one has, among the
pixels written by the other, one with the same dominant coordinate and at most
1 away in the other coordinate. -/
theorem float32_draw_line_reverse_near (a b : ivec2) (colour : ivec3) (s t : Trace)
    (k j : Nat) (ha : small_point a) (hb : small_point b) :
    ∃ (s' t' : Trace) (ws vs : List ivec2),
      float32.draw_line (max (b.x - a.x).natAbs (b.y - a.y).natAbs + k) a b colour s =
        some s' ∧
      float32.draw_line (max (a.x - b.x).natAbs (a.y - b.y).natAbs + j) b a colour t =
        some t' ∧
      s'.pixels = s.pixels ++ ws.map (fun p => (p, colour)) ∧
      t'.pixels = t.pixels ++ vs.map (fun p => (p, colour)) ∧
      ws.length = vs.length ∧
      (∀ p ∈ ws, ∃ q ∈ vs,
        (if |b.x - a.x| > |b.y - a.y| then q.x = p.x ∧ |q.y - p.y| ≤ 1
          else q.y = p.y ∧ |q.x - p.x| ≤ 1)) ∧
      (∀ q ∈ vs, ∃ p ∈ ws,
        (if |b.x - a.x| > |b.y - a.y| then p.x = q.x ∧ |p.y - q.y| ≤ 1
          else p.y = q.y ∧ |p.x - q.x| ≤ 1)) := by
  refine ⟨_, _, float32.line_points a b, float32.line_points b a,
    float32_draw_line_of_le a b colour s _ (Nat.le_add_right _ _),
    float32_draw_line_of_le b a colour t _ (Nat.le_add_right _ _), rfl, rfl, ?_, ?_, ?_⟩
  · rw [float32_line_points_length, float32_line_points_length,
      float32_line_steps_comm a b ha hb]
  · intro p hp
    exact float32_line_points_reverse_near a b p ha hb hp
  · intro q hq
    obtain ⟨p, hp, h⟩ := float32_line_points_reverse_near b a q hb ha hq
    refine ⟨p, hp, ?_⟩
    by_cases hc : |b.x - a.x| > |b.y - a.y|
    · rw [if_pos ((abs_gt_comm a b).mpr hc)] at h
      rw [if_pos hc]
      exact h
    · rw [if_neg (fun h1 => hc ((abs_gt_comm a b).mp h1))] at h
      rw [if_neg hc]
      exact h

/-- Witness for C2: the two points of the counterexample. -/
theorem float32_draw_line_reverse_near_witness :
    ∃ (s' t' : Trace) (ws vs : List ivec2),
      float32.draw_line 6 ⟨1, 1⟩ ⟨0, 7⟩ ⟨255, 255, 255⟩ ⟨[], [], []⟩ = some s' ∧
      float32.draw_line 6 ⟨0, 7⟩ ⟨1, 1⟩ ⟨255, 255, 255⟩ ⟨[], [], []⟩ = some t' ∧
      s'.pixels = ws.map (fun p => (p, (⟨255, 255, 255⟩ : ivec3))) ∧
      t'.pixels = vs.map (fun p => (p, (⟨255, 255, 255⟩ : ivec3))) ∧
      ws.length = vs.length ∧
      (∀ p ∈ ws, ∃ q ∈ vs, q.y = p.y ∧ |q.x - p.x| ≤ 1) ∧
      (∀ q ∈ vs, ∃ p ∈ ws, p.y = q.y ∧ |p.x - q.x| ≤ 1) := by
  obtain ⟨s', t', ws, vs, h1, h2, h3, h4, h5, h6, h7⟩ :=
    float32_draw_line_reverse_near ⟨1, 1⟩ ⟨0, 7⟩ ⟨255, 255, 255⟩ ⟨[], [], []⟩ ⟨[], [], []⟩ 0 0
      ⟨by decide, by decide⟩ ⟨by decide, by decide⟩
  have hc : ¬ |(0 : Int) - 1| > |(7 : Int) - 1| := by decide
  simp only [if_neg hc] at h6 h7
  exact ⟨s', t', ws, vs, h1, h2, by simpa using h3, by simpa using h4, h5, h6, h7⟩

/-- C17, counterexample: on the segment from (0,0) to (3,2) the loop writes
the pixel (1, 0), although the ordinate of the line at `x = 1` is `2/3`,
whose nearest integer is 1. -/
theorem float32_draw_line_truncates :
    (float32.draw_line 3 ⟨0, 0⟩ ⟨3, 2⟩ ⟨255, 255, 255⟩ ⟨[], [], []⟩).map
      (fun s' => s'.pixels.map (fun w => w.1)) =
      some [⟨0, 0⟩, ⟨1, 0⟩, ⟨2, 1⟩, ⟨3, 2⟩] ∧
    ((2 : Int) : ℚ) / ((3 : Int) : ℚ) * ((1 : Int) : ℚ) +
      (((0 : Int) : ℚ) - ((2 : Int) : ℚ) / ((3 : Int) : ℚ) * ((0 : Int) : ℚ)) = 2 / 3 ∧
    round ((2 : ℚ) / 3) = 1 ∧
    ¬ (|((0 : Int) : ℚ) - 2 / 3| ≤ 1 / 2) := by
  refine ⟨by decide!, by norm_num, ?_, ?_⟩
  · rw [round_eq]
    exact Int.floor_eq_iff.mpr ⟨by norm_num, by norm_num⟩
  · rw [abs_le]
    norm_num

/-- The pixel need not be the truncation of the exact ordinate either: on the
segment from (1,2) to (4,1) the first pixel is (1,1), although the exact
ordinate at `x = 1` is 2; the `float` ordinate is `1.9999999`. -/
theorem float32_draw_line_below_exact :
    (float32.draw_line 3 ⟨1, 2⟩ ⟨4, 1⟩ ⟨255, 255, 255⟩ ⟨[], [], []⟩).map
      (fun s' => s'.pixels.map (fun w => w.1)) =
      some [⟨1, 1⟩, ⟨2, 1⟩, ⟨3, 1⟩, ⟨4, 1⟩] ∧
    float32.line_value 1 2 (4 - 1) (1 - 2) 1 = 16777215 / 8388608 ∧
    line_value 1 2 (4 - 1) (1 - 2) 1 = 2 := by
  refine ⟨by decide!, by decide!, ?_⟩
  unfold line_value
  norm_num

theorem float32_mem_line_body (start end_ p : ivec2)
    (hp : p ∈ (List.range (float32.line_steps start end_)).map
      (float32.line_point start end_)) :
    ∃ i, i < float32.line_steps start end_ ∧ p = float32.line_point start end_ i := by
  rw [List.mem_map] at hp
  obtain ⟨i, hi, rfl⟩ := hp
  exact ⟨i, List.mem_range.mp hi, rfl⟩

/-- C17, amended: for points with coordinates of magnitude at most 1024 and
`|dx| > |dy|`, each pixel `(x, y)` written inside the loop of `draw_line` has
`y` equal to the truncation toward zero of the `float` value of
`slope * x + pitch`, computed in binary32 with `slope = dy / dx` and
`pitch = start.y - slope * start.x`, and this `float` value is within
`3 / 8192` of the exact ordinate `dy / dx * x + (start.y - dy / dx * start.x)`;
symmetrically when `|dx| ≤ |dy|`. -/
theorem float32_draw_line_loop_pixels (start end_ : ivec2) (colour : ivec3) (s : Trace)
    (k : Nat) (hs : small_point start) (he : small_point end_) :
    ∃ (s' : Trace) (body : List ivec2),
      float32.draw_line (max (end_.x - start.x).natAbs (end_.y - start.y).natAbs + k)
        start end_ colour s = some s' ∧
      s'.pixels = s.pixels ++ (body ++ [end_]).map (fun p => (p, colour)) ∧
      body.length = max (end_.x - start.x).natAbs (end_.y - start.y).natAbs ∧
      (if |end_.x - start.x| > |end_.y - start.y| then
        ∀ p ∈ body,
          p.y = float_to_int
            (float_add
              (float_mul (float_div (float_of_int (end_.y - start.y))
                (float_of_int (end_.x - start.x))) (float_of_int p.x))
              (float_sub (float_of_int start.y)
                (float_mul (float_div (float_of_int (end_.y - start.y))
                  (float_of_int (end_.x - start.x))) (float_of_int start.x)))) ∧
          |float_add
              (float_mul (float_div (float_of_int (end_.y - start.y))
                (float_of_int (end_.x - start.x))) (float_of_int p.x))
              (float_sub (float_of_int start.y)
                (float_mul (float_div (float_of_int (end_.y - start.y))
                  (float_of_int (end_.x - start.x))) (float_of_int start.x))) -
            (((end_.y - start.y : Int) : ℚ) / ((end_.x - start.x : Int) : ℚ) * (p.x : ℚ) +
              ((start.y : ℚ) -
                ((end_.y - start.y : Int) : ℚ) / ((end_.x - start.x : Int) : ℚ) *
                  (start.x : ℚ)))| ≤ 3 / 8192
      else
        ∀ p ∈ body,
          p.x = float_to_int
            (float_add
              (float_mul (float_div (float_of_int (end_.x - start.x))
                (float_of_int (end_.y - start.y))) (float_of_int p.y))
              (float_sub (float_of_int start.x)
                (float_mul (float_div (float_of_int (end_.x - start.x))
                  (float_of_int (end_.y - start.y))) (float_of_int start.y)))) ∧
          |float_add
              (float_mul (float_div (float_of_int (end_.x - start.x))
                (float_of_int (end_.y - start.y))) (float_of_int p.y))
              (float_sub (float_of_int start.x)
                (float_mul (float_div (float_of_int (end_.x - start.x))
                  (float_of_int (end_.y - start.y))) (float_of_int start.y))) -
            (((end_.x - start.x : Int) : ℚ) / ((end_.y - start.y : Int) : ℚ) * (p.y : ℚ) +
              ((start.x : ℚ) -
                ((end_.x - start.x : Int) : ℚ) / ((end_.y - start.y : Int) : ℚ) *
                  (start.y : ℚ)))| ≤ 3 / 8192) := by
  obtain ⟨hdx, hdy⟩ := small_point_diff start end_ hs he
  have hxe : start.x + (end_.x - start.x) = end_.x := by ring
  have hye : start.y + (end_.y - start.y) = end_.y := by ring
  have hex : |start.x + (end_.x - start.x)| ≤ 1024 := by rw [hxe]; exact he.1
  have hey : |start.y + (end_.y - start.y)| ≤ 1024 := by rw [hye]; exact he.2
  have hst := float32_line_steps_eq start end_ hdx hdy
  refine ⟨_, (List.range (float32.line_steps start end_)).map (float32.line_point start end_),
    float32_draw_line_of_le start end_ colour s _ (Nat.le_add_right _ _), rfl, ?_, ?_⟩
  · simp [hst, line_steps]
  · split
    next h =>
      have hd := (float32_x_dominant_iff start end_ hdx hdy).mpr h
      intro p hp
      obtain ⟨i, hi, rfl⟩ := float32_mem_line_body start end_ p hp
      rw [float32_line_steps_x hd] at hi
      have hne : end_.x - start.x ≠ 0 := by
        intro h0
        rw [h0] at hi
        simp at hi
      rw [float32_line_point_x _ _ _ hd]
      exact ⟨rfl, float32_line_value_accuracy_at start.x start.y _ _ i (le_of_lt hi) hne
        (le_of_lt h) hs.1 hs.2 hex hey⟩
    next h =>
      have hd : ¬ float32.x_dominant start end_ :=
        fun h' => h ((float32_x_dominant_iff start end_ hdx hdy).mp h')
      intro p hp
      obtain ⟨i, hi, rfl⟩ := float32_mem_line_body start end_ p hp
      rw [float32_line_steps_y hd] at hi
      have hne : end_.y - start.y ≠ 0 := by
        intro h0
        rw [h0] at hi
        simp at hi
      rw [float32_line_point_y _ _ _ hd]
      exact ⟨rfl, float32_line_value_accuracy_at start.y start.x _ _ i (le_of_lt hi) hne
        (not_lt.mp h) hs.2 hs.1 hey hex⟩

/-- Witness for C17: the segment of the counterexample, from (0,0) to (3,2). -/
theorem float32_draw_line_loop_pixels_witness :
    ∃ (s' : Trace) (body : List ivec2),
      float32.draw_line 3 ⟨0, 0⟩ ⟨3, 2⟩ ⟨255, 255, 255⟩ ⟨[], [], []⟩ = some s' ∧
      s'.pixels = (body ++ [(⟨3, 2⟩ : ivec2)]).map (fun p => (p, (⟨255, 255, 255⟩ : ivec3))) ∧
      body.length = 3 ∧
      ∀ p ∈ body,
        p.y = float_to_int
          (float_add
            (float_mul (float_div (float_of_int (2 - 0)) (float_of_int (3 - 0)))
              (float_of_int p.x))
            (float_sub (float_of_int 0)
              (float_mul (float_div (float_of_int (2 - 0)) (float_of_int (3 - 0)))
                (float_of_int 0)))) ∧
        |float_add
            (float_mul (float_div (float_of_int (2 - 0)) (float_of_int (3 - 0)))
              (float_of_int p.x))
            (float_sub (float_of_int 0)
              (float_mul (float_div (float_of_int (2 - 0)) (float_of_int (3 - 0)))
                (float_of_int 0))) -
          ((((2 : Int) - 0 : Int) : ℚ) / (((3 : Int) - 0 : Int) : ℚ) * (p.x : ℚ) +
            ((((0 : Int) : ℚ)) -
              (((2 : Int) - 0 : Int) : ℚ) / (((3 : Int) - 0 : Int) : ℚ) *
                ((0 : Int) : ℚ)))| ≤ 3 / 8192 := by
  obtain ⟨s', body, h1, h2, h3, h4⟩ :=
    float32_draw_line_loop_pixels ⟨0, 0⟩ ⟨3, 2⟩ ⟨255, 255, 255⟩ ⟨[], [], []⟩ 0
      ⟨by decide, by decide⟩ ⟨by decide, by decide⟩
  have hc : |(3 : Int) - 0| > |(2 : Int) - 0| := by decide
  rw [if_pos hc] at h4
  exact ⟨s', body, h1, by simpa using h2, h3, h4⟩

/-- C19, counterexample: the line from (1,8) to (2,1) is drawn through (0,8),
which is outside the bounding box, whose abscissas are 1 and 2. -/
theorem float32_draw_line_leaves_box :
    (float32.draw_line 7 ⟨1, 8⟩ ⟨2, 1⟩ ⟨255, 255, 255⟩ ⟨[], [], []⟩).map
      (fun s' => s'.pixels.map (fun w => w.1)) =
    some [⟨0, 8⟩, ⟨1, 7⟩, ⟨1, 6⟩, ⟨1, 5⟩, ⟨1, 4⟩, ⟨1, 3⟩, ⟨1, 2⟩, ⟨2, 1⟩] ∧
    ¬ (min (1 : Int) 2 ≤ (⟨0, 8⟩ : ivec2).x) := by
  refine ⟨by decide!, by decide⟩

theorem float32_line_points_in_box_one (start end_ p : ivec2) (hs : small_point start)
    (he : small_point end_) (hp : p ∈ float32.line_points start end_) :
    min start.x end_.x - 1 ≤ p.x ∧ p.x ≤ max start.x end_.x + 1 ∧
      min start.y end_.y - 1 ≤ p.y ∧ p.y ≤ max start.y end_.y + 1 := by
  have h := float32_line_points_in_box start end_ p hs he hp
  split at h <;> omega

theorem float32_triangle_result_pixels (p1 p2 p3 : ivec2) (colour : ivec3) (s : Trace) :
    (float32.triangle_result p1 p2 p3 colour s).pixels =
      s.pixels ++ (float32.line_points p1 p2 ++
        (float32.line_points p2 p3 ++ float32.line_points p3 p1)).map
          (fun p => (p, colour)) := by
  simp [float32.triangle_result, float32.line_result]

/-- C19, amended: for points with coordinates of magnitude at most 1024, every
pixel written by `draw_line` lies in the bounding box of `start` and `end_`
enlarged by one pixel on the axis that is not the dominant one; every pixel
written by `draw_triangle` lies in the bounding box of its three vertices
enlarged by one pixel; and every pixel written by `draw_rectangle` lies in the
box spanned by `position` and `position + dimensions`, when the coordinates
of its sides have magnitude at most `2 ^ 24`. -/
theorem float32_draw_line_bounding_box (k : Nat) (colour : ivec3) (s : Trace) :
    (∀ start end_ : ivec2, small_point start → small_point end_ →
      ∃ (s' : Trace) (ws : List ivec2),
        float32.draw_line (max (end_.x - start.x).natAbs (end_.y - start.y).natAbs + k)
          start end_ colour s = some s' ∧
        s'.pixels = s.pixels ++ ws.map (fun p => (p, colour)) ∧
        ∀ p ∈ ws,
          (if |end_.x - start.x| > |end_.y - start.y| then
            min start.x end_.x ≤ p.x ∧ p.x ≤ max start.x end_.x ∧
            min start.y end_.y - 1 ≤ p.y ∧ p.y ≤ max start.y end_.y + 1
          else
            min start.x end_.x - 1 ≤ p.x ∧ p.x ≤ max start.x end_.x + 1 ∧
            min start.y end_.y ≤ p.y ∧ p.y ≤ max start.y end_.y)) ∧
    (∀ p1 p2 p3 : ivec2, small_point p1 → small_point p2 → small_point p3 →
      ∃ (s' : Trace) (ws : List ivec2),
        float32.draw_triangle (triangle_fuel p1 p2 p3 + k) p1 p2 p3 colour s = some s' ∧
        s'.pixels = s.pixels ++ ws.map (fun p => (p, colour)) ∧
        ∀ p ∈ ws, min p1.x (min p2.x p3.x) - 1 ≤ p.x ∧ p.x ≤ max p1.x (max p2.x p3.x) + 1 ∧
          min p1.y (min p2.y p3.y) - 1 ≤ p.y ∧ p.y ≤ max p1.y (max p2.y p3.y) + 1) ∧
    (∀ dimensions position : ivec2, |position.x| ≤ 2 ^ 24 →
      |position.x + dimensions.x| ≤ 2 ^ 24 → |position.y| ≤ 2 ^ 24 →
      |position.y + dimensions.y| ≤ 2 ^ 24 →
      ∃ (s' : Trace) (ws : List ivec2),
        float32.draw_rectangle (max dimensions.x.natAbs dimensions.y.natAbs + k) dimensions
          position colour s = some s' ∧
        s'.pixels = s.pixels ++ ws.map (fun p => (p, colour)) ∧
        ∀ p ∈ ws, min position.x (position.x + dimensions.x) ≤ p.x ∧
          p.x ≤ max position.x (position.x + dimensions.x) ∧
          min position.y (position.y + dimensions.y) ≤ p.y ∧
          p.y ≤ max position.y (position.y + dimensions.y)) := by
  refine ⟨?_, ?_, ?_⟩
  · intro start end_ hs he
    exact ⟨_, float32.line_points start end_,
      float32_draw_line_of_le start end_ colour s _ (Nat.le_add_right _ _), rfl,
      fun p hp => float32_line_points_in_box start end_ p hs he hp⟩
  · intro p1 p2 p3 h1 h2 h3
    refine ⟨_, float32.line_points p1 p2 ++
        (float32.line_points p2 p3 ++ float32.line_points p3 p1),
      float32_draw_triangle_eq_result p1 p2 p3 colour s _ (Nat.le_add_right _ _),
      float32_triangle_result_pixels p1 p2 p3 colour s, ?_⟩
    intro p hp
    rw [List.mem_append, List.mem_append] at hp
    rcases hp with hp | hp | hp
    · have := float32_line_points_in_box_one _ _ p h1 h2 hp
      omega
    · have := float32_line_points_in_box_one _ _ p h2 h3 hp
      omega
    · have := float32_line_points_in_box_one _ _ p h3 h1 hp
      omega
  · intro dimensions position hx0 hx1 hy0 hy1
    refine ⟨_, line_points position ⟨position.x + dimensions.x, position.y⟩ ++
        (line_points ⟨position.x + dimensions.x, position.y⟩
          ⟨position.x + dimensions.x, position.y + dimensions.y⟩ ++
        (line_points ⟨position.x + dimensions.x, position.y + dimensions.y⟩
          ⟨position.x, position.y + dimensions.y⟩ ++
        line_points ⟨position.x, position.y + dimensions.y⟩ position)),
      float32_draw_rectangle_eq_result dimensions position colour s _
        (Nat.le_add_right _ _), ?_, ?_⟩
    · rw [float32_rectangle_result_pixels_eq _ _ _ _ hx0 hx1 hy0 hy1]
      simp [rectangle_result, line_result]
    · intro p hp
      rw [List.mem_append, List.mem_append, List.mem_append] at hp
      rcases hp with hp | hp | hp | hp
      · have := line_points_in_box _ _ p hp
        simp only at this
        omega
      · have := line_points_in_box _ _ p hp
        simp only at this
        omega
      · have := line_points_in_box _ _ p hp
        simp only at this
        omega
      · have := line_points_in_box _ _ p hp
        simp only at this
        omega

/-- Witness for C19: the line of the counterexample, from (1,8) to (2,1); its
pixels have abscissas from 0 to 3 and ordinates from 1 to 8. -/
theorem float32_draw_line_bounding_box_witness :
    ∃ (s' : Trace) (ws : List ivec2),
      float32.draw_line 7 ⟨1, 8⟩ ⟨2, 1⟩ ⟨255, 255, 255⟩ ⟨[], [], []⟩ = some s' ∧
      s'.pixels = ws.map (fun p => (p, (⟨255, 255, 255⟩ : ivec3))) ∧
      ∀ p ∈ ws, 0 ≤ p.x ∧ p.x ≤ 3 ∧ 1 ≤ p.y ∧ p.y ≤ 8 := by
  obtain ⟨s', ws, h1, h2, h3⟩ :=
    (float32_draw_line_bounding_box 0 ⟨255, 255, 255⟩ ⟨[], [], []⟩).1 ⟨1, 8⟩ ⟨2, 1⟩
      ⟨by decide, by decide⟩ ⟨by decide, by decide⟩
  refine ⟨s', ws, h1, by simpa using h2, ?_⟩
  intro p hp
  have h := h3 p hp
  have hc : ¬ |(2 : Int) - 1| > |(1 : Int) - 8| := by decide
  rw [if_neg hc] at h
  simp only [show min (1 : Int) 2 = 1 by decide, show max (1 : Int) 2 = 2 by decide,
    show min (8 : Int) 1 = 1 by decide, show max (8 : Int) 1 = 8 by decide] at h
  omega

theorem float32_polyline_eq_result (colour : ivec3) (fuel : Nat)
    (calls : List (ivec2 × ivec2)) :
    ∀ s : Trace, polyline_fuel calls ≤ fuel →
      calls.foldlM (fun t c => float32.draw_line fuel c.1 c.2 colour t) s =
        some (float32.polyline_result colour calls s) := by
  induction calls with
  | nil => intro s _; rfl
  | cons c cs ih =>
    intro s h
    simp only [polyline_fuel] at h
    rw [List.foldlM_cons, float32_draw_line_of_le _ _ _ _ _ (by omega)]
    exact ih _ (by omega)

theorem float32_polyline_result_pixels (colour : ivec3) (calls : List (ivec2 × ivec2)) :
    ∀ s : Trace, (float32.polyline_result colour calls s).pixels =
      s.pixels ++ (calls.flatMap fun c => float32.line_points c.1 c.2).map
        (fun p => (p, colour)) := by
  induction calls with
  | nil => intro s; simp [float32.polyline_result]
  | cons c cs ih =>
    intro s
    simp only [float32.polyline_result, ih, float32.line_result, List.flatMap_cons,
      List.map_append, List.append_assoc]

theorem float32_polyline_result_divisions (colour : ivec3) (calls : List (ivec2 × ivec2)) :
    ∀ s : Trace, (float32.polyline_result colour calls s).divisions =
      s.divisions ++ calls.map fun c => float32.line_division c.1 c.2 := by
  induction calls with
  | nil => intro s; simp [float32.polyline_result]
  | cons c cs ih =>
    intro s
    simp only [float32.polyline_result, ih, float32.line_result, List.map_cons,
      List.append_assoc, List.singleton_append]

/-- If the loop variable passes the test `t < 1` exactly `n` times, the loop
of `draw_curve` makes the `n` calls of `draw_line` that join the sampled
points. -/
theorem float32_draw_curve_loop_eq (powf : ℚ → ℚ → ℚ) (fuel : Nat)
    (start end_ control : ivec2) (colour : ivec3) (n : Nat) :
    ∀ (N : Nat) (t : ℚ) (last : ivec2) (s : Trace), n ≤ N →
      (∀ u ∈ float32.curve_parameters n t, u < 1) →
      ¬ float32.curve_parameter_after n t < 1 →
      float32.draw_curve_loop powf fuel start end_ control colour N t last s =
        (polyline_calls last ((float32.curve_parameters n t).map
          (float32.curve_point powf start end_ control))).foldlM
          (fun t c => float32.draw_line fuel c.1 c.2 colour t) s := by
  induction n with
  | zero =>
    intro N t last s _ _ hend
    simp only [float32.curve_parameter_after] at hend
    cases N <;> simp [float32.draw_curve_loop, hend, float32.curve_parameters, polyline_calls]
  | succ n ih =>
    intro N t last s hN hall hend
    obtain ⟨M, rfl⟩ : ∃ M, N = M + 1 := ⟨N - 1, by omega⟩
    have ht : t < 1 := hall t (by simp [float32.curve_parameters])
    simp only [float32.draw_curve_loop, if_pos ht, float32.curve_parameters, List.map_cons,
      polyline_calls, List.foldlM_cons]
    cases h : float32.draw_line fuel last
        ⟨float_to_int (float32.curve_lerp powf (float_of_int start.x) (float_of_int end_.x)
            (float_of_int control.x) t),
          float_to_int (float32.curve_lerp powf (float_of_int start.y) (float_of_int end_.y)
            (float_of_int control.y) t)⟩ colour s with
    | none => simp [float32.curve_point, h]
    | some s1 =>
      simp only [float32.curve_point, h, Option.bind_eq_bind, Option.some_bind]
      exact ih M _ _ s1 (by omega)
        (fun u hu => hall u (by simp [float32.curve_parameters, hu])) hend

theorem float32_curve_parameters_length (n : Nat) :
    ∀ t : ℚ, (float32.curve_parameters n t).length = n := by
  induction n with
  | zero => intro t; rfl
  | succ n ih => intro t; simp [float32.curve_parameters, ih]

/-- In binary32 arithmetic the loop variable of `draw_curve` passes the test
`t < 1` exactly 101 times: after 100 additions of `0.01f` it is
`16777205 / 2 ^ 24`, about `0.99999934`, and after 101 it is not below 1. Each
of the 101 values is within `2 ^ (-20)` of a multiple of `1 / 100`, and none
is negative. -/
theorem float32_curve_parameters_count :
    (∀ u ∈ float32.curve_parameters 101 0, u < 1) ∧
    ¬ float32.curve_parameter_after 101 0 < 1 ∧
    float32.curve_parameter_after 100 0 = 16777205 / 16777216 ∧
    (float32.curve_parameters 101 0).getLast? = some (16777205 / 16777216) ∧
    (∀ p ∈ (List.range 101).zip (float32.curve_parameters 101 0),
      |p.2 - (p.1 : ℚ) / 100| ≤ 1 / 2 ^ 20) ∧
    ∀ u ∈ float32.curve_parameters 101 0, 0 ≤ u := by
  decide!

/-- If the loop variable passes the test `t < 1` exactly `n` times,
`draw_curve` returns with enough fuel, and makes the `n` calls of `draw_line`
that join `start` to the sampled points. -/
theorem float32_draw_curve_of_parameters (powf : ℚ → ℚ → ℚ) (n : Nat)
    (hall : ∀ u ∈ float32.curve_parameters n 0, u < 1)
    (hend : ¬ float32.curve_parameter_after n 0 < 1)
    (start end_ control : ivec2) (colour : ivec3) (s : Trace) :
    (∀ k : Nat, float32.draw_curve powf
      (max n (polyline_fuel (polyline_calls start ((float32.curve_parameters n 0).map
        (float32.curve_point powf start end_ control)))) + k) start end_ control colour s =
      some (float32.polyline_result colour (polyline_calls start
        ((float32.curve_parameters n 0).map
          (float32.curve_point powf start end_ control))) s)) ∧
    (∀ k : Nat, float32.draw_curve powf (n + k) start end_ control colour s =
      (polyline_calls start ((float32.curve_parameters n 0).map
        (float32.curve_point powf start end_ control))).foldlM
        (fun t c => float32.draw_line (n + k) c.1 c.2 colour t) s) := by
  constructor
  · intro k
    unfold float32.draw_curve
    rw [float32_draw_curve_loop_eq powf _ start end_ control colour n _ 0 start s (by omega)
      hall hend]
    exact float32_polyline_eq_result colour _ _ s (by omega)
  · intro k
    unfold float32.draw_curve
    exact float32_draw_curve_loop_eq powf _ start end_ control colour n _ 0 start s (by omega)
      hall hend

/-- At `t = 0` the value of `curve_lerp` is its first argument, when
`std::pow` returns 1 for the base 1 and 0 for the base 0. -/
theorem float32_curve_lerp_zero (powf : ℚ → ℚ → ℚ) (a : Int) (b c : ℚ)
    (hp1 : powf 1 2 = 1) (hp0 : powf 0 2 = 0) (ha : |a| ≤ 2 ^ 24) :
    float32.curve_lerp powf (float_of_int a) b c 0 = (a : ℚ) := by
  simp only [float32.curve_lerp, float_sub, float_mul, float_add, sub_zero,
    binary32_round_one, hp1, hp0, one_mul, mul_zero, zero_mul, binary32_round_zero, add_zero,
    float_of_int_exact a ha, binary32_round_int a ha]

theorem float32_curve_point_zero (powf : ℚ → ℚ → ℚ) (start end_ control : ivec2)
    (hp1 : powf 1 2 = 1) (hp0 : powf 0 2 = 0) (hs : binary32_point start) :
    float32.curve_point powf start end_ control 0 = start := by
  unfold float32.curve_point
  rw [float32_curve_lerp_zero powf _ _ _ hp1 hp0 hs.1,
    float32_curve_lerp_zero powf _ _ _ hp1 hp0 hs.2, float_to_int_intCast,
    float_to_int_intCast]

theorem rounded_square_one : rounded_square 1 2 = 1 := by
  unfold rounded_square
  rw [mul_one, binary32_round_one]

theorem rounded_square_zero : rounded_square 0 2 = 0 := by
  unfold rounded_square
  rw [mul_zero, binary32_round_zero]

/-- The value `curve_lerp(50, 750, 400, 0.01f)` is `57.0000038`, more than 57,
although the exact polynomial at `0.01f` is less than 57. -/
theorem float32_curve_lerp_example :
    float32.curve_lerp rounded_square (float_of_int 50) (float_of_int 750) (float_of_int 400)
      float_0_01 = 14942209 / 262144 ∧
    (1 - float_0_01) ^ 2 * 50 + 400 * 2 * float_0_01 * (1 - float_0_01) +
      float_0_01 ^ 2 * 750 < 57 := by
  constructor
  · decide!
  · unfold float_0_01
    norm_num

/-- Two of the 101 points that `draw_curve` samples on the curve from (50,50)
to (750,550) with the control point (400,300): the second, at `t = 0.01f`, is
(57, 55), and the last, at `t = 16777205 / 2 ^ 24`, is (749, 549), not the end
point (750, 550). -/
theorem float32_draw_curve_main_samples :
    float32.curve_parameters 2 0 = [0, float_0_01] ∧
    float32.curve_point rounded_square ⟨50, 50⟩ ⟨750, 550⟩ ⟨400, 300⟩ float_0_01 = ⟨57, 55⟩ ∧
    float32.curve_point rounded_square ⟨50, 50⟩ ⟨750, 550⟩ ⟨400, 300⟩
      (16777205 / 16777216) = ⟨749, 549⟩ := by
  decide!

theorem binary32_round_eq (q : ℚ) :
    binary32_round q =
      (if q < 0 then -((binary32_significand (binary32_magnitude |q|) : Nat) : ℚ)
        else ((binary32_significand (binary32_magnitude |q|) : Nat) : ℚ)) / 2 ^ 151 := rfl

theorem round_to_even_bounds (m S : Nat) :
    m / 2 ^ S * 2 ^ S ≤ round_to_even m S ∧ round_to_even m S ≤ (m / 2 ^ S + 1) * 2 ^ S := by
  unfold round_to_even
  have h : m / 2 ^ S * 2 ^ S ≤ (m / 2 ^ S + 1) * 2 ^ S :=
    Nat.mul_le_mul_right _ (Nat.le_succ _)
  simp only
  split_ifs <;> exact ⟨by first | exact le_refl _ | exact h, by first | exact le_refl _ | exact h⟩

theorem round_to_even_mono (S : Nat) {m1 m2 : Nat} (h : m1 ≤ m2) :
    round_to_even m1 S ≤ round_to_even m2 S := by
  have hp : 0 < 2 ^ S := by positivity
  have hq : m1 / 2 ^ S ≤ m2 / 2 ^ S := Nat.div_le_div_right h
  rcases Nat.lt_or_ge (m1 / 2 ^ S) (m2 / 2 ^ S) with hlt | hge
  · calc round_to_even m1 S ≤ (m1 / 2 ^ S + 1) * 2 ^ S := (round_to_even_bounds m1 S).2
      _ ≤ m2 / 2 ^ S * 2 ^ S := Nat.mul_le_mul_right _ hlt
      _ ≤ round_to_even m2 S := (round_to_even_bounds m2 S).1
  · have heq : m1 / 2 ^ S = m2 / 2 ^ S := le_antisymm hq hge
    have e1 := Nat.div_add_mod m1 (2 ^ S)
    have e2 := Nat.div_add_mod m2 (2 ^ S)
    rw [heq] at e1
    have hr : m1 % 2 ^ S ≤ m2 % 2 ^ S := by omega
    have hstep : m2 / 2 ^ S * 2 ^ S ≤ (m2 / 2 ^ S + 1) * 2 ^ S :=
      Nat.mul_le_mul_right _ (Nat.le_succ _)
    unfold round_to_even
    simp only
    rw [heq]
    generalize m1 % 2 ^ S = r1 at hr ⊢
    generalize m2 % 2 ^ S = r2 at hr ⊢
    generalize 2 ^ S = P at hstep ⊢
    split_ifs <;> first | exact le_refl _ | exact hstep | (exfalso; omega)

theorem significand_shift_mono (fuel : Nat) : ∀ {n1 n2 : Nat}, n1 ≤ n2 →
    significand_shift fuel n1 ≤ significand_shift fuel n2 := by
  induction fuel with
  | zero => intro n1 n2 _; simp [significand_shift]
  | succ fuel ih =>
    intro n1 n2 h
    rw [significand_shift, significand_shift]
    by_cases h2 : n2 < 2 ^ 24
    · rw [if_pos h2, if_pos (lt_of_le_of_lt h h2)]
    · rw [if_neg h2]
      by_cases h1 : n1 < 2 ^ 24
      · rw [if_pos h1]
        exact Nat.zero_le _
      · rw [if_neg h1]
        exact Nat.succ_le_succ (ih (Nat.div_le_div_right h))

theorem significand_shift_upper (fuel : Nat) : ∀ n : Nat,
    significand_shift fuel n < fuel → n < 2 ^ (24 + significand_shift fuel n) := by
  induction fuel with
  | zero => intro n h; simp [significand_shift] at h
  | succ fuel ih =>
    intro n h
    rw [significand_shift] at h ⊢
    by_cases hn : n < 2 ^ 24
    · rw [if_pos hn]
      exact hn
    · rw [if_neg hn] at h ⊢
      have := ih (n / 2) (by omega)
      rw [show 24 + (significand_shift fuel (n / 2) + 1) =
        24 + significand_shift fuel (n / 2) + 1 by ring, pow_succ]
      omega

theorem significand_shift_le_fuel (fuel : Nat) : ∀ n : Nat, significand_shift fuel n ≤ fuel := by
  induction fuel with
  | zero => intro n; simp [significand_shift]
  | succ fuel ih =>
    intro n
    rw [significand_shift]
    split
    · exact Nat.zero_le _
    · exact Nat.succ_le_succ (ih _)

/-- The rounded significand is monotone in the magnitude. -/
theorem binary32_significand_mono {m1 m2 : Nat} (h : m1 ≤ m2) :
    binary32_significand m1 ≤ binary32_significand m2 := by
  unfold binary32_significand
  have hS := significand_shift_mono 256 h
  rcases Nat.lt_or_ge (max 2 (significand_shift 256 m1)) (max 2 (significand_shift 256 m2))
    with hlt | hge
  · have h2 : 2 < significand_shift 256 m2 := by omega
    have hS2 : max 2 (significand_shift 256 m2) = significand_shift 256 m2 := by omega
    have h12 : significand_shift 256 m1 < significand_shift 256 m2 := by omega
    have hcap := significand_shift_le_fuel 256 m2
    have hup := significand_shift_upper 256 m1 (by omega)
    have hlow := significand_shift_lower 256 m2 (by omega)
    rw [hS2] at hlt ⊢
    generalize significand_shift 256 m2 = S2 at *
    generalize hS1 : max 2 (significand_shift 256 m1) = S1 at *
    have hS1' : significand_shift 256 m1 ≤ S1 := by omega
    have hm1 : m1 < 2 ^ (24 + S1) :=
      lt_of_lt_of_le hup (Nat.pow_le_pow_right (by norm_num) (by omega))
    have hq1 : m1 / 2 ^ S1 < 2 ^ 24 := by
      rw [Nat.div_lt_iff_lt_mul (by positivity), ← pow_add]
      exact hm1
    have hq2 : 2 ^ 23 ≤ m2 / 2 ^ S2 := by
      rw [Nat.le_div_iff_mul_le (by positivity), ← pow_add]
      exact hlow
    calc round_to_even m1 S1 ≤ (m1 / 2 ^ S1 + 1) * 2 ^ S1 := (round_to_even_bounds m1 S1).2
      _ ≤ 2 ^ 24 * 2 ^ S1 := Nat.mul_le_mul_right _ hq1
      _ = 2 ^ (24 + S1) := by rw [pow_add]
      _ ≤ 2 ^ (23 + S2) := Nat.pow_le_pow_right (by norm_num) (by omega)
      _ = 2 ^ 23 * 2 ^ S2 := by rw [pow_add]
      _ ≤ m2 / 2 ^ S2 * 2 ^ S2 := Nat.mul_le_mul_right _ hq2
      _ ≤ round_to_even m2 S2 := (round_to_even_bounds m2 S2).1
  · have heq : max 2 (significand_shift 256 m1) = max 2 (significand_shift 256 m2) := by omega
    rw [heq]
    exact round_to_even_mono _ h

/-- The magnitude with its sticky bit is monotone. -/
theorem binary32_magnitude_mono {a b : ℚ} (ha : 0 ≤ a) (h : a ≤ b) :
    binary32_magnitude a ≤ binary32_magnitude b := by
  unfold binary32_magnitude
  have ha' : 0 ≤ a * 2 ^ 150 := mul_nonneg ha (by positivity)
  have hb' : 0 ≤ b * 2 ^ 150 := mul_nonneg (le_trans ha h) (by positivity)
  have hab : a * 2 ^ 150 ≤ b * 2 ^ 150 := by
    apply mul_le_mul_of_nonneg_right h
    positivity
  have hfl : ⌊a * 2 ^ 150⌋ ≤ ⌊b * 2 ^ 150⌋ := Int.floor_mono hab
  have hn : ⌊a * 2 ^ 150⌋.toNat ≤ ⌊b * 2 ^ 150⌋.toNat := Int.toNat_le_toNat hfl
  have hca : ((⌊a * 2 ^ 150⌋.toNat : Nat) : ℚ) = ((⌊a * 2 ^ 150⌋ : Int) : ℚ) := by
    have := Int.toNat_of_nonneg (Int.floor_nonneg.mpr ha')
    exact_mod_cast congrArg (Int.cast : Int → ℚ) this
  have hcb : ((⌊b * 2 ^ 150⌋.toNat : Nat) : ℚ) = ((⌊b * 2 ^ 150⌋ : Int) : ℚ) := by
    have := Int.toNat_of_nonneg (Int.floor_nonneg.mpr hb')
    exact_mod_cast congrArg (Int.cast : Int → ℚ) this
  rcases Nat.lt_or_ge ⌊a * 2 ^ 150⌋.toNat ⌊b * 2 ^ 150⌋.toNat with hlt | hge
  · split_ifs <;> omega
  · have heq : ⌊a * 2 ^ 150⌋.toNat = ⌊b * 2 ^ 150⌋.toNat := le_antisymm hn hge
    by_cases hb : ((⌊b * 2 ^ 150⌋.toNat : Nat) : ℚ) = b * 2 ^ 150
    · have hfa := Int.floor_le (a * 2 ^ 150)
      have : ((⌊a * 2 ^ 150⌋.toNat : Nat) : ℚ) = a * 2 ^ 150 := by
        apply le_antisymm
        · rw [hca]; exact hfa
        · rw [heq, hb]; exact hab
      rw [if_pos this, if_pos hb, heq]
    · rw [if_neg hb, heq]
      split_ifs <;> omega

/-- Rounding to binary32 is monotone. -/
theorem binary32_round_mono {q r : ℚ} (h : q ≤ r) : binary32_round q ≤ binary32_round r := by
  rw [binary32_round_eq, binary32_round_eq]
  have h2 : (0 : ℚ) < 2 ^ 151 := by positivity
  apply div_le_div_of_nonneg_right _ (le_of_lt h2)
  by_cases hq : q < 0
  · rw [if_pos hq]
    by_cases hr : r < 0
    · rw [if_pos hr, neg_le_neg_iff, Nat.cast_le]
      apply binary32_significand_mono
      apply binary32_magnitude_mono (abs_nonneg r)
      rw [abs_of_neg hq, abs_of_neg hr]
      linarith
    · rw [if_neg hr]
      have h1 : (0 : ℚ) ≤ ((binary32_significand (binary32_magnitude |q|) : Nat) : ℚ) :=
        Nat.cast_nonneg _
      have h3 : (0 : ℚ) ≤ ((binary32_significand (binary32_magnitude |r|) : Nat) : ℚ) :=
        Nat.cast_nonneg _
      linarith
  · have hq0 : 0 ≤ q := not_lt.mp hq
    have hr : ¬ r < 0 := not_lt.mpr (le_trans hq0 h)
    rw [if_neg hq, if_neg hr, Nat.cast_le]
    apply binary32_significand_mono
    apply binary32_magnitude_mono (abs_nonneg q)
    rw [abs_of_nonneg hq0, abs_of_nonneg (le_trans hq0 h)]
    exact h

/-- A binary32 rounding is not below an integer of magnitude at most `2 ^ 24`
that the exact value is not below. -/
theorem binary32_round_ge_int {q : ℚ} (n : Int) (hn : |n| ≤ 2 ^ 24) (h : (n : ℚ) ≤ q) :
    (n : ℚ) ≤ binary32_round q := by
  have := binary32_round_mono h
  rwa [binary32_round_int n hn] at this

/-- A binary32 rounding is not above an integer of magnitude at most `2 ^ 24`
that the exact value is not above. -/
theorem binary32_round_le_int {q : ℚ} (n : Int) (hn : |n| ≤ 2 ^ 24) (h : q ≤ (n : ℚ)) :
    binary32_round q ≤ (n : ℚ) := by
  have := binary32_round_mono h
  rwa [binary32_round_int n hn] at this

theorem abs_mul_sub_le {x x' y y' ex ey Bx By : ℚ} (h1 : |x - x'| ≤ ex) (h2 : |y - y'| ≤ ey)
    (hx : |x'| ≤ Bx) (hy : |y| ≤ By) : |x * y - x' * y'| ≤ ex * By + Bx * ey := by
  have e : x * y - x' * y' = (x - x') * y + x' * (y - y') := by ring
  rw [e]
  exact (abs_add _ _).trans (add_le_add (abs_mul_le_mul h1 hy) (abs_mul_le_mul hx h2))

theorem abs_le_of_near {x y e B : ℚ} (h : |x - y| ≤ e) (hy : |y| ≤ B) : |x| ≤ B + e := by
  have : x = y + (x - y) := by ring
  rw [this]
  exact (abs_add _ _).trans (add_le_add hy h)

theorem abs_add_sub_le {x y x' y' e1 e2 : ℚ} (h1 : |x - x'| ≤ e1) (h2 : |y - y'| ≤ e2) :
    |x + y - (x' + y')| ≤ e1 + e2 := by
  have : x + y - (x' + y') = (x - x') + (y - y') := by ring
  rw [this]
  exact (abs_add _ _).trans (add_le_add h1 h2)

/-- A rounding adds at most `2 ^ k / 2 ^ 25` to the error of a value of
magnitude at most `2 ^ k`. -/
theorem binary32_round_near {q x e : ℚ} (k : Nat) (h : |q - x| ≤ e) (hq : |q| ≤ 2 ^ k) :
    |binary32_round q - x| ≤ e + 2 ^ k / 2 ^ 25 := by
  have h1 := binary32_round_error q k hq
  have : binary32_round q - x = (binary32_round q - q) + (q - x) := by ring
  rw [this]
  exact (abs_add _ _).trans (by linarith)

/-- The value of `curve_lerp` in binary32 arithmetic is within `1 / 512` of
the exact polynomial `(1 - t)² a + 2 t (1 - t) c + t² b`, for `int` arguments
of magnitude at most 1024, a parameter `t` between 0 and 1 and a `std::pow`
that is within `2 ^ (-23)` of the square on bases of magnitude at most 1. -/
theorem float32_curve_lerp_accuracy (powf : ℚ → ℚ → ℚ) (a b c : Int) (t : ℚ)
    (hpow : ∀ x : ℚ, |x| ≤ 1 → |powf x 2 - x ^ 2| ≤ 1 / 2 ^ 23)
    (ha : |a| ≤ 1024) (hb : |b| ≤ 1024) (hc : |c| ≤ 1024) (ht0 : 0 ≤ t) (ht1 : t ≤ 1) :
    |float32.curve_lerp powf (float_of_int a) (float_of_int b) (float_of_int c) t -
      ((1 - t) ^ 2 * (a : ℚ) + 2 * t * (1 - t) * (c : ℚ) + t ^ 2 * (b : ℚ))| ≤ 1 / 512 := by
  have haq : |(a : ℚ)| ≤ 1024 := intCast_abs_le a 1024 ha
  have hbq : |(b : ℚ)| ≤ 1024 := intCast_abs_le b 1024 hb
  have hcq : |(c : ℚ)| ≤ 1024 := intCast_abs_le c 1024 hc
  have hta : |t| ≤ 1 := by rw [abs_le]; constructor <;> linarith
  have hUa : |1 - t| ≤ 1 := by rw [abs_le]; constructor <;> linarith
  -- the rounded difference `1 - t`
  have hu := binary32_round_error_one (1 - t) hUa
  have hu0 : (0 : ℚ) ≤ binary32_round (1 - t) := by
    have := binary32_round_ge_int (q := 1 - t) 0 (by norm_num) (by push_cast; linarith)
    simpa using this
  have hu1 : binary32_round (1 - t) ≤ 1 := by
    have := binary32_round_le_int (q := 1 - t) 1 (by norm_num) (by push_cast; linarith)
    simpa using this
  have hua : |binary32_round (1 - t)| ≤ 1 := by rw [abs_le]; constructor <;> linarith
  have hfa : float_of_int a = (a : ℚ) := float_of_int_exact a (le_trans ha (by norm_num))
  have hfb : float_of_int b = (b : ℚ) := float_of_int_exact b (le_trans hb (by norm_num))
  have hfc : float_of_int c = (c : ℚ) := float_of_int_exact c (le_trans hc (by norm_num))
  have hc2 : binary32_round ((c : ℚ) * 2) = (c : ℚ) * 2 := by
    have h2c : |c * 2| ≤ 2 ^ 24 := by
      rw [abs_mul]
      have : |(2 : Int)| = 2 := by norm_num
      rw [this]
      have := ha
      omega
    have := binary32_round_eq_int ((c : ℚ) * 2) (c * 2) (by push_cast; ring) h2c
    rw [this]
    push_cast
    ring
  unfold float32.curve_lerp float_add float_mul float_sub
  rw [hfa, hfb, hfc, hc2]
  generalize hu_def : binary32_round (1 - t) = u at hu hu0 hu1 hua
  have hP1 := hpow u hua
  have hP2 := hpow t hta
  generalize powf u 2 = P1 at hP1
  generalize powf t 2 = P2 at hP2
  -- squares
  have huu : |u * u - (1 - t) * (1 - t)| ≤ 1 / 33554432 * 1 + 1 * (1 / 33554432) :=
    abs_mul_sub_le hu hu hUa hua
  have hP1' : |P1 - (1 - t) * (1 - t)| ≤ 1 / 2 ^ 23 + (1 / 33554432 * 1 + 1 * (1 / 33554432)) := by
    have : P1 - (1 - t) * (1 - t) = (P1 - u ^ 2) + (u * u - (1 - t) * (1 - t)) := by ring
    rw [this]
    exact (abs_add _ _).trans (add_le_add hP1 huu)
  have hUU : |(1 - t) * (1 - t)| ≤ 1 * 1 := abs_mul_le_mul hUa hUa
  have htt : |t * t| ≤ 1 * 1 := abs_mul_le_mul hta hta
  have hP2' : |P2 - t * t| ≤ 1 / 2 ^ 23 := by
    rw [show t * t = t ^ 2 by ring]
    exact hP2
  have haa : |(a : ℚ) - (a : ℚ)| ≤ 0 := by simp
  have hbb : |(b : ℚ) - (b : ℚ)| ≤ 0 := by simp
  -- the first term
  have hA0 := abs_mul_sub_le hP1' haa hUU haq
  have hAx : |(1 - t) * (1 - t) * (a : ℚ)| ≤ 1 * 1 * 1024 := abs_mul_le_mul hUU haq
  have hA := binary32_round_near 11 hA0 (by
    have := abs_le_of_near hA0 hAx
    norm_num at this ⊢
    linarith)
  -- the second term
  have hct : |(c : ℚ) * 2 * t| ≤ 1024 * 2 * 1 := by
    apply abs_mul_le_mul _ hta
    rw [abs_mul]
    have : |(2 : ℚ)| = 2 := by norm_num
    rw [this]
    linarith
  have hB0 : |(c : ℚ) * 2 * t - (c : ℚ) * 2 * t| ≤ 0 := by simp
  have hB1 := binary32_round_near 11 hB0 (by norm_num at hct ⊢; linarith)
  have hB2 := abs_mul_sub_le hB1 hu hct hua
  have hBx : |(c : ℚ) * 2 * t * (1 - t)| ≤ 1024 * 2 * 1 * 1 := abs_mul_le_mul hct hUa
  have hB := binary32_round_near 12 hB2 (by
    have := abs_le_of_near hB2 hBx
    norm_num at this ⊢
    linarith)
  -- the first sum
  generalize binary32_round (P1 * (a : ℚ)) = A at hA
  generalize binary32_round (binary32_round ((c : ℚ) * 2 * t) * u) = B at hB
  have hAB0 := abs_add_sub_le hA hB
  have hABx : |(1 - t) * (1 - t) * (a : ℚ) + (c : ℚ) * 2 * t * (1 - t)| ≤
      1 * 1 * 1024 + 1024 * 2 * 1 * 1 := (abs_add _ _).trans (add_le_add hAx hBx)
  have hAB := binary32_round_near 12 hAB0 (by
    have := abs_le_of_near hAB0 hABx
    norm_num at this ⊢
    linarith)
  -- the third term
  have hC0 := abs_mul_sub_le hP2' hbb htt hbq
  have hCx : |t * t * (b : ℚ)| ≤ 1 * 1 * 1024 := abs_mul_le_mul htt hbq
  have hC := binary32_round_near 11 hC0 (by
    have := abs_le_of_near hC0 hCx
    norm_num at this ⊢
    linarith)
  generalize binary32_round (A + B) = AB at hAB
  generalize binary32_round (P2 * (b : ℚ)) = C at hC
  -- the second sum
  have hR0 := abs_add_sub_le hAB hC
  have hRx : |(1 - t) * (1 - t) * (a : ℚ) + (c : ℚ) * 2 * t * (1 - t) + t * t * (b : ℚ)| ≤
      1 * 1 * 1024 + 1024 * 2 * 1 * 1 + 1 * 1 * 1024 :=
    (abs_add _ _).trans (add_le_add hABx hCx)
  have hR := binary32_round_near 13 hR0 (by
    have := abs_le_of_near hR0 hRx
    norm_num at this ⊢
    linarith)
  have e : (1 - t) ^ 2 * (a : ℚ) + 2 * t * (1 - t) * (c : ℚ) + t ^ 2 * (b : ℚ) =
      (1 - t) * (1 - t) * (a : ℚ) + (c : ℚ) * 2 * t * (1 - t) + t * t * (b : ℚ) := by ring
  rw [e]
  refine le_trans hR ?_
  norm_num

theorem rounded_square_accuracy (x : ℚ) (hx : |x| ≤ 1) :
    |rounded_square x 2 - x ^ 2| ≤ 1 / 2 ^ 23 := by
  unfold rounded_square
  have h1 : |x * x| ≤ 1 := by
    have := abs_mul_le_mul hx hx
    linarith
  have := binary32_round_error_one (x * x) h1
  rw [show x ^ 2 = x * x by ring]
  refine le_trans this ?_
  norm_num

/-- C16, counterexample: for the curve from (50,50) to (750,550) with control
point (400,300), `draw_curve` makes 101 calls of `draw_line`, not 100: the run
equals a sequence of 101 calls, and the log of divisions, to which every call
of `draw_line` adds exactly one entry, has 101 entries. The loop variable,
0.01f being less than `1 / 100`, is still below 1 after 100 additions. -/
theorem float32_draw_curve_makes_101_calls :
    ∃ (fuel : Nat) (s' : Trace) (calls : List (ivec2 × ivec2)),
      float32.draw_curve rounded_square fuel ⟨50, 50⟩ ⟨750, 550⟩ ⟨400, 300⟩ ⟨255, 255, 0⟩
        ⟨[], [], []⟩ = some s' ∧
      float32.draw_curve rounded_square fuel ⟨50, 50⟩ ⟨750, 550⟩ ⟨400, 300⟩ ⟨255, 255, 0⟩
        ⟨[], [], []⟩ =
        calls.foldlM (fun t c => float32.draw_line fuel c.1 c.2 ⟨255, 255, 0⟩ t)
          ⟨[], [], []⟩ ∧
      calls.length = 101 ∧ s'.divisions.length = 101 ∧ s'.divisions.length ≠ 100 ∧
      float32.curve_parameter_after 100 0 < 1 := by
  obtain ⟨hall, hend, h100, _⟩ := float32_curve_parameters_count
  obtain ⟨h1, _⟩ := float32_draw_curve_of_parameters rounded_square 101 hall hend ⟨50, 50⟩
    ⟨750, 550⟩ ⟨400, 300⟩ ⟨255, 255, 0⟩ ⟨[], [], []⟩
  have hlen : (polyline_calls (⟨50, 50⟩ : ivec2) ((float32.curve_parameters 101 0).map
      (float32.curve_point rounded_square ⟨50, 50⟩ ⟨750, 550⟩ ⟨400, 300⟩))).length = 101 := by
    rw [polyline_calls_length, List.length_map, float32_curve_parameters_length]
  have hdiv : (float32.polyline_result ⟨255, 255, 0⟩ (polyline_calls (⟨50, 50⟩ : ivec2)
      ((float32.curve_parameters 101 0).map
        (float32.curve_point rounded_square ⟨50, 50⟩ ⟨750, 550⟩ ⟨400, 300⟩)))
      ⟨[], [], []⟩).divisions.length = 101 := by
    rw [float32_polyline_result_divisions, List.length_append, List.length_map, hlen]
    rfl
  refine ⟨_, _, _, h1 0, ?_, hlen, hdiv, ?_, ?_⟩
  · rw [h1 0]
    exact (float32_polyline_eq_result _ _ _ _ (by omega)).symm
  · rw [hdiv]
    decide
  · rw [h100]
    norm_num

/-- C16, amended: in binary32 arithmetic `draw_curve` returns with enough fuel
after exactly 101 calls of `draw_line`, because `0.01f` is less than `1 / 100`
and the loop variable is still below 1 after 100 additions. The calls join
`start` to the 101 samples of the curve, each call starting where the previous
one ended. The samples are taken at the 101 values of the loop variable, the
`k`-th of which is within `2 ^ (-20)` of `k / 100` and the last of which is
`16777205 / 2 ^ 24`, below 1; each coordinate of a sample is the truncation
of the `float` value of `curve_lerp`, which is within `1 / 512` of the exact
polynomial `(1 - t)² start + 2 t (1 - t) control + t² end`. The first sample is
`start`, so the first call is the zero-length segment at `start`. This holds
for points with coordinates of magnitude at most 1024 and a `std::pow` that
returns 1 for the base 1, 0 for the base 0, and is within `2 ^ (-23)` of the
square on bases of magnitude at most 1. -/
theorem float32_draw_curve_samples (powf : ℚ → ℚ → ℚ) (start end_ control : ivec2)
    (colour : ivec3) (s : Trace) (hp1 : powf 1 2 = 1) (hp0 : powf 0 2 = 0)
    (hpow : ∀ x : ℚ, |x| ≤ 1 → |powf x 2 - x ^ 2| ≤ 1 / 2 ^ 23)
    (hs : small_point start) (he : small_point end_) (hc : small_point control) :
    ∃ (fuel0 : Nat) (s' : Trace) (samples : List ivec2),
      (∀ k : Nat, float32.draw_curve powf (fuel0 + k) start end_ control colour s =
        some s') ∧
      (∀ k : Nat, float32.draw_curve powf (101 + k) start end_ control colour s =
        (polyline_calls start samples).foldlM
          (fun t c => float32.draw_line (101 + k) c.1 c.2 colour t) s) ∧
      samples = (float32.curve_parameters 101 0).map (fun (t : ℚ) =>
        (⟨float_to_int (float32.curve_lerp powf (float_of_int start.x) (float_of_int end_.x)
            (float_of_int control.x) t),
          float_to_int (float32.curve_lerp powf (float_of_int start.y) (float_of_int end_.y)
            (float_of_int control.y) t)⟩ : ivec2)) ∧
      (∀ t ∈ float32.curve_parameters 101 0, 0 ≤ t ∧ t < 1 ∧
        |float32.curve_lerp powf (float_of_int start.x) (float_of_int end_.x)
            (float_of_int control.x) t -
          ((1 - t) ^ 2 * (start.x : ℚ) + 2 * t * (1 - t) * (control.x : ℚ) +
            t ^ 2 * (end_.x : ℚ))| ≤ 1 / 512 ∧
        |float32.curve_lerp powf (float_of_int start.y) (float_of_int end_.y)
            (float_of_int control.y) t -
          ((1 - t) ^ 2 * (start.y : ℚ) + 2 * t * (1 - t) * (control.y : ℚ) +
            t ^ 2 * (end_.y : ℚ))| ≤ 1 / 512) ∧
      (∀ p ∈ (List.range 101).zip (float32.curve_parameters 101 0),
        |p.2 - (p.1 : ℚ) / 100| ≤ 1 / 2 ^ 20) ∧
      (float32.curve_parameters 101 0).getLast? = some (16777205 / 16777216) ∧
      samples.length = 101 ∧
      samples.head? = some start ∧
      (polyline_calls start samples).length = 101 ∧
      (polyline_calls start samples).head? = some (start, start) ∧
      (polyline_calls start samples).map (fun c => c.2) = samples ∧
      (polyline_calls start samples).Chain' (fun c d => d.1 = c.2) ∧
      s'.divisions.length = s.divisions.length + 101 := by
  obtain ⟨hall, hend, _, hlast, hnear, hnonneg⟩ := float32_curve_parameters_count
  obtain ⟨h1, h2⟩ := float32_draw_curve_of_parameters powf 101 hall hend start end_ control
    colour s
  have hsb : binary32_point start :=
    ⟨le_trans hs.1 (by norm_num), le_trans hs.2 (by norm_num)⟩
  have hhead : ((float32.curve_parameters 101 0).map
      (float32.curve_point powf start end_ control)).head? = some start := by
    rw [float32.curve_parameters, List.map_cons, List.head?_cons,
      float32_curve_point_zero powf start end_ control hp1 hp0 hsb]
  have hlen : (polyline_calls start ((float32.curve_parameters 101 0).map
      (float32.curve_point powf start end_ control))).length = 101 := by
    rw [polyline_calls_length, List.length_map, float32_curve_parameters_length]
  refine ⟨_, _, (float32.curve_parameters 101 0).map
    (float32.curve_point powf start end_ control), h1, h2, rfl, ?_, hnear, hlast, ?_, hhead,
    hlen, polyline_calls_head_of_head _ _ hhead, polyline_calls_ends _ _,
    polyline_calls_chain _ _, ?_⟩
  · intro t ht
    exact ⟨hnonneg t ht, hall t ht,
      float32_curve_lerp_accuracy powf _ _ _ t hpow hs.1 he.1 hc.1 (hnonneg t ht)
        (le_of_lt (hall t ht)),
      float32_curve_lerp_accuracy powf _ _ _ t hpow hs.2 he.2 hc.2 (hnonneg t ht)
        (le_of_lt (hall t ht))⟩
  · rw [List.length_map, float32_curve_parameters_length]
  · rw [float32_polyline_result_divisions, List.length_append, List.length_map, hlen]

/-- Witness for C16: the curve from (50,50) to (750,550) with control point
(400,300), with the correctly rounded square as `std::pow`. -/
theorem float32_draw_curve_samples_witness :
    ∃ (fuel0 : Nat) (s' : Trace) (samples : List ivec2),
      (∀ k : Nat, float32.draw_curve rounded_square (fuel0 + k) ⟨50, 50⟩ ⟨750, 550⟩
        ⟨400, 300⟩ ⟨255, 255, 0⟩ ⟨[], [], []⟩ = some s') ∧
      samples.length = 101 ∧
      samples.head? = some ⟨50, 50⟩ ∧
      (polyline_calls ⟨50, 50⟩ samples).length = 101 ∧
      (polyline_calls ⟨50, 50⟩ samples).head? = some (⟨50, 50⟩, ⟨50, 50⟩) ∧
      (polyline_calls ⟨50, 50⟩ samples).Chain' (fun c d => d.1 = c.2) ∧
      s'.divisions.length = 101 := by
  obtain ⟨fuel0, s', samples, h1, _, _, _, _, _, h7, h8, h9, h10, _, h12, h13⟩ :=
    float32_draw_curve_samples rounded_square ⟨50, 50⟩ ⟨750, 550⟩ ⟨400, 300⟩ ⟨255, 255, 0⟩
      ⟨[], [], []⟩ rounded_square_one rounded_square_zero rounded_square_accuracy
      ⟨by decide, by decide⟩ ⟨by decide, by decide⟩ ⟨by decide, by decide⟩
  exact ⟨fuel0, s', samples, h1, h7, h8, h9, h10, h12, by simpa using h13⟩

/-- A loop that draws a line from the last point to the next one and
remembers the next point makes the calls `polyline_calls`. -/
theorem float32_foldlM_polyline (fuel : Nat) (colour : ivec3) {α : Type} (f : α → ivec2)
    (l : List α) : ∀ (last : ivec2) (s : Trace),
    (l.foldlM (fun (st : ivec2 × Trace) (a : α) =>
      (float32.draw_line fuel st.1 (f a) colour st.2).map fun t => (f a, t)) (last, s)).map
      (fun st => st.2) =
    (polyline_calls last (l.map f)).foldlM
      (fun t c => float32.draw_line fuel c.1 c.2 colour t) s := by
  induction l with
  | nil => intro last s; rfl
  | cons a l ih =>
    intro last s
    simp only [List.foldlM_cons, List.map_cons, polyline_calls]
    cases h : float32.draw_line fuel last (f a) colour s with
    | none => rfl
    | some t =>
      simp only [Option.map_some', Option.bind_eq_bind, Option.some_bind]
      exact ih (f a) t

/-- For every fuel, `draw_circle` is the sequence of its calls of `draw_line`. -/
theorem float32_draw_circle_eq_calls (cosf sinf radians : ℚ → ℚ) (fuel : Nat)
    (centre : ivec2) (radius : Int) (colour : ivec3) (s : Trace) :
    float32.draw_circle cosf sinf radians fuel centre radius colour s =
      (float32.circle_calls cosf sinf radians centre radius).foldlM
        (fun t c => float32.draw_line fuel c.1 c.2 colour t) s := by
  have h := float32_foldlM_polyline fuel colour
    (fun (angle : Nat) => float32.circle_sample cosf sinf radians centre radius (angle : Int))
    (List.range 361)
    ⟨float_to_int ((centre.x : ℚ) + 1 * (radius : ℚ)),
      float_to_int ((centre.y : ℚ) + 0 * (radius : ℚ))⟩ s
  have e1 : float_to_int ((centre.x : ℚ) + 1 * (radius : ℚ)) = centre.x + radius := by
    rw [one_mul, ← Int.cast_add, float_to_int_intCast]
  have e2 : float_to_int ((centre.y : ℚ) + 0 * (radius : ℚ)) = centre.y := by
    rw [zero_mul, add_zero, float_to_int_intCast]
  unfold float32.circle_calls float32.circle_samples
  rw [← e1, ← e2]
  exact h

/-- With enough fuel `draw_circle` returns. -/
theorem float32_draw_circle_eq_result (cosf sinf radians : ℚ → ℚ) (centre : ivec2)
    (radius : Int) (colour : ivec3) (s : Trace) (fuel : Nat)
    (h : polyline_fuel (float32.circle_calls cosf sinf radians centre radius) ≤ fuel) :
    float32.draw_circle cosf sinf radians fuel centre radius colour s =
      some (float32.polyline_result colour
        (float32.circle_calls cosf sinf radians centre radius) s) := by
  rw [float32_draw_circle_eq_calls]
  exact float32_polyline_eq_result colour _ _ s h

theorem float32_circle_samples_length (cosf sinf radians : ℚ → ℚ) (centre : ivec2)
    (radius : Int) : (float32.circle_samples cosf sinf radians centre radius).length = 361 := by
  simp [float32.circle_samples]

theorem float32_circle_samples_head (cosf sinf radians : ℚ → ℚ) (centre : ivec2)
    (radius : Int) :
    (float32.circle_samples cosf sinf radians centre radius).head? =
      some (float32.circle_sample cosf sinf radians centre radius 0) := by
  unfold float32.circle_samples
  rw [show (361 : Nat) = 360 + 1 from rfl, List.range_succ_eq_map, List.map_cons,
    List.head?_cons]
  rfl

theorem float32_circle_samples_getLast (cosf sinf radians : ℚ → ℚ) (centre : ivec2)
    (radius : Int) :
    (float32.circle_samples cosf sinf radians centre radius).getLast? =
      some (float32.circle_sample cosf sinf radians centre radius 360) := by
  unfold float32.circle_samples
  rw [show (361 : Nat) = 360 + 1 from rfl, List.range_succ, List.map_append,
    List.map_singleton, List.getLast?_append, List.getLast?_singleton]
  rfl

theorem float32_mem_circle_samples (cosf sinf radians : ℚ → ℚ) (centre : ivec2)
    (radius : Int) (p : ivec2)
    (hp : p ∈ float32.circle_samples cosf sinf radians centre radius) :
    ∃ angle : Int, p = float32.circle_sample cosf sinf radians centre radius angle := by
  unfold float32.circle_samples at hp
  rw [List.mem_map] at hp
  obtain ⟨angle, _, rfl⟩ := hp
  exact ⟨(angle : Int), rfl⟩

theorem float32_circle_sample_eq (cosf sinf radians : ℚ → ℚ) (centre : ivec2) (radius : Int)
    (angle : Int) :
    float32.circle_sample cosf sinf radians centre radius angle =
      ⟨float32.circle_coordinate centre.x radius (cosf (radians (float_of_int angle))),
        float32.circle_coordinate centre.y radius (sinf (radians (float_of_int angle)))⟩ :=
  rfl

/-- With the value 1 the coordinate is `centre + radius`. -/
theorem float32_circle_coordinate_one (centre radius : Int) (hc : |centre| ≤ 2 ^ 24)
    (hr : |radius| ≤ 2 ^ 24) (hs : |centre + radius| ≤ 2 ^ 24) :
    float32.circle_coordinate centre radius 1 = centre + radius := by
  unfold float32.circle_coordinate float_add float_mul
  rw [float_of_int_exact centre hc, float_of_int_exact radius hr, one_mul,
    binary32_round_int radius hr,
    binary32_round_eq_int ((centre : ℚ) + (radius : ℚ)) (centre + radius) (by push_cast; ring) hs,
    float_to_int_intCast]

/-- With the value 0 the coordinate is that of the centre. -/
theorem float32_circle_coordinate_zero (centre radius : Int) (hc : |centre| ≤ 2 ^ 24) :
    float32.circle_coordinate centre radius 0 = centre := by
  unfold float32.circle_coordinate float_add float_mul
  rw [float_of_int_exact centre hc, zero_mul, binary32_round_zero, add_zero,
    binary32_round_int centre hc, float_to_int_intCast]

/-- A small non-negative value leaves a non-negative coordinate of the centre
unchanged. -/
theorem float32_circle_coordinate_small (centre radius : Int) (v : ℚ)
    (hc0 : 0 ≤ centre) (hc : centre ≤ 1024) (hr0 : 0 ≤ radius) (hr : radius ≤ 1024)
    (hv0 : 0 ≤ v) (hv : v ≤ 1 / 2 ^ 20) :
    float32.circle_coordinate centre radius v = centre := by
  have hcq0 : (0 : ℚ) ≤ (centre : ℚ) := by exact_mod_cast hc0
  have hcq : (centre : ℚ) ≤ 1024 := by exact_mod_cast hc
  have hrq0 : (0 : ℚ) ≤ (radius : ℚ) := by exact_mod_cast hr0
  have hrq : (radius : ℚ) ≤ 1024 := by exact_mod_cast hr
  have hca : |centre| ≤ 2 ^ 24 := by rw [abs_of_nonneg hc0]; omega
  have hra : |radius| ≤ 2 ^ 24 := by rw [abs_of_nonneg hr0]; omega
  unfold float32.circle_coordinate float_add float_mul
  rw [float_of_int_exact centre hca, float_of_int_exact radius hra]
  have hp0 : 0 ≤ v * (radius : ℚ) := mul_nonneg hv0 hrq0
  have hp1 : v * (radius : ℚ) ≤ 1 / 1024 := by
    have := mul_le_mul hv hrq hrq0 (by norm_num : (0 : ℚ) ≤ 1 / 2 ^ 20)
    norm_num at this ⊢
    linarith
  have hpe := binary32_round_error_one (v * (radius : ℚ))
    (by rw [abs_le]; constructor <;> linarith)
  have hpg : (0 : ℚ) ≤ binary32_round (v * (radius : ℚ)) := by
    have := binary32_round_ge_int (q := v * (radius : ℚ)) 0 (by norm_num)
      (by push_cast; exact hp0)
    simpa using this
  rw [abs_le] at hpe
  generalize binary32_round (v * (radius : ℚ)) = p at hpe hpg
  have hwe := binary32_round_error_2048 ((centre : ℚ) + p)
    (by rw [abs_le]; constructor <;> linarith)
  have hwg : (centre : ℚ) ≤ binary32_round ((centre : ℚ) + p) :=
    binary32_round_ge_int centre hca (by linarith)
  rw [abs_le] at hwe
  generalize binary32_round ((centre : ℚ) + p) = w at hwe hwg
  exact float_to_int_eq_of_nonneg (by linarith) hwg (by linarith)

theorem float_to_int_eq_zero_of_neg {q : ℚ} (h0 : -1 < q) (h1 : q < 0) : float_to_int q = 0 := by
  unfold float_to_int
  rw [if_neg (not_le.mpr h1)]
  rw [Int.ceil_eq_iff]
  constructor
  · push_cast
    linarith
  · push_cast
    exact le_of_lt h1

/-- With a sine between `2 ^ (-23)` and `2 ^ (-22)`, the ordinate computed for
the centre ordinate `-1` and the radius 1 is 0. -/
theorem float32_circle_coordinate_neg_one (v : ℚ) (hv0 : 1 / 2 ^ 23 ≤ v)
    (hv : v ≤ 1 / 2 ^ 22) : float32.circle_coordinate (-1) 1 v = 0 := by
  unfold float32.circle_coordinate float_add float_mul
  rw [float_of_int_exact (-1) (by norm_num), float_of_int_exact 1 (by norm_num)]
  have e1 : binary32_round (1 / 2 ^ 23) = 1 / 2 ^ 23 := by decide!
  have e2 : binary32_round (1 / 2 ^ 22) = 1 / 2 ^ 22 := by decide!
  have e3 : binary32_round (((-1 : Int) : ℚ) + 1 / 2 ^ 23) = -1 + 1 / 2 ^ 23 := by decide!
  have e4 : binary32_round (((-1 : Int) : ℚ) + 1 / 2 ^ 22) = -1 + 1 / 2 ^ 22 := by decide!
  have hp0 := binary32_round_mono (q := 1 / 2 ^ 23) (r := v * ((1 : Int) : ℚ))
    (by push_cast; linarith)
  have hp1 := binary32_round_mono (q := v * ((1 : Int) : ℚ)) (r := 1 / 2 ^ 22)
    (by push_cast; linarith)
  rw [e1] at hp0
  rw [e2] at hp1
  generalize binary32_round (v * ((1 : Int) : ℚ)) = p at hp0 hp1
  have hw0 := binary32_round_mono (q := ((-1 : Int) : ℚ) + 1 / 2 ^ 23)
    (r := ((-1 : Int) : ℚ) + p) (by linarith)
  have hw1 := binary32_round_mono (q := ((-1 : Int) : ℚ) + p)
    (r := ((-1 : Int) : ℚ) + 1 / 2 ^ 22) (by linarith)
  rw [e3] at hw0
  rw [e4] at hw1
  generalize binary32_round (((-1 : Int) : ℚ) + p) = w at hw0 hw1
  apply float_to_int_eq_zero_of_neg
  · have : (0 : ℚ) < 1 / 2 ^ 23 := by positivity
    linarith
  · have : (1 : ℚ) / 2 ^ 22 < 1 := by norm_num
    linarith

/-- With a cosine or sine between `-3/4` and `-7/10`, the coordinate computed
for the centre coordinate 10 and the radius 3 is 7. -/
theorem float32_circle_coordinate_225 (v : ℚ) (hv0 : -3 / 4 ≤ v) (hv : v ≤ -7 / 10) :
    float32.circle_coordinate 10 3 v = 7 := by
  unfold float32.circle_coordinate float_add float_mul
  rw [float_of_int_exact 10 (by norm_num), float_of_int_exact 3 (by norm_num)]
  have hpe := binary32_round_error (v * ((3 : Int) : ℚ)) 2
    (by rw [abs_le]; push_cast; constructor <;> linarith)
  have hpg : ((-3 : Int) : ℚ) ≤ binary32_round (v * ((3 : Int) : ℚ)) :=
    binary32_round_ge_int (-3) (by norm_num) (by push_cast; linarith)
  rw [abs_le] at hpe
  push_cast at hpe hpg
  generalize binary32_round (v * ((3 : Int) : ℚ)) = p at hpe hpg
  have hp1 : p ≤ -21 / 10 + 2 ^ 2 / 2 ^ 25 := by
    linarith
  have hwe := binary32_round_error (((10 : Int) : ℚ) + p) 4
    (by rw [abs_le]; push_cast; norm_num at hp1 ⊢; constructor <;> linarith)
  have hwg : ((7 : Int) : ℚ) ≤ binary32_round (((10 : Int) : ℚ) + p) :=
    binary32_round_ge_int 7 (by norm_num) (by push_cast; linarith)
  rw [abs_le] at hwe
  push_cast at hwe hwg
  generalize binary32_round (((10 : Int) : ℚ) + p) = w at hwe hwg
  apply float_to_int_eq_of_nonneg (by linarith)
  · push_cast
    exact hwg
  · push_cast
    norm_num at hp1 hwe ⊢
    linarith

/-- For a value `v` of magnitude at most 1, the coordinate lies between
`centre - radius` and `centre + radius`, and is within `1 + 2 ^ (-14)` of
`centre + v * radius`. -/
theorem float32_circle_coordinate_near (centre radius : Int) (v : ℚ) (hr0 : 0 ≤ radius)
    (hcr : |centre| + radius ≤ 1024) (hv : |v| ≤ 1) :
    centre - radius ≤ float32.circle_coordinate centre radius v ∧
    float32.circle_coordinate centre radius v ≤ centre + radius ∧
    |(float32.circle_coordinate centre radius v : ℚ) - ((centre : ℚ) + v * (radius : ℚ))| ≤
      1 + 1 / 2 ^ 14 := by
  have hc0 : 0 ≤ |centre| := abs_nonneg centre
  have hca : |centre| ≤ 2 ^ 24 := by omega
  have hra : |radius| ≤ 2 ^ 24 := by rw [abs_of_nonneg hr0]; omega
  have hrq0 : (0 : ℚ) ≤ (radius : ℚ) := by exact_mod_cast hr0
  have hrq : (radius : ℚ) ≤ 1024 := by
    have : radius ≤ 1024 := by omega
    exact_mod_cast this
  have hcle := abs_le.mp (le_refl |centre|)
  have h1 : |centre - radius| ≤ 2 ^ 24 := by rw [abs_le]; omega
  have h2 : |centre + radius| ≤ 2 ^ 24 := by rw [abs_le]; omega
  have hcq1 : (centre : ℚ) + (radius : ℚ) ≤ 1024 := by
    have : centre + radius ≤ 1024 := by omega
    exact_mod_cast this
  have hcq2 : -1024 ≤ (centre : ℚ) - (radius : ℚ) := by
    have : -1024 ≤ centre - radius := by omega
    exact_mod_cast this
  rw [abs_le] at hv
  have hvr1 : v * (radius : ℚ) ≤ (radius : ℚ) := by nlinarith
  have hvr2 : -(radius : ℚ) ≤ v * (radius : ℚ) := by nlinarith
  unfold float32.circle_coordinate float_add float_mul
  rw [float_of_int_exact centre hca, float_of_int_exact radius hra]
  have hpe := binary32_round_error (v * (radius : ℚ)) 10
    (by rw [abs_le]; norm_num; constructor <;> linarith)
  have hpl : binary32_round (v * (radius : ℚ)) ≤ (radius : ℚ) :=
    binary32_round_le_int radius hra hvr1
  have hpg : ((-radius : Int) : ℚ) ≤ binary32_round (v * (radius : ℚ)) :=
    binary32_round_ge_int (-radius) (by rw [abs_neg]; exact hra) (by push_cast; exact hvr2)
  rw [abs_le] at hpe
  push_cast at hpg
  generalize binary32_round (v * (radius : ℚ)) = p at hpe hpl hpg
  have hwe := binary32_round_error ((centre : ℚ) + p) 10
    (by rw [abs_le]; norm_num; constructor <;> linarith)
  have hwl : binary32_round ((centre : ℚ) + p) ≤ ((centre + radius : Int) : ℚ) :=
    binary32_round_le_int (centre + radius) h2 (by push_cast; linarith)
  have hwg : ((centre - radius : Int) : ℚ) ≤ binary32_round ((centre : ℚ) + p) :=
    binary32_round_ge_int (centre - radius) h1 (by push_cast; linarith)
  rw [abs_le] at hwe
  generalize binary32_round ((centre : ℚ) + p) = w at hwe hwl hwg
  have hb := float_to_int_between hwg hwl
  have ht := float_to_int_sub_lt w
  refine ⟨hb.1, hb.2, ?_⟩
  rw [abs_le]
  norm_num at hpe hwe ⊢
  constructor <;> linarith

/-- The triangle inequality for the Euclidean norm of the plane, on squares. -/
theorem sq_add_sq_add (U V a b R E : ℚ) (hR : 0 ≤ R) (hE : 0 ≤ E)
    (h1 : U ^ 2 + V ^ 2 ≤ R ^ 2) (h2 : a ^ 2 + b ^ 2 ≤ E ^ 2) :
    (U + a) ^ 2 + (V + b) ^ 2 ≤ (R + E) ^ 2 := by
  have hRE : 0 ≤ R * E := mul_nonneg hR hE
  have hprod : (U ^ 2 + V ^ 2) * (a ^ 2 + b ^ 2) ≤ R ^ 2 * E ^ 2 :=
    mul_le_mul h1 h2 (by positivity) (by positivity)
  have hcs : (U * a + V * b) ^ 2 ≤ (R * E) ^ 2 := by
    nlinarith [sq_nonneg (U * b - V * a)]
  have h3 : U * a + V * b ≤ R * E := by
    have := abs_le_of_sq_le_sq' hcs hRE
    exact this.2
  nlinarith

/-- If both ends of a segment between points with coordinates of magnitude at
most 1024 are within distance `R` of a point `c`, every pixel that `draw_line`
writes in binary32 arithmetic is within distance `R + 1 + 3 / 8192` of `c`. -/
theorem float32_line_points_near (A B c : ivec2) (R : ℚ) (hR : 0 ≤ R)
    (hsA : small_point A) (hsB : small_point B)
    (hA : ((A.x : ℚ) - c.x) ^ 2 + ((A.y : ℚ) - c.y) ^ 2 ≤ R ^ 2)
    (hB : ((B.x : ℚ) - c.x) ^ 2 + ((B.y : ℚ) - c.y) ^ 2 ≤ R ^ 2)
    (p : ivec2) (hp : p ∈ float32.line_points A B) :
    ((p.x : ℚ) - c.x) ^ 2 + ((p.y : ℚ) - c.y) ^ 2 ≤ (R + (1 + 3 / 8192)) ^ 2 := by
  have hE : (0 : ℚ) ≤ 1 + 3 / 8192 := by norm_num
  rw [float32_mem_line_points] at hp
  rcases hp with ⟨i, hi, rfl⟩ | rfl
  swap
  · nlinarith
  obtain ⟨hdx, hdy⟩ := small_point_diff A B hsA hsB
  have hxe : A.x + (B.x - A.x) = B.x := by ring
  have hye : A.y + (B.y - A.y) = B.y := by ring
  have hex : |A.x + (B.x - A.x)| ≤ 1024 := by rw [hxe]; exact hsB.1
  have hey : |A.y + (B.y - A.y)| ≤ 1024 := by rw [hye]; exact hsB.2
  by_cases hd : float32.x_dominant A B
  · have h := (float32_x_dominant_iff A B hdx hdy).mp hd
    rw [float32_line_steps_x hd] at hi
    have hdc : B.x - A.x ≠ 0 := by
      intro hh
      rw [hh] at hi
      simp at hi
    rw [float32_line_point_x _ _ _ hd]
    have hacc := float32_line_value_accuracy_at A.x A.y (B.x - A.x) (B.y - A.y) i
      (le_of_lt hi) hdc (le_of_lt h) hsA.1 hsA.2 hex hey
    obtain ⟨ev, ec⟩ := line_value_at_step A.x A.y (B.x - A.x) (B.y - A.y) i hdc
    have hη := float_to_int_sub_lt (float32.line_value A.x A.y (B.x - A.x) (B.y - A.y)
      (A.x + i * step_sign (B.x - A.x)))
    have hn : (0 : ℚ) < ((B.x - A.x).natAbs : ℚ) := by
      have : 0 < (B.x - A.x).natAbs := Int.natAbs_pos.mpr hdc
      exact_mod_cast this
    have hiq : (i : ℚ) ≤ ((B.x - A.x).natAbs : ℚ) := by exact_mod_cast (le_of_lt hi)
    have ht0 : (0 : ℚ) ≤ (i : ℚ) / ((B.x - A.x).natAbs : ℚ) :=
      div_nonneg (by positivity) (le_of_lt hn)
    have ht1 : (i : ℚ) / ((B.x - A.x).natAbs : ℚ) ≤ 1 := (div_le_one hn).mpr hiq
    simp only
    rw [ec]
    rw [ev] at hacc
    generalize float32.line_value A.x A.y (B.x - A.x) (B.y - A.y)
      (A.x + i * step_sign (B.x - A.x)) = v at hacc hη ⊢
    generalize (float_to_int v : ℚ) = F at hη ⊢
    have hconv := sq_add_sq_convex ((A.x : ℚ) - c.x) ((A.y : ℚ) - c.y) ((B.x : ℚ) - c.x)
      ((B.y : ℚ) - c.y) _ _ hA hB ht0 ht1
    rw [abs_le] at hacc
    push_cast at hacc
    have hshift := sq_add_sq_add _ _ 0
      (F - ((A.y : ℚ) + ((B.y : ℚ) - (A.y : ℚ)) * ((i : ℚ) / ((B.x - A.x).natAbs : ℚ))))
      R (1 + 3 / 8192) hR hE hconv (by
        rw [zero_pow (by norm_num), zero_add]
        apply sq_le_sq'
        · linarith [hη.1, hacc.1]
        · linarith [hη.2, hacc.2])
    push_cast at hshift ⊢
    convert hshift using 2 <;> ring
  · have h : ¬ |B.x - A.x| > |B.y - A.y| :=
      fun h' => hd ((float32_x_dominant_iff A B hdx hdy).mpr h')
    rw [float32_line_steps_y hd] at hi
    have hdc : B.y - A.y ≠ 0 := by
      intro hh
      rw [hh] at hi
      simp at hi
    rw [float32_line_point_y _ _ _ hd]
    have hacc := float32_line_value_accuracy_at A.y A.x (B.y - A.y) (B.x - A.x) i
      (le_of_lt hi) hdc (not_lt.mp h) hsA.2 hsA.1 hey hex
    obtain ⟨ev, ec⟩ := line_value_at_step A.y A.x (B.y - A.y) (B.x - A.x) i hdc
    have hη := float_to_int_sub_lt (float32.line_value A.y A.x (B.y - A.y) (B.x - A.x)
      (A.y + i * step_sign (B.y - A.y)))
    have hn : (0 : ℚ) < ((B.y - A.y).natAbs : ℚ) := by
      have : 0 < (B.y - A.y).natAbs := Int.natAbs_pos.mpr hdc
      exact_mod_cast this
    have hiq : (i : ℚ) ≤ ((B.y - A.y).natAbs : ℚ) := by exact_mod_cast (le_of_lt hi)
    have ht0 : (0 : ℚ) ≤ (i : ℚ) / ((B.y - A.y).natAbs : ℚ) :=
      div_nonneg (by positivity) (le_of_lt hn)
    have ht1 : (i : ℚ) / ((B.y - A.y).natAbs : ℚ) ≤ 1 := (div_le_one hn).mpr hiq
    simp only
    rw [ec]
    rw [ev] at hacc
    generalize float32.line_value A.y A.x (B.y - A.y) (B.x - A.x)
      (A.y + i * step_sign (B.y - A.y)) = v at hacc hη ⊢
    generalize (float_to_int v : ℚ) = F at hη ⊢
    have hconv := sq_add_sq_convex ((A.x : ℚ) - c.x) ((A.y : ℚ) - c.y) ((B.x : ℚ) - c.x)
      ((B.y : ℚ) - c.y) _ _ hA hB ht0 ht1
    rw [abs_le] at hacc
    push_cast at hacc
    have hshift := sq_add_sq_add _ _
      (F - ((A.x : ℚ) + ((B.x : ℚ) - (A.x : ℚ)) * ((i : ℚ) / ((B.y - A.y).natAbs : ℚ)))) 0
      R (1 + 3 / 8192) hR hE hconv (by
        rw [zero_pow (by norm_num), add_zero]
        apply sq_le_sq'
        · linarith [hη.1, hacc.1]
        · linarith [hη.2, hacc.2])
    push_cast at hshift ⊢
    convert hshift using 2 <;> ring

/-- Every sample of `draw_circle` is among the pixels of its calls of
`draw_line`, since every call writes its end point. -/
theorem float32_polyline_ends_written (last : ivec2) (ps : List ivec2) (q : ivec2)
    (hq : q ∈ ps) :
    q ∈ (polyline_calls last ps).flatMap (fun c => float32.line_points c.1 c.2) := by
  rw [List.mem_flatMap]
  have hmem : q ∈ (polyline_calls last ps).map (fun c => c.2) := by
    rw [polyline_calls_ends]
    exact hq
  rw [List.mem_map] at hmem
  obtain ⟨c, hc, rfl⟩ := hmem
  refine ⟨c, hc, ?_⟩
  rw [float32_mem_line_points]
  exact Or.inr rfl

/-- The samples of `draw_circle` lie within `radius` of the centre in each
coordinate, and within Euclidean distance `radius + 1 / 1024 + 17 / 12` of it,
for a cosine and sine of magnitude at most 1 whose squares add up to at most
`(1 + 2 ^ (-20))²`. -/
theorem float32_circle_sample_near (cosf sinf radians : ℚ → ℚ) (centre : ivec2)
    (radius : Int) (angle : Int)
    (hcos : ∀ a : ℚ, |cosf a| ≤ 1) (hsin : ∀ a : ℚ, |sinf a| ≤ 1)
    (hcs : ∀ a : ℚ, cosf a ^ 2 + sinf a ^ 2 ≤ (1 + 1 / 2 ^ 20) ^ 2)
    (hr : 0 ≤ radius) (hx : |centre.x| + radius ≤ 1024) (hy : |centre.y| + radius ≤ 1024) :
    small_point (float32.circle_sample cosf sinf radians centre radius angle) ∧
    (((float32.circle_sample cosf sinf radians centre radius angle).x : ℚ) - centre.x) ^ 2 +
      (((float32.circle_sample cosf sinf radians centre radius angle).y : ℚ) - centre.y) ^ 2 ≤
        ((radius : ℚ) + 1 / 1024 + 17 / 12) ^ 2 := by
  rw [float32_circle_sample_eq]
  obtain ⟨x1, x2, x3⟩ := float32_circle_coordinate_near centre.x radius
    (cosf (radians (float_of_int angle))) hr hx (hcos _)
  obtain ⟨y1, y2, y3⟩ := float32_circle_coordinate_near centre.y radius
    (sinf (radians (float_of_int angle))) hr hy (hsin _)
  have hcs' := hcs (radians (float_of_int angle))
  have hrq0 : (0 : ℚ) ≤ (radius : ℚ) := by exact_mod_cast hr
  have hrq : (radius : ℚ) ≤ 1024 := by
    have h0 := abs_nonneg centre.x
    have : radius ≤ 1024 := by omega
    exact_mod_cast this
  have hax := abs_le.mp (le_refl |centre.x|)
  have hay := abs_le.mp (le_refl |centre.y|)
  constructor
  · constructor
    · simp only
      rw [abs_le]
      omega
    · simp only
      rw [abs_le]
      omega
  · simp only
    generalize cosf (radians (float_of_int angle)) = c at x3 hcs'
    generalize sinf (radians (float_of_int angle)) = sn at y3 hcs'
    generalize (float32.circle_coordinate centre.x radius c : ℚ) = X at x3
    generalize (float32.circle_coordinate centre.y radius sn : ℚ) = Y at y3
    rw [abs_le] at x3 y3
    have h1 : (c * (radius : ℚ)) ^ 2 + (sn * (radius : ℚ)) ^ 2 ≤
        ((radius : ℚ) + 1 / 1024) ^ 2 := by
      have e : (c * (radius : ℚ)) ^ 2 + (sn * (radius : ℚ)) ^ 2 =
          (c ^ 2 + sn ^ 2) * (radius : ℚ) ^ 2 := by ring
      rw [e]
      have h2 : (c ^ 2 + sn ^ 2) * (radius : ℚ) ^ 2 ≤
          (1 + 1 / 2 ^ 20) ^ 2 * (radius : ℚ) ^ 2 :=
        mul_le_mul_of_nonneg_right hcs' (sq_nonneg _)
      have h3 : (1 + 1 / 2 ^ 20) * (radius : ℚ) ≤ (radius : ℚ) + 1 / 1024 := by
        norm_num
        linarith
      have h4 : (0 : ℚ) ≤ (1 + 1 / 2 ^ 20) * (radius : ℚ) := by positivity
      have h5 := pow_le_pow_left₀ h4 h3 2
      calc (c ^ 2 + sn ^ 2) * (radius : ℚ) ^ 2 ≤ (1 + 1 / 2 ^ 20) ^ 2 * (radius : ℚ) ^ 2 := h2
        _ = ((1 + 1 / 2 ^ 20) * (radius : ℚ)) ^ 2 := by ring
        _ ≤ ((radius : ℚ) + 1 / 1024) ^ 2 := h5
    have h2 : (X - ((centre.x : ℚ) + c * (radius : ℚ))) ^ 2 +
        (Y - ((centre.y : ℚ) + sn * (radius : ℚ))) ^ 2 ≤ (17 / 12 : ℚ) ^ 2 := by
      have a1 : (X - ((centre.x : ℚ) + c * (radius : ℚ))) ^ 2 ≤ (1 + 1 / 2 ^ 14) ^ 2 :=
        sq_le_sq' x3.1 x3.2
      have a2 : (Y - ((centre.y : ℚ) + sn * (radius : ℚ))) ^ 2 ≤ (1 + 1 / 2 ^ 14) ^ 2 :=
        sq_le_sq' y3.1 y3.2
      norm_num at a1 a2 ⊢
      linarith
    have h3 := sq_add_sq_add _ _ _ _ _ _ (by linarith) (by norm_num) h1 h2
    convert h3 using 2 <;> ring

/-- For a cosine and sine as in `float32_circle_sample_near`, every call of
`draw_line` that `draw_circle` makes joins two points with coordinates of
magnitude at most 1024 that are within `radius + 1 / 1024 + 17 / 12` of the
centre. -/
theorem float32_circle_calls_near (cosf sinf radians : ℚ → ℚ) (centre : ivec2)
    (radius : Int)
    (hcos : ∀ a : ℚ, |cosf a| ≤ 1) (hsin : ∀ a : ℚ, |sinf a| ≤ 1)
    (hcs : ∀ a : ℚ, cosf a ^ 2 + sinf a ^ 2 ≤ (1 + 1 / 2 ^ 20) ^ 2)
    (hr : 0 ≤ radius) (hx : |centre.x| + radius ≤ 1024) (hy : |centre.y| + radius ≤ 1024)
    (c : ivec2 × ivec2) (hc : c ∈ float32.circle_calls cosf sinf radians centre radius) :
    (small_point c.1 ∧ (((c.1.x : ℚ) - centre.x) ^ 2 + ((c.1.y : ℚ) - centre.y) ^ 2 ≤
      ((radius : ℚ) + 1 / 1024 + 17 / 12) ^ 2)) ∧
    (small_point c.2 ∧ (((c.2.x : ℚ) - centre.x) ^ 2 + ((c.2.y : ℚ) - centre.y) ^ 2 ≤
      ((radius : ℚ) + 1 / 1024 + 17 / 12) ^ 2)) := by
  have hrq0 : (0 : ℚ) ≤ (radius : ℚ) := by exact_mod_cast hr
  have hax := abs_le.mp (le_refl |centre.x|)
  have hay := abs_nonneg centre.y
  refine polyline_calls_mem
    (fun p => small_point p ∧ (((p.x : ℚ) - centre.x) ^ 2 + ((p.y : ℚ) - centre.y) ^ 2 ≤
      ((radius : ℚ) + 1 / 1024 + 17 / 12) ^ 2)) _ _ ?_ ?_ c hc
  · refine ⟨⟨?_, ?_⟩, ?_⟩
    · simp only
      rw [abs_le]
      omega
    · simp only
      omega
    · simp only
      push_cast
      nlinarith
  · intro p hp
    obtain ⟨angle, rfl⟩ := float32_mem_circle_samples cosf sinf radians centre radius p hp
    exact float32_circle_sample_near cosf sinf radians centre radius angle hcos hsin hcs hr
      hx hy

/-- C13, counterexample: the circle of radius 3 around (10, 10) contains the
pixel (7, 7), the sample at 225 degrees, whose distance to the centre is the
square root of 18, more than `radius + 1 = 4`. This holds for every cosine and
sine whose values at 225 degrees lie between `-3/4` and `-7/10`; the C library
returns `-0.70710683` and `-0.70710671`. -/
theorem float32_draw_circle_exceeds_radius_plus_one :
    (∀ cosf sinf radians : ℚ → ℚ,
      -3 / 4 ≤ cosf (radians 225) → cosf (radians 225) ≤ -7 / 10 →
      -3 / 4 ≤ sinf (radians 225) → sinf (radians 225) ≤ -7 / 10 →
      ∃ (fuel0 : Nat) (s' : Trace),
        (∀ k : Nat, float32.draw_circle cosf sinf radians (fuel0 + k) ⟨10, 10⟩ 3
          ⟨0, 0, 255⟩ ⟨[], [], []⟩ = some s') ∧
        ((⟨7, 7⟩ : ivec2), (⟨0, 0, 255⟩ : ivec3)) ∈ s'.pixels) ∧
    ¬ (((7 : Int) - 10) ^ 2 + ((7 : Int) - 10) ^ 2 ≤ ((3 : Int) + 1) ^ 2) := by
  refine ⟨?_, by decide⟩
  intro cosf sinf radians c1 c2 s1 s2
  refine ⟨polyline_fuel (float32.circle_calls cosf sinf radians ⟨10, 10⟩ 3), _,
    fun k => float32_draw_circle_eq_result cosf sinf radians ⟨10, 10⟩ 3 ⟨0, 0, 255⟩
      ⟨[], [], []⟩ _ (Nat.le_add_right _ _), ?_⟩
  rw [float32_polyline_result_pixels]
  simp only [List.nil_append, List.mem_map]
  refine ⟨⟨7, 7⟩, ?_, rfl⟩
  apply float32_polyline_ends_written
  unfold float32.circle_samples
  rw [List.mem_map]
  refine ⟨225, List.mem_range.mpr (by decide), ?_⟩
  have h225 : float_of_int ((225 : Nat) : Int) = 225 := by
    have := float_of_int_exact 225 (by norm_num)
    simpa using this
  rw [float32_circle_sample_eq, h225]
  simp only
  rw [float32_circle_coordinate_225 _ c1 c2, float32_circle_coordinate_225 _ s1 s2]

/-- Beyond `2 ^ 24` the centre itself is rounded: for the centre
(67108868, 0) and the radius 0, whatever the cosine and sine, `draw_circle`
writes the pixel (67108864, 0), at distance 4 from the centre. -/
theorem float32_draw_circle_large_centre (cosf sinf radians : ℚ → ℚ) :
    ∃ (fuel0 : Nat) (s' : Trace),
      (∀ k : Nat, float32.draw_circle cosf sinf radians (fuel0 + k) ⟨67108868, 0⟩ 0
        ⟨0, 0, 255⟩ ⟨[], [], []⟩ = some s') ∧
      ((⟨67108864, 0⟩ : ivec2), (⟨0, 0, 255⟩ : ivec3)) ∈ s'.pixels ∧
      ¬ (((67108864 : Int) - 67108868) ^ 2 + ((0 : Int) - 0) ^ 2 ≤ ((0 : Int) + 3) ^ 2) := by
  refine ⟨polyline_fuel (float32.circle_calls cosf sinf radians ⟨67108868, 0⟩ 0), _,
    fun k => float32_draw_circle_eq_result cosf sinf radians ⟨67108868, 0⟩ 0 ⟨0, 0, 255⟩
      ⟨[], [], []⟩ _ (Nat.le_add_right _ _), ?_, by decide⟩
  rw [float32_polyline_result_pixels]
  simp only [List.nil_append, List.mem_map]
  refine ⟨⟨67108864, 0⟩, ?_, rfl⟩
  apply float32_polyline_ends_written
  unfold float32.circle_samples
  rw [List.mem_map]
  refine ⟨0, List.mem_range.mpr (by decide), ?_⟩
  have e1 : float_of_int 67108868 = 67108864 := by decide!
  have e2 : binary32_round 67108864 = 67108864 := by decide!
  have e3 : float_to_int 67108864 = 67108864 := by decide!
  have e4 : float_to_int 0 = 0 := by decide!
  simp only [float32.circle_sample, float_add, float_mul, float_of_int_zero, mul_zero,
    binary32_round_zero, add_zero, e1, e2, e3, e4]

/-- C13, amended: for a centre and a radius `≥ 0` with
`|centre.x| + radius ≤ 1024` and `|centre.y| + radius ≤ 1024`, and a cosine
and sine of magnitude at most 1 whose squares add up to at most
`(1 + 2 ^ (-20))²`, `draw_circle` returns with enough fuel, writes all its 361
samples, and every pixel it writes is within Euclidean distance `radius + 3`
of the centre. -/
theorem float32_draw_circle_within_radius_plus_three (cosf sinf radians : ℚ → ℚ)
    (centre : ivec2) (radius : Int) (colour : ivec3) (s : Trace)
    (hcos : ∀ a : ℚ, |cosf a| ≤ 1) (hsin : ∀ a : ℚ, |sinf a| ≤ 1)
    (hcs : ∀ a : ℚ, cosf a ^ 2 + sinf a ^ 2 ≤ (1 + 1 / 2 ^ 20) ^ 2)
    (hr : 0 ≤ radius) (hx : |centre.x| + radius ≤ 1024) (hy : |centre.y| + radius ≤ 1024) :
    ∃ (fuel0 : Nat) (s' : Trace) (ws : List ivec2),
      (∀ k : Nat, float32.draw_circle cosf sinf radians (fuel0 + k) centre radius colour s =
        some s') ∧
      s'.pixels = s.pixels ++ ws.map (fun p => (p, colour)) ∧
      (∀ angle : Nat, angle < 361 →
        float32.circle_sample cosf sinf radians centre radius (angle : Int) ∈ ws) ∧
      ∀ p ∈ ws, (p.x - centre.x) ^ 2 + (p.y - centre.y) ^ 2 ≤ (radius + 3) ^ 2 := by
  refine ⟨polyline_fuel (float32.circle_calls cosf sinf radians centre radius), _,
    (float32.circle_calls cosf sinf radians centre radius).flatMap
      (fun c => float32.line_points c.1 c.2),
    fun k => float32_draw_circle_eq_result cosf sinf radians centre radius colour s _
      (Nat.le_add_right _ _), float32_polyline_result_pixels colour _ s, ?_, ?_⟩
  · intro angle hangle
    apply float32_polyline_ends_written
    unfold float32.circle_samples
    rw [List.mem_map]
    exact ⟨angle, List.mem_range.mpr hangle, rfl⟩
  · intro p hp
    rw [List.mem_flatMap] at hp
    obtain ⟨c, hc, hpc⟩ := hp
    obtain ⟨⟨hs1, h1⟩, ⟨hs2, h2⟩⟩ := float32_circle_calls_near cosf sinf radians centre
      radius hcos hsin hcs hr hx hy c hc
    have hrq0 : (0 : ℚ) ≤ (radius : ℚ) := by exact_mod_cast hr
    have h3 := float32_line_points_near c.1 c.2 centre _ (by linarith) hs1 hs2 h1 h2 p hpc
    have h4 : ((p.x : ℚ) - centre.x) ^ 2 + ((p.y : ℚ) - centre.y) ^ 2 ≤
        ((radius : ℚ) + 3) ^ 2 := by
      refine le_trans h3 ?_
      apply pow_le_pow_left₀ (by linarith)
      linarith
    exact_mod_cast h4

/-- Witness for C13: the circle of radius 3 around (10, 10), with a cosine and
a sine that return, at every angle, the values that the C library returns at
225 degrees. -/
theorem float32_draw_circle_within_radius_plus_three_witness :
    ∃ (fuel0 : Nat) (s' : Trace) (ws : List ivec2),
      (∀ k : Nat, float32.draw_circle (fun _ => -(11863284 / 16777216))
        (fun _ => -(11863282 / 16777216)) glm_radians (fuel0 + k) ⟨10, 10⟩ 3 ⟨0, 0, 255⟩
        ⟨[], [], []⟩ = some s') ∧
      s'.pixels = ws.map (fun p => (p, (⟨0, 0, 255⟩ : ivec3))) ∧
      ∀ p ∈ ws, (p.x - 10) ^ 2 + (p.y - 10) ^ 2 ≤ ((3 : Int) + 3) ^ 2 := by
  obtain ⟨fuel0, s', ws, h1, h2, _, h4⟩ :=
    float32_draw_circle_within_radius_plus_three (fun _ => -(11863284 / 16777216))
      (fun _ => -(11863282 / 16777216)) glm_radians ⟨10, 10⟩ 3 ⟨0, 0, 255⟩ ⟨[], [], []⟩
      (fun _ => by rw [abs_neg, abs_le]; norm_num)
      (fun _ => by rw [abs_neg, abs_le]; norm_num)
      (fun _ => by norm_num) (by decide) (by decide) (by decide)
  exact ⟨fuel0, s', ws, h1, by simpa using h2, h4⟩

/-- The value `glm::radians(360.0f)` is `13176795 / 2 ^ 21`, about
`6.2831855`. -/
theorem glm_radians_360 : glm_radians 360 = 13176795 / 2097152 := by
  decide!

theorem glm_radians_zero : glm_radians 0 = 0 := by
  unfold glm_radians float_mul
  rw [zero_mul, binary32_round_zero]

/-- The value `glm::radians(360.0f)` is more than `2 π`, and its sine is
positive: it is within `2 ^ (-47)`, half a unit in the last place, of the
binary32 number `6151831 / 2 ^ 45`, and so between `2 ^ (-23)` and
`2 ^ (-22)`. -/
theorem sin_glm_radians_360 :
    2 * Real.pi < ((glm_radians 360 : ℚ) : ℝ) ∧
    |Real.sin ((glm_radians 360 : ℚ) : ℝ) - 6151831 / 35184372088832| ≤ 1 / 2 ^ 47 ∧
    1 / 2 ^ 23 ≤ Real.sin ((glm_radians 360 : ℚ) : ℝ) ∧
    Real.sin ((glm_radians 360 : ℚ) : ℝ) ≤ 1 / 2 ^ 22 := by
  rw [glm_radians_360]
  have h1 := Real.pi_gt_d20
  have h2 := Real.pi_lt_d20
  have hx : (((13176795 / 2097152 : ℚ)) : ℝ) = 13176795 / 2097152 := by push_cast; ring
  rw [hx]
  have hy0 : (0 : ℝ) < 13176795 / 2097152 - 2 * Real.pi := by
    norm_num at h1 h2 ⊢
    linarith
  have hy1 : (13176795 / 2097152 : ℝ) - 2 * Real.pi ≤ 1 := by
    norm_num at h1 h2 ⊢
    linarith
  have hs : Real.sin (13176795 / 2097152) = Real.sin (13176795 / 2097152 - 2 * Real.pi) := by
    rw [Real.sin_sub_two_pi]
  have hle := Real.sin_le (le_of_lt hy0)
  have hgt := Real.sin_gt_sub_cube hy0 hy1
  have hyb : (13176795 / 2097152 : ℝ) - 2 * Real.pi ≤ 1 / 2 ^ 22 := by
    norm_num at h1 h2 ⊢
    linarith
  have hcube : ((13176795 / 2097152 : ℝ) - 2 * Real.pi) ^ 3 ≤ (1 / 2 ^ 22) ^ 3 :=
    pow_le_pow_left₀ (le_of_lt hy0) hyb 3
  rw [hs]
  generalize Real.sin (13176795 / 2097152 - 2 * Real.pi) = S at hle hgt
  generalize hY : (13176795 / 2097152 : ℝ) - 2 * Real.pi = Y at hle hgt hcube hy0 hy1 hyb
  have hYl : (13176795 / 2097152 : ℝ) - 2 * 3.14159265358979323847 ≤ Y := by
    rw [← hY]
    linarith
  have hYu : Y ≤ (13176795 / 2097152 : ℝ) - 2 * 3.14159265358979323846 := by
    rw [← hY]
    linarith
  refine ⟨by linarith, ?_, ?_, ?_⟩
  · rw [abs_le]
    norm_num at hYl hYu hcube hgt ⊢
    constructor <;> linarith
  · norm_num at hYl hYu hcube hgt ⊢
    linarith
  · norm_num at hYl hYu hcube hgt ⊢
    linarith

/-- C14, counterexample: for the centre (1, -1) and the radius 1 the polyline
of `draw_circle` starts at (2, -1), but its last sample, at 360 degrees, is
(2, 0): the outline does not close. This holds for every cosine and sine with
the value 1 of the cosine and a value between `2 ^ (-23)` and `2 ^ (-22)` of
the sine at `glm::radians(360.0f)`, which is slightly more than `2 π`; the C
library returns 1 and `1.7484555e-7`. -/
theorem float32_draw_circle_not_closed :
    (⟨2, 0⟩ : ivec2) ≠ ⟨1 + 1, -1⟩ ∧
    ∀ cosf sinf radians : ℚ → ℚ,
      cosf (radians 360) = 1 → 1 / 2 ^ 23 ≤ sinf (radians 360) →
      sinf (radians 360) ≤ 1 / 2 ^ 22 →
      ∃ (fuel0 : Nat) (s' : Trace) (samples : List ivec2),
        (∀ k : Nat, float32.draw_circle cosf sinf radians (fuel0 + k) ⟨1, -1⟩ 1 ⟨0, 0, 255⟩
          ⟨[], [], []⟩ = some s') ∧
        (∀ fuel : Nat, float32.draw_circle cosf sinf radians fuel ⟨1, -1⟩ 1 ⟨0, 0, 255⟩
          ⟨[], [], []⟩ =
            (polyline_calls ⟨1 + 1, -1⟩ samples).foldlM
              (fun t c => float32.draw_line fuel c.1 c.2 ⟨0, 0, 255⟩ t) ⟨[], [], []⟩) ∧
        samples.length = 361 ∧
        samples.getLast? = some ⟨2, 0⟩ := by
  refine ⟨by decide, ?_⟩
  intro cosf sinf radians hc hs0 hs1
  refine ⟨polyline_fuel (float32.circle_calls cosf sinf radians ⟨1, -1⟩ 1), _,
    float32.circle_samples cosf sinf radians ⟨1, -1⟩ 1,
    fun k => float32_draw_circle_eq_result cosf sinf radians ⟨1, -1⟩ 1 ⟨0, 0, 255⟩
      ⟨[], [], []⟩ _ (Nat.le_add_right _ _),
    fun fuel => float32_draw_circle_eq_calls cosf sinf radians fuel ⟨1, -1⟩ 1 ⟨0, 0, 255⟩
      ⟨[], [], []⟩,
    float32_circle_samples_length _ _ _ _ _, ?_⟩
  rw [float32_circle_samples_getLast, float32_circle_sample_eq]
  have h360 : float_of_int 360 = 360 := by
    have := float_of_int_exact 360 (by norm_num)
    simpa using this
  rw [h360, hc]
  simp only
  rw [float32_circle_coordinate_one 1 1 (by norm_num) (by norm_num) (by norm_num),
    float32_circle_coordinate_neg_one _ hs0 hs1]
  rfl

/-- C14, amended: `draw_circle` returns with enough fuel, and its 361 calls of
`draw_line` join the point `centre + (radius, 0)` to the 361 samples taken at
0, 1, ..., 360 degrees in binary32 arithmetic, each call starting where the
previous one ended. For a centre with coordinates of magnitude at most 1024, a
radius between 0 and 1024, and a cosine and sine with the values 1 and 0 at
`glm::radians(0.0f)`, the sample of 0 degrees is `centre + (radius, 0)`, so
the first call is a zero-length segment. The sample of 360 degrees is again
`centre + (radius, 0)` when `centre.y ≥ 0` and, at `glm::radians(360.0f)`, the
cosine is 1 and the sine is between 0 and `2 ^ (-20)`. -/
theorem float32_draw_circle_polyline (cosf sinf radians : ℚ → ℚ) (centre : ivec2)
    (radius : Int) (colour : ivec3) (s : Trace)
    (h0c : cosf (radians 0) = 1) (h0s : sinf (radians 0) = 0)
    (hc : small_point centre) (hr0 : 0 ≤ radius) (hr : radius ≤ 1024) :
    ∃ (fuel0 : Nat) (s' : Trace) (samples : List ivec2),
      (∀ k : Nat, float32.draw_circle cosf sinf radians (fuel0 + k) centre radius colour s =
        some s') ∧
      (∀ fuel : Nat, float32.draw_circle cosf sinf radians fuel centre radius colour s =
        (polyline_calls ⟨centre.x + radius, centre.y⟩ samples).foldlM
          (fun t c => float32.draw_line fuel c.1 c.2 colour t) s) ∧
      samples = (List.range 361).map (fun (angle : Nat) =>
        (⟨float_to_int (float_add (float_of_int centre.x)
            (float_mul (cosf (radians (float_of_int (angle : Int)))) (float_of_int radius))),
          float_to_int (float_add (float_of_int centre.y)
            (float_mul (sinf (radians (float_of_int (angle : Int)))) (float_of_int radius)))⟩ :
          ivec2)) ∧
      samples.length = 361 ∧
      samples.head? = some ⟨centre.x + radius, centre.y⟩ ∧
      (polyline_calls ⟨centre.x + radius, centre.y⟩ samples).length = 361 ∧
      (polyline_calls ⟨centre.x + radius, centre.y⟩ samples).head? =
        some (⟨centre.x + radius, centre.y⟩, ⟨centre.x + radius, centre.y⟩) ∧
      (polyline_calls ⟨centre.x + radius, centre.y⟩ samples).map (fun c => c.2) = samples ∧
      (polyline_calls ⟨centre.x + radius, centre.y⟩ samples).Chain'
        (fun c d => d.1 = c.2) ∧
      (0 ≤ centre.y → cosf (radians 360) = 1 → 0 ≤ sinf (radians 360) →
        sinf (radians 360) ≤ 1 / 2 ^ 20 →
        samples.getLast? = some ⟨centre.x + radius, centre.y⟩) := by
  obtain ⟨hcx, hcy⟩ := hc
  have hcx' := abs_le.mp hcx
  have hcy' := abs_le.mp hcy
  have b1 : |centre.x| ≤ 2 ^ 24 := le_trans hcx (by norm_num)
  have b2 : |centre.y| ≤ 2 ^ 24 := le_trans hcy (by norm_num)
  have b3 : |radius| ≤ 2 ^ 24 := by rw [abs_le]; omega
  have b4 : |centre.x + radius| ≤ 2 ^ 24 := by rw [abs_le]; omega
  have hhead : (float32.circle_samples cosf sinf radians centre radius).head? =
      some ⟨centre.x + radius, centre.y⟩ := by
    rw [float32_circle_samples_head, float32_circle_sample_eq, float_of_int_zero, h0c, h0s,
      float32_circle_coordinate_one _ _ b1 b3 b4, float32_circle_coordinate_zero _ _ b2]
  refine ⟨polyline_fuel (float32.circle_calls cosf sinf radians centre radius), _,
    float32.circle_samples cosf sinf radians centre radius,
    fun k => float32_draw_circle_eq_result cosf sinf radians centre radius colour s _
      (Nat.le_add_right _ _),
    fun fuel => float32_draw_circle_eq_calls cosf sinf radians fuel centre radius colour s,
    rfl, float32_circle_samples_length _ _ _ _ _, hhead, ?_,
    polyline_calls_head_of_head _ _ hhead, polyline_calls_ends _ _,
    polyline_calls_chain _ _, ?_⟩
  · rw [polyline_calls_length, float32_circle_samples_length]
  · intro hy0 h360c h360s0 h360s
    have h360 : float_of_int 360 = 360 := by
      have := float_of_int_exact 360 (by norm_num)
      simpa using this
    rw [float32_circle_samples_getLast, float32_circle_sample_eq, h360, h360c,
      float32_circle_coordinate_one _ _ b1 b3 b4,
      float32_circle_coordinate_small centre.y radius _ hy0 hcy'.2 hr0 hr h360s0 h360s]

/-- Witness for C14: the circle that `main` draws, of radius 250 around
(400, 300), with `glm::radians`, a cosine that is 1 and the sine
`sinf_near_zero`; the outline closes, because `centre.y ≥ 0`. -/
theorem float32_draw_circle_polyline_witness :
    ∃ (fuel0 : Nat) (s' : Trace) (samples : List ivec2),
      (∀ k : Nat, float32.draw_circle (fun _ => 1) sinf_near_zero glm_radians (fuel0 + k)
        ⟨400, 300⟩ 250 ⟨0, 0, 255⟩ ⟨[], [], []⟩ = some s') ∧
      samples.length = 361 ∧
      samples.head? = some ⟨650, 300⟩ ∧
      (polyline_calls ⟨650, 300⟩ samples).length = 361 ∧
      (polyline_calls ⟨650, 300⟩ samples).Chain' (fun c d => d.1 = c.2) ∧
      samples.getLast? = some ⟨650, 300⟩ := by
  have hs0 : sinf_near_zero (glm_radians 0) = 0 := by
    rw [glm_radians_zero]
    rfl
  have hs360 : sinf_near_zero (glm_radians 360) = 6151831 / 35184372088832 := by
    rw [glm_radians_360]
    decide!
  obtain ⟨fuel0, s', samples, h1, _, _, h4, h5, h6, _, _, h9, h10⟩ :=
    float32_draw_circle_polyline (fun _ => 1) sinf_near_zero glm_radians ⟨400, 300⟩ 250
      ⟨0, 0, 255⟩ ⟨[], [], []⟩ rfl hs0 ⟨by decide, by decide⟩ (by decide) (by decide)
  exact ⟨fuel0, s', samples, h1, h4, h5, h6, h9,
    h10 (by decide) rfl (by rw [hs360]; norm_num) (by rw [hs360]; norm_num)⟩

end MCG
